import Mathlib

/-!
Verification development for the identifier-tree builder (`toIdSchema`) of a
JSON-Schema-driven form library.  The JSON data model, the builder itself and
its helpers are embedded below; the builder follows the source of
`packages/utils/src/schema/toIdSchema.ts` line by line, with recursion made
explicit through a fuel parameter (the source function has no built-in depth
bound).  Helpers that live outside the excerpted source (the schema retriever,
the type classifier, the structural equality comparer) are modelled from the
specification and marked as such in their doc comments.
-/

/-- A JSON value: the untyped, recursively-nested representation used for
schema nodes, root schemas and form data.  Object fields are an ordered
association list, mirroring JavaScript object key insertion order (which the
builder's property iteration observes). -/
inductive Json where
  | null : Json
  | bool (b : Bool) : Json
  | num (n : Int) : Json
  | str (s : String) : Json
  | arr (elems : List Json) : Json
  | obj (fields : List (String × Json)) : Json

mutual

/-- Decidable structural equality on `Json`. -/
def jdec : (a b : Json) → Decidable (a = b)
  | .null, .null => isTrue rfl
  | .bool a, .bool b =>
    match decEq a b with
    | isTrue h => isTrue (by rw [h])
    | isFalse h => isFalse (fun hh => h (by injection hh))
  | .num a, .num b =>
    match decEq a b with
    | isTrue h => isTrue (by rw [h])
    | isFalse h => isFalse (fun hh => h (by injection hh))
  | .str a, .str b =>
    match decEq a b with
    | isTrue h => isTrue (by rw [h])
    | isFalse h => isFalse (fun hh => h (by injection hh))
  | .arr a, .arr b =>
    match jdecA a b with
    | isTrue h => isTrue (by rw [h])
    | isFalse h => isFalse (fun hh => h (by injection hh))
  | .obj a, .obj b =>
    match jdecF a b with
    | isTrue h => isTrue (by rw [h])
    | isFalse h => isFalse (fun hh => h (by injection hh))
  | .null, .bool _ => isFalse (fun h => Json.noConfusion h)
  | .null, .num _ => isFalse (fun h => Json.noConfusion h)
  | .null, .str _ => isFalse (fun h => Json.noConfusion h)
  | .null, .arr _ => isFalse (fun h => Json.noConfusion h)
  | .null, .obj _ => isFalse (fun h => Json.noConfusion h)
  | .bool _, .null => isFalse (fun h => Json.noConfusion h)
  | .bool _, .num _ => isFalse (fun h => Json.noConfusion h)
  | .bool _, .str _ => isFalse (fun h => Json.noConfusion h)
  | .bool _, .arr _ => isFalse (fun h => Json.noConfusion h)
  | .bool _, .obj _ => isFalse (fun h => Json.noConfusion h)
  | .num _, .null => isFalse (fun h => Json.noConfusion h)
  | .num _, .bool _ => isFalse (fun h => Json.noConfusion h)
  | .num _, .str _ => isFalse (fun h => Json.noConfusion h)
  | .num _, .arr _ => isFalse (fun h => Json.noConfusion h)
  | .num _, .obj _ => isFalse (fun h => Json.noConfusion h)
  | .str _, .null => isFalse (fun h => Json.noConfusion h)
  | .str _, .bool _ => isFalse (fun h => Json.noConfusion h)
  | .str _, .num _ => isFalse (fun h => Json.noConfusion h)
  | .str _, .arr _ => isFalse (fun h => Json.noConfusion h)
  | .str _, .obj _ => isFalse (fun h => Json.noConfusion h)
  | .arr _, .null => isFalse (fun h => Json.noConfusion h)
  | .arr _, .bool _ => isFalse (fun h => Json.noConfusion h)
  | .arr _, .num _ => isFalse (fun h => Json.noConfusion h)
  | .arr _, .str _ => isFalse (fun h => Json.noConfusion h)
  | .arr _, .obj _ => isFalse (fun h => Json.noConfusion h)
  | .obj _, .null => isFalse (fun h => Json.noConfusion h)
  | .obj _, .bool _ => isFalse (fun h => Json.noConfusion h)
  | .obj _, .num _ => isFalse (fun h => Json.noConfusion h)
  | .obj _, .str _ => isFalse (fun h => Json.noConfusion h)
  | .obj _, .arr _ => isFalse (fun h => Json.noConfusion h)

def jdecA : (a b : List Json) → Decidable (a = b)
  | [], [] => isTrue rfl
  | a :: as, b :: bs =>
    match jdec a b, jdecA as bs with
    | isTrue h1, isTrue h2 => isTrue (by rw [h1, h2])
    | isFalse h1, _ => isFalse (fun hh => h1 (by injection hh))
    | _, isFalse h2 => isFalse (fun hh => h2 (by injection hh))
  | [], _ :: _ => isFalse (fun h => List.noConfusion h)
  | _ :: _, [] => isFalse (fun h => List.noConfusion h)

def jdecF : (a b : List (String × Json)) → Decidable (a = b)
  | [], [] => isTrue rfl
  | (k, v) :: as, (l, w) :: bs =>
    match decEq k l, jdec v w, jdecF as bs with
    | isTrue h1, isTrue h2, isTrue h3 => isTrue (by rw [h1, h2, h3])
    | isFalse h1, _, _ => isFalse (fun hh => by
        injection hh with hp ht
        injection hp with h1x h2x
        exact h1 h1x)
    | _, isFalse h2, _ => isFalse (fun hh => by
        injection hh with hp ht
        injection hp with h1x h2x
        exact h2 h2x)
    | _, _, isFalse h3 => isFalse (fun hh => by
        injection hh with hp ht
        exact h3 ht)
  | [], _ :: _ => isFalse (fun h => List.noConfusion h)
  | _ :: _, [] => isFalse (fun h => List.noConfusion h)

end

instance : DecidableEq Json := jdec

/-- Association-list lookup, returning the first binding of a key. -/
def lookupF : List (String × Json) → String → Option Json
  | [], _ => none
  | (k, v) :: rest, q => if k = q then some v else lookupF rest q

/-- Property lookup on a JSON value (`none` on non-objects, mirroring
JavaScript property access on non-object values yielding `undefined`). -/
def Json.lookup (j : Json) (k : String) : Option Json :=
  match j with
  | .obj fs => lookupF fs k
  | _ => none

/-- The JavaScript `key in object` test. -/
def Json.hasKey (j : Json) (k : String) : Bool :=
  (j.lookup k).isSome

/-- Remove every binding of a key from a field list. -/
def eraseF (fs : List (String × Json)) (k : String) : List (String × Json) :=
  fs.filter (fun p => p.1 != k)

/-- Remove a key from a JSON object (identity on non-objects). -/
def Json.eraseKey (j : Json) (k : String) : Json :=
  match j with
  | .obj fs => .obj (eraseF fs k)
  | _ => j

/-- Whether a JSON value is an object. -/
def isObj : Json → Bool
  | .obj _ => true
  | _ => false

/-- JavaScript truthiness of a JSON value. -/
def jsTruthy : Json → Bool
  | .null => false
  | .bool b => b
  | .num n => n != 0
  | .str s => s != ""
  | .arr _ => true
  | .obj _ => true

/-- The JavaScript expression `id || fallback`: the fallback is used when the
id is absent or an empty string (both falsy). -/
def jsOr (id : Option String) (fallback : String) : String :=
  match id with
  | some s => if s = "" then fallback else s
  | none => fallback

/-- The lodash call `get(formData, [name])`: field access on the current form
data, `none` when the data is absent or not an object. -/
def jsonGet (fd : Option Json) (k : String) : Option Json :=
  match fd with
  | some (.obj fs) => lookupF fs k
  | _ => none

/-- Total comparison of character lists, used only to pick a canonical field
order for the order-insensitive structural comparer. -/
def leChars : List Char → List Char → Bool
  | [], _ => true
  | _ :: _, [] => false
  | a :: as, b :: bs =>
    if a.toNat < b.toNat then true
    else if b.toNat < a.toNat then false
    else leChars as bs

/-- Key order used by the canonicaliser. -/
def leKey (a b : String) : Bool :=
  leChars a.data b.data

/-- Insertion step of the field sort. -/
def insertPair (p : String × Json) : List (String × Json) → List (String × Json)
  | [] => [p]
  | q :: qs => if leKey p.1 q.1 then p :: q :: qs else q :: insertPair p qs

/-- Insertion sort of object fields by key. -/
def sortPairs : List (String × Json) → List (String × Json)
  | [] => []
  | p :: ps => insertPair p (sortPairs ps)

mutual

/-- Canonical form of a JSON value: object fields sorted by key at every
depth, so that values differing only in key order become equal. -/
def normalizeJ : Json → Json
  | .obj fs => .obj (sortPairs (normalizeF fs))
  | .arr xs => .arr (normalizeA xs)
  | .null => .null
  | .bool b => .bool b
  | .num n => .num n
  | .str s => .str s
  termination_by structural j => j

def normalizeF : List (String × Json) → List (String × Json)
  | [] => []
  | (k, v) :: rest => (k, normalizeJ v) :: normalizeF rest
  termination_by structural l => l

def normalizeA : List Json → List Json
  | [] => []
  | x :: xs => normalizeJ x :: normalizeA xs
  termination_by structural l => l

end

/-- Modelled from the spec: the structural equality comparer (`deepEquals`),
whose source is not part of the excerpt — a deep, order-insensitive-where-
appropriate equality over parsed schema/data trees, used purely to detect
resolution cycles.  Two values are equal when their canonical forms (object
fields sorted by key at every depth) coincide. -/
def deepEquals (a b : Json) : Bool :=
  decide (normalizeJ a = normalizeJ b)

mutual

/-- Number of occurrences of the three retrieval keywords (`$ref`,
`dependencies`, `allOf`) anywhere in a JSON value; a termination measure for
the resolution loop. -/
def occJ : Json → Nat
  | .obj fs => occF fs
  | .arr xs => occA xs
  | .null => 0
  | .bool _ => 0
  | .num _ => 0
  | .str _ => 0
  termination_by structural j => j

def occF : List (String × Json) → Nat
  | [] => 0
  | (k, v) :: rest =>
    (if k = "$ref" ∨ k = "dependencies" ∨ k = "allOf" then 1 else 0) + occJ v + occF rest
  termination_by structural l => l

def occA : List Json → Nat
  | [] => 0
  | x :: xs => occJ x + occA xs
  termination_by structural l => l

end

mutual

/-- All subterms of a JSON value (the value itself included). -/
def subJ : Json → List Json
  | .obj fs => .obj fs :: subF fs
  | .arr xs => .arr xs :: subA xs
  | j => [j]
  termination_by structural j => j

def subF : List (String × Json) → List Json
  | [] => []
  | (_, v) :: rest => subJ v ++ subF rest
  termination_by structural l => l

def subA : List Json → List Json
  | [] => []
  | x :: xs => subJ x ++ subA xs
  termination_by structural l => l

end

/-- Split a character list on `/`, accumulating the current segment. -/
def splitParts : List Char → List Char → List String
  | [], acc => [String.mk acc.reverse]
  | c :: cs, acc =>
    if c = '/' then String.mk acc.reverse :: splitParts cs []
    else splitParts cs (c :: acc)

/-- Split a JSON pointer such as `#/defs/item` into its path segments: an
optional leading `#` is dropped, then the slash-separated segments follow. -/
def ptrSegments (ptr : String) : List String :=
  let cs :=
    match ptr.data with
    | '#' :: rest => rest
    | cs => cs
  match cs with
  | [] => []
  | '/' :: rest => splitParts rest []
  | other => splitParts other []

/-- Walk a segment path through nested objects. -/
def ptrWalk : Json → List String → Option Json
  | j, [] => some j
  | j, s :: rest =>
    match j.lookup s with
    | some v => ptrWalk v rest
    | none => none

/-- Modelled from the spec: reference lookup inside the root schema (the
`findSchemaDefinition` helper is not part of the excerpt).  A `$ref` value is
resolved against the supplied root schema only. -/
def jsonPointerGet (root : Option Json) (ptr : String) : Option Json :=
  match root with
  | some r => ptrWalk r (ptrSegments ptr)
  | none => none

/-- Keep the first binding of every key. -/
def dedupKeys : List (String × Json) → List (String × Json)
  | [] => []
  | p :: rest => p :: (dedupKeys rest).filter (fun q => q.1 != p.1)

/-- The keys of a field list. -/
def keysOf (fs : List (String × Json)) : List String :=
  fs.map Prod.fst

/-- Key-wise union of two `properties` maps; on a shared name the later
branch wins. -/
def unionProps (pa pb : List (String × Json)) : List (String × Json) :=
  pa.filter (fun p => (lookupF pb p.1).isNone) ++ pb

/-- Merge the two values bound to one key: `required` arrays concatenate,
`properties` maps merge key-wise, any other conflict is won by the later
branch. -/
def mergeFieldValue (k : String) (va vb : Json) : Json :=
  if k = "required" then
    match va, vb with
    | .arr xs, .arr ys => .arr (xs ++ ys)
    | _, _ => vb
  else if k = "properties" then
    match va, vb with
    | .obj pa, .obj pb => .obj (unionProps pa pb)
    | _, _ => vb
  else vb

/-- Key-wise merge of two field lists (later keys take precedence on
conflicts, with the structural exceptions of `mergeFieldValue`). -/
def mergeFields (fa fb : List (String × Json)) : List (String × Json) :=
  let fa1 := dedupKeys fa
  let fb1 := dedupKeys fb
  fa1.filter (fun p => (lookupF fb1 p.1).isNone) ++
    fb1.map (fun p =>
      match lookupF fa1 p.1 with
      | some va => (p.1, mergeFieldValue p.1 va p.2)
      | none => p)

/-- Modelled from the spec: the default merge of two schema fragments (the
`allOf`/`dependencies` merge helper is not part of the excerpt) — branches
merge left-to-right, later keys take precedence on conflicts except that
`required` arrays concatenate and `properties` maps merge key-wise. -/
def mergeSchemas : Json → Json → Json
  | .obj fa, .obj fb => .obj (mergeFields fa fb)
  | _, b => b

/-- Modelled from the spec: `dependencies` resolution (not part of the
excerpt) — for each field of the `dependencies` map whose triggering value is
present in the form data and whose dependency is a sub-schema, merge that
sub-schema into the node with the `allOf` merge policy. -/
def resolveDependencies (schema : Json) (formData : Option Json) : Json :=
  match schema.lookup "dependencies" with
  | some (.obj deps) =>
    let base := schema.eraseKey "dependencies"
    let fired := (dedupKeys deps).filter (fun p => (jsonGet formData p.1).isSome && isObj p.2)
    fired.foldl (fun acc p => mergeSchemas acc p.2) base
  | some _ => schema.eraseKey "dependencies"
  | none => schema

/-- Modelled from the spec: the default `allOf` expansion (not part of the
excerpt) — branches are merged left-to-right into the node stripped of its
`allOf` keyword. -/
def defaultMergeAllOf (schema : Json) : Json :=
  match schema.lookup "allOf" with
  | some (.arr branches) => branches.foldl mergeSchemas (schema.eraseKey "allOf")
  | some _ => schema.eraseKey "allOf"
  | none => schema

/-- Modelled from the spec: the caller-suppliable custom `allOf` merge
strategy (`Experimental_CustomMergeAllOf`, declared outside the excerpt): it
receives the schema carrying the `allOf` keyword and returns the merged
fragment, overriding the default merge entirely. -/
def CustomMergeAllOf : Type :=
  Json → Json

/-- Apply the `allOf` merge policy: the custom merge function, if provided,
overrides the default strategy. -/
def mergeAllOfKeyword (schema : Json) (cm : Option CustomMergeAllOf) : Json :=
  if schema.hasKey "allOf" then
    match cm with
    | some f => f schema
    | none => defaultMergeAllOf schema
  else schema

/-- Modelled from the spec: the validator interface (`ValidatorType`,
declared outside the excerpt).  The builder only threads it through to the
schema retriever. -/
structure ValidatorType where
  isValid : Json → Option Json → Option Json → Bool

/-- Modelled from the spec: the schema retriever (`retrieveSchema`, whose
source is not part of the excerpt) — given a root schema, a node and current
form data it produces the effective schema for the node by expanding `$ref`
(replacement by the pointed-to content; an unresolvable pointer degrades to
dropping the reference), activating `dependencies`-driven conditional
sub-schemas from the form data, and merging `allOf` branches. -/
def retrieveSchema (validator : ValidatorType) (schema : Json) (rootSchema : Option Json)
    (formData : Option Json) (cm : Option CustomMergeAllOf) : Json :=
  match schema.lookup "$ref" with
  | some (.str ptr) =>
    match jsonPointerGet rootSchema ptr with
    | some target => target
    | none => schema.eraseKey "$ref"
  | some _ => schema.eraseKey "$ref"
  | none => mergeAllOfKeyword (resolveDependencies schema formData) cm

/-- Modelled from the spec: the schema-type classifier (`getSchemaType`, not
part of the excerpt) — the explicit `type` keyword wins (a list of types
classifies as `multi`); otherwise `object` is inferred from `properties`,
`array` from `items`, `string` from `enum`. -/
def getSchemaType (schema : Json) : String :=
  match schema.lookup "type" with
  | some (.str t) => t
  | some (.arr _) => "multi"
  | _ =>
    if schema.hasKey "properties" then "object"
    else if schema.hasKey "items" then "array"
    else if schema.hasKey "enum" then "string"
    else "unknown"

/-- The identifier tree: every node carries its `$id` string plus the
identifier subtrees of its declared children. -/
inductive IdSchema where
  | node (id : String) (children : List (String × IdSchema)) : IdSchema

/-- The `$id` carried at the root of an identifier tree. -/
def IdSchema.id : IdSchema → String
  | .node i _ => i

/-- The named children of an identifier tree node. -/
def IdSchema.children : IdSchema → List (String × IdSchema)
  | .node _ cs => cs

mutual

/-- Decidable structural equality on identifier trees. -/
def idec : (a b : IdSchema) → Decidable (a = b)
  | .node i cs, .node j ds =>
    match decEq i j, idecL cs ds with
    | isTrue h1, isTrue h2 => isTrue (by rw [h1, h2])
    | isFalse h1, _ => isFalse (fun hh => h1 (by injection hh))
    | _, isFalse h2 => isFalse (fun hh => h2 (by injection hh))

def idecL : (a b : List (String × IdSchema)) → Decidable (a = b)
  | [], [] => isTrue rfl
  | (k, t) :: as, (l, u) :: bs =>
    match decEq k l, idec t u, idecL as bs with
    | isTrue h1, isTrue h2, isTrue h3 => isTrue (by rw [h1, h2, h3])
    | isFalse h1, _, _ => isFalse (fun hh => by
        injection hh with hp ht
        injection hp with h1x h2x
        exact h1 h1x)
    | _, isFalse h2, _ => isFalse (fun hh => by
        injection hh with hp ht
        injection hp with h1x h2x
        exact h2 h2x)
    | _, _, isFalse h3 => isFalse (fun hh => by
        injection hh with hp ht
        exact h3 ht)
  | [], _ :: _ => isFalse (fun h => List.noConfusion h)
  | _ :: _, [] => isFalse (fun h => List.noConfusion h)

end

instance : DecidableEq IdSchema := idec

mutual

/-- Every `$id` generated in an identifier tree, in traversal order. -/
def collectIds : IdSchema → List String
  | .node i cs => i :: collectIdsL cs

def collectIdsL : List (String × IdSchema) → List String
  | [] => []
  | (_, t) :: rest => collectIds t ++ collectIdsL rest

end

/-- `Option`-valued map over a list, failing when any element fails. -/
def optMapList {α β : Type} (f : α → Option β) : List α → Option (List β)
  | [] => some []
  | a :: as =>
    match f a, optMapList f as with
    | some b, some bs => some (b :: bs)
    | _, _ => none

/-- The condition of the retrieval branch of `toIdSchemaInternal`:
`REF_KEY in schema || DEPENDENCIES_KEY in schema || ALL_OF_KEY in schema`. -/
def hasRetrievalKeys (schema : Json) : Bool :=
  schema.hasKey "$ref" || schema.hasKey "dependencies" || schema.hasKey "allOf"

/-- `get(schema, [ITEMS_KEY, REF_KEY])` of the source. -/
def itemsRefValue (schema : Json) : Option Json :=
  match schema.lookup "items" with
  | some it => it.lookup "$ref"
  | none => none

/-- The array-delegation condition of the source:
`ITEMS_KEY in schema && !get(schema, [ITEMS_KEY, REF_KEY])`. -/
def itemsDelegate (schema : Json) : Bool :=
  schema.hasKey "items" &&
    !(match itemsRefValue schema with
      | some v => jsTruthy v
      | none => false)

/-- The part of `toIdSchemaInternal` that runs after the retrieval branch was
skipped or declined: array delegation, then the object/properties recursion,
then the bare-identifier base case.  The recursive re-entry is abstracted as
`recur schema id formData`. -/
def toIdSchemaRest (recur : Json → Option String → Option Json → Option IdSchema)
    (schema : Json) (idStr : String) (idSeparator : String) (id : Option String)
    (formData : Option Json) : Option IdSchema :=
  if itemsDelegate schema then
    recur ((schema.lookup "items").getD .null) id formData
  else if getSchemaType schema == "object" && schema.hasKey "properties" then
    match schema.lookup "properties" with
    | some (.obj props) =>
      (optMapList (fun p =>
        (recur p.2 (some (idStr ++ idSeparator ++ p.1)) (jsonGet formData p.1)).map
          (fun t => (p.1, t))) props).map
        (fun cs => IdSchema.node idStr cs)
    | _ => some (.node idStr [])
  else some (.node idStr [])

/-- The embedding of `toIdSchemaInternal` (source lines 31–96).  `fuel` bounds
the recursion depth explicitly — the source function recurses without a bound
and is protected only by the recursion guard list, so exhausted fuel returns
`none`; every claim about the builder is stated through values the builder
reaches with some fuel. -/
def toIdSchemaFuel (validator : ValidatorType) :
    Nat → Json → String → String → Option String → Option Json → Option Json →
      List Json → Option CustomMergeAllOf → Option IdSchema
  | 0, _, _, _, _, _, _, _, _ => none
  | Nat.succ n, schema, idPre, idSeparator, id, rootSchema, formData, recurseList, cm =>
    let idStr := jsOr id idPre
    match schema with
    | .obj _ =>
      if hasRetrievalKeys schema &&
          !(recurseList.any (fun item =>
            deepEquals item (retrieveSchema validator schema rootSchema formData cm))) then
        toIdSchemaFuel validator n (retrieveSchema validator schema rootSchema formData cm)
          idPre idSeparator id rootSchema formData
          (recurseList ++ [retrieveSchema validator schema rootSchema formData cm]) cm
      else
        toIdSchemaRest
          (fun s i fd => toIdSchemaFuel validator n s idPre idSeparator i rootSchema fd recurseList cm)
          schema idStr idSeparator id formData
    | _ => some (.node idStr [])

/-- The embedding of the public entry point `toIdSchema` (source lines
110–131): the prefix defaults to `"root"` and the separator to `"_"` when the
caller omits them, and the recursion guard list starts empty. -/
def toIdSchema (validator : ValidatorType) (fuel : Nat) (schema : Json) (id : Option String)
    (rootSchema formData : Option Json) ( idPre idSeparator : Option String)
    (cm : Option CustomMergeAllOf) : Option IdSchema :=
  toIdSchemaFuel validator fuel schema ( idPre.getD "root") (idSeparator.getD "_") id
    rootSchema formData [] cm

/-- The internal builder reaches the result `t` with some fuel. -/
def ComputesInternal (validator : ValidatorType) (schema : Json)
    ( idPre idSeparator : String) (id : Option String) (rootSchema formData : Option Json)
    (recurseList : List Json) (cm : Option CustomMergeAllOf) (t : IdSchema) : Prop :=
  ∃ n, toIdSchemaFuel validator n schema idPre idSeparator id rootSchema formData
    recurseList cm = some t

/-- The public entry point reaches the result `t` with some fuel. -/
def Computes (validator : ValidatorType) (schema : Json) (id : Option String)
    (rootSchema formData : Option Json) ( idPre idSeparator : Option String)
    (cm : Option CustomMergeAllOf) (t : IdSchema) : Prop :=
  ∃ n, toIdSchema validator n schema id rootSchema formData idPre idSeparator cm = some t


mutual

/-- Structural size of a JSON value, a strict measure for descent into
subterms. -/
def sizeJ : Json → Nat
  | .obj fs => 1 + sizeF fs
  | .arr xs => 1 + sizeA xs
  | .null => 1
  | .bool _ => 1
  | .num _ => 1
  | .str _ => 1
  termination_by structural j => j

def sizeF : List (String × Json) → Nat
  | [] => 0
  | (_, v) :: rest => 1 + sizeJ v + sizeF rest
  termination_by structural l => l

def sizeA : List Json → Nat
  | [] => 0
  | x :: xs => 1 + sizeJ x + sizeA xs
  termination_by structural l => l

end

/-- The keys of a field list are pairwise distinct. -/
def NodupKeys (l : List (String × Json)) : Prop :=
  (keysOf l).Nodup


/-- The subterm list of an optional root schema. -/
def subO : Option Json → List Json
  | none => []
  | some r => subJ r

/-- Whether a node is structurally equal to some entry of the guard list. -/
def guardMatched (guard : List Json) (t : Json) : Bool :=
  guard.any (fun g => deepEquals g t)

/-- The count of root-schema subterms not yet matched by the guard list: the
primary component of the termination measure of the resolution loop. -/
def unmatched (root : Option Json) (guard : List Json) : Nat :=
  (subO root).countP (fun t => !(guardMatched guard t))

/-- A trivial validator used in the concrete examples. -/
def exValidator : ValidatorType :=
  ⟨fun _ _ _ => true⟩

/-- Spec example scenario 1: an object schema with two scalar properties. -/
def exObjSchema : Json :=
  .obj [("type", .str "object"),
        ("properties", .obj [("a", .obj [("type", .str "string")]),
                             ("b", .obj [("type", .str "number")])])]

/-- The identifier tree claimed for scenario 1. -/
def exObjTree : IdSchema :=
  .node "root" [("a", .node "root_a" []), ("b", .node "root_b" [])]

/-- Spec example scenario 3: a self-referential schema. -/
def cycSchema : Json :=
  .obj [("$ref", .str "#/defs/node")]

/-- The root schema for scenario 3: `defs.node` refers to itself. -/
def cycRoot : Json :=
  .obj [("defs", .obj [("node", .obj [("$ref", .str "#/defs/node")])])]

/-- The item schema of the array-delegation example. -/
def exItemSchema : Json :=
  .obj [("type", .str "object"),
        ("properties", .obj [("s", .obj [("type", .str "string")])])]

/-- An array schema whose item schema is not a reference. -/
def exArrSchema : Json :=
  .obj [("type", .str "array"), ("items", exItemSchema)]

/-- A bare reference node. -/
def exRefItems : Json :=
  .obj [("$ref", .str "#/defs/item")]

/-- An array schema whose item schema is a bare reference. -/
def exArrRef : Json :=
  .obj [("type", .str "array"), ("items", exRefItems)]

/-- Spec example scenario 4: an object with a property named `items` holding
an array whose item schema is a bare reference. -/
def exScenario4 : Json :=
  .obj [("type", .str "object"), ("properties", .obj [("items", exArrRef)])]

/-- The root schema for scenario 4, with a resolvable item definition. -/
def exScenario4Root : Json :=
  .obj [("defs", .obj [("item",
    .obj [("type", .str "object"),
          ("properties", .obj [("x", .obj [("type", .str "string")])])])])]

/-- A schema with distinct property names at each nesting level that
nevertheless produces colliding identifiers: the id of `a.b` and the id of
`a_b` are both `root_a_b`. -/
def exCollide : Json :=
  .obj [("properties",
    .obj [("a", .obj [("properties", .obj [("b", .obj [])])]),
          ("a_b", .obj [])])]

/-- The identifier tree of `exCollide`, carrying the duplicate id. -/
def exCollideTree : IdSchema :=
  .node "root" [("a", .node "root_a" [("b", .node "root_a_b" [])]),
                ("a_b", .node "root_a_b" [])]

/-- Well-formedness of one node for the id-uniqueness analysis: if it is an
object, its keys avoid the character `c` and are pairwise distinct. -/
def objOk (c : Char) : Json → Prop
  | .obj fs => (∀ p ∈ fs, c ∉ (p.1 : String).data) ∧ NodupKeys fs
  | _ => True

/-- Every subterm of the value satisfies `objOk`. -/
def goodKeys (c : Char) (j : Json) : Prop :=
  ∀ x ∈ subJ j, objOk c x

/-- Every subterm of the optional root schema satisfies `objOk`. -/
def goodKeysO (c : Char) (root : Option Json) : Prop :=
  ∀ x ∈ subO root, objOk c x

instance (l : List (String × Json)) : Decidable (NodupKeys l) :=
  List.nodupDecidable _

def objOkDec (c : Char) : (x : Json) → Decidable (objOk c x)
  | .obj fs => inferInstanceAs (Decidable (_ ∧ _))
  | .null => isTrue trivial
  | .bool _ => isTrue trivial
  | .num _ => isTrue trivial
  | .str _ => isTrue trivial
  | .arr _ => isTrue trivial

instance (c : Char) (x : Json) : Decidable (objOk c x) :=
  objOkDec c x

instance (c : Char) (j : Json) : Decidable (goodKeys c j) :=
  List.decidableBAll _ _

instance (c : Char) (root : Option Json) : Decidable (goodKeysO c root) :=
  List.decidableBAll _ _

/-- Whether a character is a decimal digit. -/
def isDigitChar (ch : Char) : Bool :=
  48 ≤ ch.toNat && ch.toNat ≤ 57

/-- Numeric value of a digit character. -/
def digitVal (ch : Char) : Nat :=
  ch.toNat - 48

/-- Numeric value of a digit string. -/
def strToNat (s : String) : Nat :=
  s.data.foldl (fun acc ch => acc * 10 + digitVal ch) 0

/-- Whether a string is a canonical integer index the way JavaScript array
indices and for-in enumeration treat it: `"0"`, or digits without a leading
zero. -/
def integerLike (s : String) : Bool :=
  match s.data with
  | [] => false
  | ['0'] => true
  | ch :: rest => isDigitChar ch && ch != '0' && rest.all isDigitChar

/-- Insertion step of the ascending numeric sort of integer-like keys. -/
def insertName (nm : String) : List String → List String
  | [] => [nm]
  | x :: xs => if strToNat nm ≤ strToNat x then nm :: x :: xs else x :: insertName nm xs

/-- Ascending numeric sort of integer-like keys. -/
def sortNumeric : List String → List String
  | [] => []
  | x :: xs => insertName x (sortNumeric xs)

/-- Keep the first occurrence of every name. -/
def dedupNames : List String → List String
  | [] => []
  | x :: xs => x :: (dedupNames xs).filter (fun y => y != x)

/-- JavaScript for-in enumeration order over an object's own keys:
integer-like keys first in ascending numeric order, then the remaining keys
in insertion order. -/
def forInKeys (fs : List (String × Json)) : List String :=
  let ks := dedupNames (keysOf fs)
  sortNumeric (ks.filter integerLike) ++ ks.filter (fun k => !(integerLike k))

mutual

/-- JavaScript string coercion of a value, as performed by the `+` operator
in `idSchema[ID_KEY] + idSeparator + name`: strings stay, plain objects
become `"[object Object]"`, arrays join their elements with commas (null
elements joining as empty). -/
def jsToString : Json → String
  | .null => "null"
  | .bool b => if b then "true" else "false"
  | .num n => toString n
  | .str s => s
  | .arr xs => jsToStringArr xs
  | .obj _ => "[object Object]"

def jsToStringArr : List Json → String
  | [] => ""
  | [.null] => ""
  | [x] => jsToString x
  | .null :: y :: xs => "," ++ jsToStringArr (y :: xs)
  | x :: y :: xs => jsToString x ++ "," ++ jsToStringArr (y :: xs)

end

/-- JavaScript property assignment on a field list: an existing key is
updated in place, a new key is appended. -/
def setKeyF : List (String × Json) → String → Json → List (String × Json)
  | [], k, v => [(k, v)]
  | (a, b) :: rest, k, v =>
    if a = k then (a, v) :: rest else (a, b) :: setKeyF rest k v

/-- JavaScript property assignment `j[k] = v` (identity on non-objects). -/
def Json.setKey (j : Json) (k : String) (v : Json) : Json :=
  match j with
  | .obj fs => .obj (setKeyF fs k v)
  | _ => j

/-- The lodash call `get(formData, [name])`, faithfully: key lookup on
objects, index and `length` resolution on arrays and strings, `undefined`
otherwise. -/
def lodashGet (fd : Option Json) (k : String) : Option Json :=
  match fd with
  | some (.obj fs) => lookupF fs k
  | some (.arr xs) =>
    if k = "length" then some (.num xs.length)
    else if integerLike k then xs.get? (strToNat k)
    else none
  | some (.str s) =>
    if k = "length" then some (.num s.length)
    else if integerLike k then (s.data.get? (strToNat k)).map (fun ch => .str (String.mk [ch]))
    else none
  | _ => none

/-- Modelled from the spec: `dependencies` resolution as in
`resolveDependencies`, with the triggering value looked up by lodash `get`
on the current form data. -/
def resolveDependenciesJS (schema : Json) (formData : Option Json) : Json :=
  match schema.lookup "dependencies" with
  | some (.obj deps) =>
    let base := schema.eraseKey "dependencies"
    let fired := (dedupKeys deps).filter (fun p => (lodashGet formData p.1).isSome && isObj p.2)
    fired.foldl (fun acc p => mergeSchemas acc p.2) base
  | some _ => schema.eraseKey "dependencies"
  | none => schema

/-- Modelled from the spec: the schema retriever with its error contract —
an unresolvable reference is a caller-visible `ReferenceError` carrying the
pointer, propagated upward (§4.1/§7), never silently recovered. -/
def retrieveSchemaE (validator : ValidatorType) (schema : Json) (rootSchema : Option Json)
    (formData : Option Json) (cm : Option CustomMergeAllOf) : Except String Json :=
  match schema.lookup "$ref" with
  | some (.str ptr) =>
    match jsonPointerGet rootSchema ptr with
    | some target => .ok target
    | none => .error ptr
  | some _ => .error "$ref"
  | none => .ok (mergeAllOfKeyword (resolveDependenciesJS schema formData) cm)

/-- The properties loop of `toIdSchemaInternal` with JavaScript object
semantics: the accumulator starts as `{ $id }`, each iteration reads the
(possibly already clobbered) `$id` slot to build `fieldId` via string
coercion, and assigns the child under the property name — a property named
`$id` therefore overwrites the id slot. -/
def buildProps (recur : Json → Option String → Option Json → Option (Except String Json))
    (props : List (String × Json)) (idSeparator : String) (formData : Option Json) :
    List String → Json → Option (Except String Json)
  | [], acc => some (.ok acc)
  | name :: rest, acc =>
    let field := (lookupF props name).getD .null
    let fieldId := jsToString ((acc.lookup "$id").getD .null) ++ idSeparator ++ name
    match recur field (some fieldId) (lodashGet formData name) with
    | none => none
    | some (.error e) => some (.error e)
    | some (.ok child) => buildProps recur props idSeparator formData rest (acc.setKey name child)

/-- The post-retrieval part of `toIdSchemaInternal` with JavaScript result
semantics: array delegation, then the object/properties loop over the for-in
key order, then the bare `{ $id }` object. -/
def toIdSchemaRestJS (recur : Json → Option String → Option Json → Option (Except String Json))
    (schema : Json) (idStr : String) (idSeparator : String) (id : Option String)
    (formData : Option Json) : Option (Except String Json) :=
  if itemsDelegate schema then
    recur ((schema.lookup "items").getD .null) id formData
  else if (getSchemaType schema == "object") && schema.hasKey "properties" then
    match schema.lookup "properties" with
    | some (.obj props) =>
      buildProps recur props idSeparator formData (forInKeys props)
        (.obj [("$id", .str idStr)])
    | _ => some (.ok (.obj [("$id", .str idStr)]))
  else some (.ok (.obj [("$id", .str idStr)]))

/-- The embedding of `toIdSchemaInternal` with JavaScript result semantics
and the spec's error contract: the result is the raw JSON object the
source builds (so `$id` clobbering by a property of that name is
representable), and an unresolvable reference raises instead of being
recovered.  `fuel` bounds the recursion depth as in `toIdSchemaFuel`. -/
def toIdSchemaJSFuel (validator : ValidatorType) :
    Nat → Json → String → String → Option String → Option Json → Option Json →
      List Json → Option CustomMergeAllOf → Option (Except String Json)
  | 0, _, _, _, _, _, _, _, _ => none
  | Nat.succ n, schema, idPre, idSeparator, id, rootSchema, formData, recurseList, cm =>
    let idStr := jsOr id idPre
    match schema with
    | .obj _ =>
      if hasRetrievalKeys schema then
        match retrieveSchemaE validator schema rootSchema formData cm with
        | .error e => some (.error e)
        | .ok s1 =>
          if !(recurseList.any (fun item => deepEquals item s1)) then
            toIdSchemaJSFuel validator n s1 idPre idSeparator id rootSchema formData
              (recurseList ++ [s1]) cm
          else
            toIdSchemaRestJS
              (fun s i f => toIdSchemaJSFuel validator n s idPre idSeparator i rootSchema f
                recurseList cm)
              schema idStr idSeparator id formData
      else
        toIdSchemaRestJS
          (fun s i f => toIdSchemaJSFuel validator n s idPre idSeparator i rootSchema f
            recurseList cm)
          schema idStr idSeparator id formData
    | _ => some (.ok (.obj [("$id", .str idStr)]))

/-- The public entry point over the JavaScript-semantics embedding. -/
def toIdSchemaJS (validator : ValidatorType) (fuel : Nat) (schema : Json) (id : Option String)
    (rootSchema formData : Option Json) ( idPre idSeparator : Option String)
    (cm : Option CustomMergeAllOf) : Option (Except String Json) :=
  toIdSchemaJSFuel validator fuel schema ( idPre.getD "root") (idSeparator.getD "_") id
    rootSchema formData [] cm

/-- One node's keys all satisfy `P` (non-objects vacuously). -/
def keyOk (P : String → Prop) : Json → Prop
  | .obj fs => ∀ p ∈ fs, P p.1
  | _ => True

/-- Every object key anywhere in the value satisfies `P`. -/
def keysAll (P : String → Prop) (j : Json) : Prop :=
  ∀ x ∈ subJ j, keyOk P x

/-- Every object key anywhere in the optional root schema satisfies `P`. -/
def keysAllO (P : String → Prop) (root : Option Json) : Prop :=
  ∀ x ∈ subO root, keyOk P x

def keyOkDec (P : String → Prop) [DecidablePred P] : (x : Json) → Decidable (keyOk P x)
  | .obj fs => inferInstanceAs (Decidable (∀ p ∈ fs, P p.1))
  | .null => isTrue trivial
  | .bool _ => isTrue trivial
  | .num _ => isTrue trivial
  | .str _ => isTrue trivial
  | .arr _ => isTrue trivial

instance (P : String → Prop) [DecidablePred P] (x : Json) : Decidable (keyOk P x) :=
  keyOkDec P x

instance (P : String → Prop) [DecidablePred P] (j : Json) : Decidable (keysAll P j) :=
  List.decidableBAll _ _

instance (P : String → Prop) [DecidablePred P] (root : Option Json) :
    Decidable (keysAllO P root) :=
  List.decidableBAll _ _

/-- A schema containing both a reference cycle (property `a`, resolved
against `cycRoot`) and an unresolvable reference (property `b`). -/
def exDangling : Json :=
  .obj [("properties", .obj [("a", .obj [("$ref", .str "#/defs/node")]),
                             ("b", .obj [("$ref", .str "#/missing")])])]

/-- An object schema with a property literally named `$id`. -/
def exIdProp : Json :=
  .obj [("properties", .obj [("$id", .obj []), ("x", .obj [])])]

/-- An object schema whose declared order (`b` before `0`) differs from the
JavaScript for-in enumeration order (integer-like keys first). -/
def exOrderProp : Json :=
  .obj [("properties", .obj [("b", .obj []), ("0", .obj [])])]

/-- A schema whose dependency on field `0` fires exactly when the form-data
slice at `0` is present. -/
def exDepSchema : Json :=
  .obj [("dependencies", .obj [("0", .obj [("properties", .obj [("dd", .obj [])])])])]

/-- An object schema with the single property `0` carrying `exDepSchema`. -/
def exFdSchema : Json :=
  .obj [("properties", .obj [("0", exDepSchema)])]

/-- The JavaScript result object for spec scenario 1. -/
def exObjJson : Json :=
  .obj [("$id", .str "root"), ("a", .obj [("$id", .str "root_a")]),
        ("b", .obj [("$id", .str "root_b")])]

theorem deepEquals_refl (a : Json) : deepEquals a a = true := by
  simp [deepEquals]

theorem lookupF_mem : ∀ (l : List (String × Json)) (k : String) (v : Json),
    lookupF l k = some v → (k, v) ∈ l := by
  intro l k v h
  induction l with
  | nil => simp [lookupF] at h
  | cons p rest ih =>
    obtain ⟨a, b⟩ := p
    simp only [lookupF] at h
    split at h
    · cases h
      subst a
      exact List.mem_cons_self _ _
    · exact List.mem_cons_of_mem _ (ih h)

theorem value_size_le : ∀ (l : List (String × Json)) (k : String) (v : Json),
    (k, v) ∈ l → sizeJ v ≤ sizeF l := by
  intro l k v h
  induction l with
  | nil => cases h
  | cons p rest ih =>
    rcases List.mem_cons.mp h with heq | hmem
    · obtain ⟨a, b⟩ := p
      injection heq with h1 h2
      subst h2
      simp only [sizeF]
      omega
    · obtain ⟨a, b⟩ := p
      simp only [sizeF]
      have := ih hmem
      omega

theorem value_occ_le : ∀ (l : List (String × Json)) (k : String) (v : Json),
    (k, v) ∈ l → occJ v ≤ occF l := by
  intro l k v h
  induction l with
  | nil => cases h
  | cons p rest ih =>
    rcases List.mem_cons.mp h with heq | hmem
    · obtain ⟨a, b⟩ := p
      injection heq with h1 h2
      subst h2
      simp only [occF]
      omega
    · obtain ⟨a, b⟩ := p
      simp only [occF]
      have := ih hmem
      omega

theorem lookup_size_lt (fs : List (String × Json)) (k : String) (v : Json)
    (h : lookupF fs k = some v) : sizeJ v < sizeJ (.obj fs) := by
  have := value_size_le fs k v (lookupF_mem fs k v h)
  simp only [sizeJ]
  omega

theorem lookup_occ_le (fs : List (String × Json)) (k : String) (v : Json)
    (h : lookupF fs k = some v) : occJ v ≤ occJ (.obj fs) := by
  have := value_occ_le fs k v (lookupF_mem fs k v h)
  simpa [occJ] using this

theorem occF_append : ∀ l1 l2 : List (String × Json), occF (l1 ++ l2) = occF l1 + occF l2 := by
  intro l1 l2
  induction l1 with
  | nil => simp [occF]
  | cons p rest ih =>
    obtain ⟨k, v⟩ := p
    rw [List.cons_append]
    simp only [occF]
    rw [ih]
    omega

theorem occA_append : ∀ l1 l2 : List Json, occA (l1 ++ l2) = occA l1 + occA l2 := by
  intro l1 l2
  induction l1 with
  | nil => simp [occA]
  | cons x rest ih =>
    rw [List.cons_append]
    simp only [occA]
    rw [ih]
    omega

theorem occF_filter_le : ∀ (l : List (String × Json)) (p : String × Json → Bool),
    occF (l.filter p) ≤ occF l := by
  intro l p
  induction l with
  | nil => simp [occF]
  | cons q rest ih =>
    obtain ⟨k, v⟩ := q
    rw [List.filter_cons]
    by_cases hp : p (k, v) = true
    · rw [if_pos hp]
      simp only [occF]
      omega
    · rw [if_neg hp]
      simp only [occF]
      omega

theorem occ_lookup_erase : ∀ (l : List (String × Json)) (k : String) (va : Json),
    lookupF l k = some va → occJ va + occF (eraseF l k) ≤ occF l := by
  intro l k va h
  induction l with
  | nil => simp [lookupF] at h
  | cons q rest ih =>
    obtain ⟨a, b⟩ := q
    simp only [lookupF] at h
    by_cases hak : a = k
    · rw [if_pos hak] at h
      cases h
      simp only [eraseF, List.filter_cons]
      have hne : ((a, va).1 != k) = false := by simp [hak]
      rw [hne]
      simp only [Bool.false_eq_true, if_false, occF]
      have := occF_filter_le rest (fun p => p.1 != k)
      simp only [eraseF] at *
      omega
    · rw [if_neg hak] at h
      have := ih h
      simp only [eraseF, List.filter_cons]
      have hne : ((a, b).1 != k) = true := by simp [hak]
      rw [hne]
      simp only [if_true, occF]
      simp only [eraseF] at this
      omega

theorem occ_erase_bad : ∀ (l : List (String × Json)) (k : String) (va : Json),
    (k = "$ref" ∨ k = "dependencies" ∨ k = "allOf") → lookupF l k = some va →
    1 + occJ va + occF (eraseF l k) ≤ occF l := by
  intro l k va hbad h
  induction l with
  | nil => simp [lookupF] at h
  | cons q rest ih =>
    obtain ⟨a, b⟩ := q
    simp only [lookupF] at h
    by_cases hak : a = k
    · rw [if_pos hak] at h
      cases h
      simp only [eraseF, List.filter_cons]
      have hne : ((a, va).1 != k) = false := by simp [hak]
      rw [hne]
      simp only [Bool.false_eq_true, if_false, occF]
      have hcost : (if a = "$ref" ∨ a = "dependencies" ∨ a = "allOf" then 1 else 0) = 1 := by
        rw [if_pos]
        rw [hak]
        exact hbad
      have := occF_filter_le rest (fun p => p.1 != k)
      simp only [eraseF] at *
      omega
    · rw [if_neg hak] at h
      have := ih h
      simp only [eraseF, List.filter_cons]
      have hne : ((a, b).1 != k) = true := by simp [hak]
      rw [hne]
      simp only [if_true, occF]
      simp only [eraseF] at this
      omega

theorem occ_dedup_le : ∀ l : List (String × Json), occF (dedupKeys l) ≤ occF l := by
  intro l
  induction l with
  | nil => simp [dedupKeys]
  | cons p rest ih =>
    obtain ⟨k, v⟩ := p
    simp only [dedupKeys, occF]
    have h1 := occF_filter_le (dedupKeys rest) (fun q => q.1 != k)
    omega


theorem nodup_dedup : ∀ l : List (String × Json), NodupKeys (dedupKeys l) := by
  intro l
  induction l with
  | nil => simp [dedupKeys, NodupKeys, keysOf]
  | cons p rest ih =>
    simp only [dedupKeys, NodupKeys, keysOf, List.map_cons, List.nodup_cons]
    constructor
    · intro hmem
      rcases List.mem_map.mp hmem with ⟨q, hq, hqk⟩
      have := List.of_mem_filter hq
      rw [hqk] at this
      simp at this
    · have hsub : List.Sublist (((dedupKeys rest).filter (fun q => q.1 != p.1)).map Prod.fst)
          ((dedupKeys rest).map Prod.fst) := (List.filter_sublist _).map Prod.fst
      exact (ih : ((dedupKeys rest).map Prod.fst).Nodup).sublist hsub

theorem occ_union_le : ∀ pa pb : List (String × Json),
    occF (unionProps pa pb) ≤ occF pa + occF pb := by
  intro pa pb
  simp only [unionProps]
  rw [occF_append]
  have := occF_filter_le pa (fun p => (lookupF pb p.1).isNone)
  omega

theorem occ_mergeFieldValue_le : ∀ (k : String) (va vb : Json),
    occJ (mergeFieldValue k va vb) ≤ occJ va + occJ vb := by
  intro k va vb
  simp only [mergeFieldValue]
  by_cases h1 : k = "required"
  · rw [if_pos h1]
    cases va with
    | arr xs =>
      cases vb with
      | arr ys =>
        simp only [occJ]
        rw [occA_append]
      | null => simp [occJ]
      | bool b => simp [occJ]
      | num n => simp [occJ]
      | str s => simp [occJ]
      | obj fs => simp [occJ]
    | null => cases vb <;> simp [occJ]
    | bool b => cases vb <;> simp [occJ]
    | num n => cases vb <;> simp [occJ]
    | str s => cases vb <;> simp [occJ]
    | obj fs => cases vb <;> simp [occJ]
  · rw [if_neg h1]
    by_cases h2 : k = "properties"
    · rw [if_pos h2]
      cases va with
      | obj pa =>
        cases vb with
        | obj pb =>
          simp only [occJ]
          have := occ_union_le pa pb
          simpa [occJ] using this
        | null => simp [occJ]
        | bool b => simp [occJ]
        | num n => simp [occJ]
        | str s => simp [occJ]
        | arr xs => simp [occJ]
      | null => cases vb <;> simp [occJ]
      | bool b => cases vb <;> simp [occJ]
      | num n => cases vb <;> simp [occJ]
      | str s => cases vb <;> simp [occJ]
      | arr xs => cases vb <;> simp [occJ]
    · rw [if_neg h2]
      omega

theorem lookup_erase_ne : ∀ (l : List (String × Json)) (k q : String), q ≠ k →
    lookupF (eraseF l k) q = lookupF l q := by
  intro l k q hqk
  induction l with
  | nil => simp [eraseF, lookupF]
  | cons p rest ih =>
    obtain ⟨a, b⟩ := p
    simp only [eraseF, List.filter_cons]
    by_cases hak : a = k
    · have hcond : ((a, b).1 != k) = false := by simp [hak]
      rw [hcond]
      simp only [Bool.false_eq_true, if_false]
      have hnaq : ¬ a = q := by
        rw [hak]
        exact fun hh => hqk hh.symm
      rw [show lookupF ((a, b) :: rest) q = if a = q then some b else lookupF rest q from rfl]
      rw [if_neg hnaq]
      simpa [eraseF] using ih
    · have hcond : ((a, b).1 != k) = true := by simp [hak]
      rw [hcond]
      simp only [if_true]
      simp only [lookupF]
      by_cases haq : a = q
      · rw [if_pos haq, if_pos haq]
      · rw [if_neg haq, if_neg haq]
        simpa [eraseF] using ih

theorem occ_merge_aux : ∀ (fb fa : List (String × Json)), NodupKeys fb →
    occF (fa.filter (fun p => (lookupF fb p.1).isNone)) +
      occF (fb.map (fun p =>
        match lookupF fa p.1 with
        | some va => (p.1, mergeFieldValue p.1 va p.2)
        | none => p)) ≤ occF fa + occF fb := by
  intro fb
  induction fb with
  | nil =>
    intro fa _
    have hfa : fa.filter (fun p => (lookupF [] p.1).isNone) = fa := by
      apply List.filter_eq_self.mpr
      intro a _
      simp [lookupF]
    rw [hfa]
    simp [occF]
  | cons q rest ih =>
    obtain ⟨k, vb⟩ := q
    intro fa hnd
    have hknr : k ∉ keysOf rest := by
      have h := hnd
      simp only [NodupKeys, keysOf, List.map_cons, List.nodup_cons] at h
      exact h.1
    have hndr : NodupKeys rest := by
      have h := hnd
      simp only [NodupKeys, keysOf, List.map_cons, List.nodup_cons] at h
      exact h.2
    have hfilter : fa.filter (fun p => (lookupF ((k, vb) :: rest) p.1).isNone) =
        (eraseF fa k).filter (fun p => (lookupF rest p.1).isNone) := by
      simp only [eraseF]
      rw [List.filter_filter]
      apply List.filter_congr
      intro p _
      by_cases hkp : k = p.1
      · simp only [lookupF, if_pos hkp, Option.isNone_some]
        have hbne : (p.1 != k) = false := by simp [hkp.symm]
        rw [hbne, Bool.and_false]
      · simp only [lookupF, if_neg hkp]
        have hbne : (p.1 != k) = true := by
          simp only [bne_iff_ne, ne_eq]
          exact fun hh => hkp hh.symm
        rw [hbne, Bool.and_true]
    have hmap : rest.map (fun p =>
        match lookupF fa p.1 with
        | some va => (p.1, mergeFieldValue p.1 va p.2)
        | none => p) =
        rest.map (fun p =>
        match lookupF (eraseF fa k) p.1 with
        | some va => (p.1, mergeFieldValue p.1 va p.2)
        | none => p) := by
      apply List.map_congr_left
      intro p hp
      have hpk : p.1 ≠ k := by
        intro hh
        apply hknr
        rw [← hh]
        exact List.mem_map_of_mem Prod.fst hp
      rw [lookup_erase_ne fa k p.1 hpk]
    rw [hfilter, List.map_cons, hmap]
    cases hl : lookupF fa k with
    | some va =>
      simp only [hl, occF]
      have h1 := occ_mergeFieldValue_le k va vb
      have h2 := occ_lookup_erase fa k va hl
      have h3 := ih (eraseF fa k) hndr
      omega
    | none =>
      simp only [hl, occF]
      have h2 : occF (eraseF fa k) ≤ occF fa := occF_filter_le fa _
      have h3 := ih (eraseF fa k) hndr
      omega

theorem occ_mergeFields_le : ∀ fa fb : List (String × Json),
    occF (mergeFields fa fb) ≤ occF fa + occF fb := by
  intro fa fb
  simp only [mergeFields]
  rw [occF_append]
  have h1 := occ_merge_aux (dedupKeys fb) (dedupKeys fa) (nodup_dedup fb)
  have h2 := occ_dedup_le fa
  have h3 := occ_dedup_le fb
  omega

theorem occ_mergeSchemas_le : ∀ a b : Json, occJ (mergeSchemas a b) ≤ occJ a + occJ b := by
  intro a b
  cases a with
  | obj fa =>
    cases b with
    | obj fb =>
      simp only [mergeSchemas, occJ]
      exact occ_mergeFields_le fa fb
    | null => simp [mergeSchemas]
    | bool c => simp [mergeSchemas]
    | num n => simp [mergeSchemas]
    | str s => simp [mergeSchemas]
    | arr xs => simp [mergeSchemas]
  | null => simp [mergeSchemas]
  | bool c => simp [mergeSchemas]
  | num n => simp [mergeSchemas]
  | str s => simp [mergeSchemas]
  | arr xs => simp [mergeSchemas]

theorem occ_foldl_pairs : ∀ (l : List (String × Json)) (base : Json),
    occJ (l.foldl (fun acc p => mergeSchemas acc p.2) base) ≤ occJ base + occF l := by
  intro l
  induction l with
  | nil =>
    intro base
    simp [occF]
  | cons p rest ih =>
    intro base
    obtain ⟨k, v⟩ := p
    simp only [List.foldl_cons]
    have h1 := ih (mergeSchemas base v)
    have h2 := occ_mergeSchemas_le base v
    simp only [occF]
    omega

theorem occ_foldl_arr : ∀ (l : List Json) (base : Json),
    occJ (l.foldl mergeSchemas base) ≤ occJ base + occA l := by
  intro l
  induction l with
  | nil =>
    intro base
    simp [occA]
  | cons x rest ih =>
    intro base
    simp only [List.foldl_cons]
    have h1 := ih (mergeSchemas base x)
    have h2 := occ_mergeSchemas_le base x
    simp only [occA]
    omega

theorem lookup_eq_none_of_not_hasKey (j : Json) (k : String) (h : j.hasKey k = false) :
    j.lookup k = none := by
  simp only [Json.hasKey] at h
  cases hcase : j.lookup k with
  | none => rfl
  | some v =>
    rw [hcase] at h
    simp at h

theorem occ_resolveDeps_lt : ∀ (schema : Json) (fd : Option Json),
    schema.hasKey "dependencies" = true → occJ (resolveDependencies schema fd) < occJ schema := by
  intro schema fd h
  cases schema with
  | obj fs =>
    have hl : ∃ dv, lookupF fs "dependencies" = some dv := by
      simp only [Json.hasKey, Json.lookup, Option.isSome_iff_exists] at h
      exact h
    obtain ⟨dv, hl⟩ := hl
    have hlk : Json.lookup (.obj fs) "dependencies" = some dv := hl
    cases dv with
    | obj deps =>
      simp only [resolveDependencies, hlk]
      have hfold := occ_foldl_pairs
        (((dedupKeys deps).filter (fun p => (jsonGet fd p.1).isSome && isObj p.2)))
        ((Json.obj fs).eraseKey "dependencies")
      have hfired : occF ((dedupKeys deps).filter (fun p => (jsonGet fd p.1).isSome && isObj p.2)) ≤
          occF (dedupKeys deps) := occF_filter_le _ _
      have hded := occ_dedup_le deps
      have herase := occ_erase_bad fs "dependencies" (.obj deps) (Or.inr (Or.inl rfl)) hl
      simp only [Json.eraseKey, occJ] at *
      omega
    | null =>
      simp only [resolveDependencies, hlk]
      have herase := occ_erase_bad fs "dependencies" .null (Or.inr (Or.inl rfl)) hl
      simp only [Json.eraseKey, occJ] at *
      omega
    | bool b =>
      simp only [resolveDependencies, hlk]
      have herase := occ_erase_bad fs "dependencies" (.bool b) (Or.inr (Or.inl rfl)) hl
      simp only [Json.eraseKey, occJ] at *
      omega
    | num n =>
      simp only [resolveDependencies, hlk]
      have herase := occ_erase_bad fs "dependencies" (.num n) (Or.inr (Or.inl rfl)) hl
      simp only [Json.eraseKey, occJ] at *
      omega
    | str s =>
      simp only [resolveDependencies, hlk]
      have herase := occ_erase_bad fs "dependencies" (.str s) (Or.inr (Or.inl rfl)) hl
      simp only [Json.eraseKey, occJ] at *
      omega
    | arr xs =>
      simp only [resolveDependencies, hlk]
      have herase := occ_erase_bad fs "dependencies" (.arr xs) (Or.inr (Or.inl rfl)) hl
      simp only [Json.eraseKey, occJ] at *
      omega
  | null => simp [Json.hasKey, Json.lookup] at h
  | bool b => simp [Json.hasKey, Json.lookup] at h
  | num n => simp [Json.hasKey, Json.lookup] at h
  | str s => simp [Json.hasKey, Json.lookup] at h
  | arr xs => simp [Json.hasKey, Json.lookup] at h

theorem resolveDeps_eq_of_no_key (schema : Json) (fd : Option Json)
    (h : schema.hasKey "dependencies" = false) : resolveDependencies schema fd = schema := by
  have hl := lookup_eq_none_of_not_hasKey schema "dependencies" h
  simp only [resolveDependencies, hl]

theorem occ_resolveDeps_le : ∀ (schema : Json) (fd : Option Json),
    occJ (resolveDependencies schema fd) ≤ occJ schema := by
  intro schema fd
  by_cases h : schema.hasKey "dependencies" = true
  · exact Nat.le_of_lt (occ_resolveDeps_lt schema fd h)
  · rw [resolveDeps_eq_of_no_key schema fd (by simpa using h)]

theorem occ_defaultMergeAllOf_lt : ∀ schema : Json,
    schema.hasKey "allOf" = true → occJ (defaultMergeAllOf schema) < occJ schema := by
  intro schema h
  cases schema with
  | obj fs =>
    have hl : ∃ dv, lookupF fs "allOf" = some dv := by
      simp only [Json.hasKey, Json.lookup, Option.isSome_iff_exists] at h
      exact h
    obtain ⟨dv, hl⟩ := hl
    have hlk : Json.lookup (.obj fs) "allOf" = some dv := hl
    cases dv with
    | arr branches =>
      simp only [defaultMergeAllOf, hlk]
      have hfold := occ_foldl_arr branches ((Json.obj fs).eraseKey "allOf")
      have herase := occ_erase_bad fs "allOf" (.arr branches) (Or.inr (Or.inr rfl)) hl
      simp only [Json.eraseKey, occJ] at *
      omega
    | null =>
      simp only [defaultMergeAllOf, hlk]
      have herase := occ_erase_bad fs "allOf" .null (Or.inr (Or.inr rfl)) hl
      simp only [Json.eraseKey, occJ] at *
      omega
    | bool b =>
      simp only [defaultMergeAllOf, hlk]
      have herase := occ_erase_bad fs "allOf" (.bool b) (Or.inr (Or.inr rfl)) hl
      simp only [Json.eraseKey, occJ] at *
      omega
    | num n =>
      simp only [defaultMergeAllOf, hlk]
      have herase := occ_erase_bad fs "allOf" (.num n) (Or.inr (Or.inr rfl)) hl
      simp only [Json.eraseKey, occJ] at *
      omega
    | str s =>
      simp only [defaultMergeAllOf, hlk]
      have herase := occ_erase_bad fs "allOf" (.str s) (Or.inr (Or.inr rfl)) hl
      simp only [Json.eraseKey, occJ] at *
      omega
    | obj gs =>
      simp only [defaultMergeAllOf, hlk]
      have herase := occ_erase_bad fs "allOf" (.obj gs) (Or.inr (Or.inr rfl)) hl
      simp only [Json.eraseKey, occJ] at *
      omega
  | null => simp [Json.hasKey, Json.lookup] at h
  | bool b => simp [Json.hasKey, Json.lookup] at h
  | num n => simp [Json.hasKey, Json.lookup] at h
  | str s => simp [Json.hasKey, Json.lookup] at h
  | arr xs => simp [Json.hasKey, Json.lookup] at h

theorem occ_mergeAllOfKeyword_le : ∀ schema : Json,
    occJ (mergeAllOfKeyword schema none) ≤ occJ schema := by
  intro schema
  simp only [mergeAllOfKeyword]
  by_cases h : schema.hasKey "allOf" = true
  · rw [if_pos h]
    exact Nat.le_of_lt (occ_defaultMergeAllOf_lt schema h)
  · rw [if_neg h]

theorem self_mem_subJ : ∀ j : Json, j ∈ subJ j := by
  intro j
  cases j <;> simp [subJ]

theorem sub_of_value_mem : ∀ (fs : List (String × Json)) (k : String) (v : Json),
    (k, v) ∈ fs → ∀ x ∈ subJ v, x ∈ subF fs := by
  intro fs
  induction fs with
  | nil =>
    intro k v h
    cases h
  | cons p rest ih =>
    intro k v h x hx
    obtain ⟨a, b⟩ := p
    rcases List.mem_cons.mp h with heq | hmem
    · injection heq with h1 h2
      subst h2
      simp only [subF]
      exact List.mem_append_left _ hx
    · simp only [subF]
      exact List.mem_append_right _ (ih k v hmem x hx)

theorem sub_of_lookup : ∀ (j : Json) (k : String) (v : Json),
    j.lookup k = some v → ∀ x ∈ subJ v, x ∈ subJ j := by
  intro j k v h x hx
  cases j with
  | obj fs =>
    simp only [Json.lookup] at h
    have hmem := lookupF_mem fs k v h
    simp only [subJ]
    exact List.mem_cons_of_mem _ (sub_of_value_mem fs k v hmem x hx)
  | null => simp [Json.lookup] at h
  | bool b => simp [Json.lookup] at h
  | num n => simp [Json.lookup] at h
  | str s => simp [Json.lookup] at h
  | arr xs => simp [Json.lookup] at h

theorem ptrWalk_mem : ∀ (segs : List String) (r t : Json),
    ptrWalk r segs = some t → t ∈ subJ r := by
  intro segs
  induction segs with
  | nil =>
    intro r t h
    simp only [ptrWalk] at h
    cases h
    exact self_mem_subJ _
  | cons s rest ih =>
    intro r t h
    simp only [ptrWalk] at h
    cases hl : r.lookup s with
    | none =>
      rw [hl] at h
      cases h
    | some v =>
      rw [hl] at h
      exact sub_of_lookup r s v hl t (ih v t h)

theorem jsonPointerGet_mem : ∀ (root : Option Json) (ptr : String) (t : Json),
    jsonPointerGet root ptr = some t → t ∈ subO root := by
  intro root ptr t h
  cases root with
  | none => simp [jsonPointerGet] at h
  | some r =>
    simp only [jsonPointerGet] at h
    exact ptrWalk_mem _ r t h



theorem guardMatched_append (guard l : List Json) (t : Json) :
    guardMatched (guard ++ l) t = (guardMatched guard t || guardMatched l t) := by
  simp [guardMatched, List.any_append]

theorem unmatched_append_le : ∀ (root : Option Json) (guard l : List Json),
    unmatched root (guard ++ l) ≤ unmatched root guard := by
  intro root guard l
  apply List.countP_mono_left
  intro x _ hx
  rw [guardMatched_append] at hx
  simp only [Bool.not_or, Bool.and_eq_true, Bool.not_eq_true'] at hx
  simp [hx.1]

theorem countP_lt_of_witness {α : Type} : ∀ (l : List α) (p q : α → Bool),
    (∀ x ∈ l, q x = true → p x = true) → ∀ w ∈ l, p w = true → q w = false →
    l.countP q < l.countP p := by
  intro l p q hpq w hw hpw hqw
  induction l with
  | nil => cases hw
  | cons y ys ih =>
    rw [List.countP_cons, List.countP_cons]
    rcases List.mem_cons.mp hw with rfl | hmem
    · have htail : ys.countP q ≤ ys.countP p :=
        List.countP_mono_left (fun x hx => hpq x (List.mem_cons_of_mem _ hx))
      rw [hpw, hqw]
      simp only [if_true, Bool.false_eq_true, if_false]
      omega
    · have hhead : (if q y = true then 1 else 0) ≤ (if p y = true then 1 else 0) := by
        by_cases hq : q y = true
        · rw [if_pos hq, if_pos (hpq y (List.mem_cons_self y ys) hq)]
        · rw [if_neg hq]
          omega
      have htail := ih (fun x hx => hpq x (List.mem_cons_of_mem _ hx)) hmem
      omega

theorem unmatched_strict : ∀ (root : Option Json) (guard : List Json) (s : Json),
    s ∈ subO root → guardMatched guard s = false →
    unmatched root (guard ++ [s]) < unmatched root guard := by
  intro root guard s hmem hnm
  apply countP_lt_of_witness (subO root) (fun t => !(guardMatched guard t))
    (fun t => !(guardMatched (guard ++ [s]) t))
  · intro x _ hx
    rw [guardMatched_append] at hx
    simp only [Bool.not_or, Bool.and_eq_true, Bool.not_eq_true'] at hx
    simp [hx.1]
  · exact hmem
  · rw [hnm]
    rfl
  · rw [guardMatched_append]
    have hself : guardMatched [s] s = true := by
      simp [guardMatched, deepEquals_refl]
    rw [hself, Bool.or_true]
    rfl

theorem retrieve_progress : ∀ (v : ValidatorType) (schema : Json) (root fd : Option Json),
    isObj schema = true → hasRetrievalKeys schema = true →
    retrieveSchema v schema root fd none ∈ subO root ∨
      occJ (retrieveSchema v schema root fd none) < occJ schema := by
  intro v schema root fd hobj hkeys
  cases schema with
  | obj fs =>
    cases href : Json.lookup (.obj fs) "$ref" with
    | some rv =>
      cases rv with
      | str ptr =>
        simp only [retrieveSchema, href]
        cases hget : jsonPointerGet root ptr with
        | some target =>
          exact Or.inl (jsonPointerGet_mem root ptr target hget)
        | none =>
          right
          have herase := occ_erase_bad fs "$ref" (.str ptr) (Or.inl rfl) href
          simp only [Json.eraseKey, occJ] at *
          omega
      | null =>
        simp only [retrieveSchema, href]
        right
        have herase := occ_erase_bad fs "$ref" .null (Or.inl rfl) href
        simp only [Json.eraseKey, occJ] at *
        omega
      | bool b =>
        simp only [retrieveSchema, href]
        right
        have herase := occ_erase_bad fs "$ref" (.bool b) (Or.inl rfl) href
        simp only [Json.eraseKey, occJ] at *
        omega
      | num n =>
        simp only [retrieveSchema, href]
        right
        have herase := occ_erase_bad fs "$ref" (.num n) (Or.inl rfl) href
        simp only [Json.eraseKey, occJ] at *
        omega
      | arr xs =>
        simp only [retrieveSchema, href]
        right
        have herase := occ_erase_bad fs "$ref" (.arr xs) (Or.inl rfl) href
        simp only [Json.eraseKey, occJ] at *
        omega
      | obj gs =>
        simp only [retrieveSchema, href]
        right
        have herase := occ_erase_bad fs "$ref" (.obj gs) (Or.inl rfl) href
        simp only [Json.eraseKey, occJ] at *
        omega
    | none =>
      simp only [retrieveSchema, href]
      right
      by_cases hdep : (Json.obj fs).hasKey "dependencies" = true
      · have h1 := occ_resolveDeps_lt (.obj fs) fd hdep
        have h2 := occ_mergeAllOfKeyword_le (resolveDependencies (.obj fs) fd)
        omega
      · have hall : (Json.obj fs).hasKey "allOf" = true := by
          simp only [hasRetrievalKeys, Bool.or_eq_true] at hkeys
          rcases hkeys with (h | h) | h
          · rw [Json.hasKey, href] at h
            simp at h
          · exact absurd h hdep
          · exact h
        rw [resolveDeps_eq_of_no_key (.obj fs) fd (by simpa using hdep)]
        simp only [mergeAllOfKeyword, if_pos hall]
        exact occ_defaultMergeAllOf_lt (.obj fs) hall
  | null => simp [isObj] at hobj
  | bool b => simp [isObj] at hobj
  | num n => simp [isObj] at hobj
  | str s => simp [isObj] at hobj
  | arr xs => simp [isObj] at hobj

theorem fuel_succ_obj (v : ValidatorType) (n : Nat) (fs : List (String × Json))
    ( idPre idSep : String) (id : Option String) (root fd : Option Json)
    (guard : List Json) (cm : Option CustomMergeAllOf) :
    toIdSchemaFuel v (n + 1) (.obj fs) idPre idSep id root fd guard cm =
      if hasRetrievalKeys (.obj fs) &&
          !(guard.any (fun item =>
            deepEquals item (retrieveSchema v (.obj fs) root fd cm))) then
        toIdSchemaFuel v n (retrieveSchema v (.obj fs) root fd cm) idPre idSep id root fd
          (guard ++ [retrieveSchema v (.obj fs) root fd cm]) cm
      else
        toIdSchemaRest
          (fun s i f => toIdSchemaFuel v n s idPre idSep i root f guard cm)
          (.obj fs) (jsOr id idPre) idSep id fd := rfl

theorem fuel_succ_nonobj (v : ValidatorType) (n : Nat) (schema : Json)
    ( idPre idSep : String) (id : Option String) (root fd : Option Json)
    (guard : List Json) (cm : Option CustomMergeAllOf) (h : isObj schema = false) :
    toIdSchemaFuel v (n + 1) schema idPre idSep id root fd guard cm =
      some (.node (jsOr id idPre) []) := by
  cases schema with
  | obj fs => simp [isObj] at h
  | null => rfl
  | bool b => rfl
  | num m => rfl
  | str s => rfl
  | arr xs => rfl

theorem result_id : ∀ (n : Nat) (v : ValidatorType) (schema : Json)
    ( idPre idSep : String) (id : Option String) (root fd : Option Json)
    (guard : List Json) (cm : Option CustomMergeAllOf) (t : IdSchema),
    toIdSchemaFuel v n schema idPre idSep id root fd guard cm = some t →
    t.id = jsOr id idPre := by
  intro n
  induction n with
  | zero =>
    intro v schema idPre idSep id root fd guard cm t h
    simp [toIdSchemaFuel] at h
  | succ n ih =>
    intro v schema idPre idSep id root fd guard cm t h
    cases hobj : isObj schema with
    | false =>
      rw [fuel_succ_nonobj v n schema idPre idSep id root fd guard cm hobj] at h
      cases h
      rfl
    | true =>
      cases schema with
      | obj fs =>
        rw [fuel_succ_obj] at h
        by_cases hc : (hasRetrievalKeys (.obj fs) &&
            !(guard.any (fun item =>
              deepEquals item (retrieveSchema v (.obj fs) root fd cm)))) = true
        · rw [if_pos hc] at h
          exact ih v _ idPre idSep id root fd _ cm t h
        · rw [if_neg hc] at h
          simp only [toIdSchemaRest] at h
          by_cases hdel : itemsDelegate (.obj fs) = true
          · rw [if_pos hdel] at h
            exact ih v _ idPre idSep id root fd guard cm t h
          · rw [if_neg hdel] at h
            by_cases hpc : ((getSchemaType (.obj fs) == "object") &&
                Json.hasKey (.obj fs) "properties") = true
            · rw [if_pos hpc] at h
              cases hp : Json.lookup (.obj fs) "properties" with
              | some pv =>
                cases pv with
                | obj props =>
                  rw [hp] at h
                  rcases Option.map_eq_some'.mp h with ⟨cs, _, hcs⟩
                  rw [← hcs]
                  rfl
                | null =>
                  rw [hp] at h
                  cases h
                  rfl
                | bool b =>
                  rw [hp] at h
                  cases h
                  rfl
                | num m =>
                  rw [hp] at h
                  cases h
                  rfl
                | str s =>
                  rw [hp] at h
                  cases h
                  rfl
                | arr xs =>
                  rw [hp] at h
                  cases h
                  rfl
              | none =>
                rw [hp] at h
                cases h
                rfl
            · rw [if_neg hpc] at h
              cases h
              rfl
      | null => simp [isObj] at hobj
      | bool b => simp [isObj] at hobj
      | num m => simp [isObj] at hobj
      | str s => simp [isObj] at hobj
      | arr xs => simp [isObj] at hobj

theorem optMapList_congr_some {α β : Type} : ∀ (l : List α) (f g : α → Option β)
    (bs : List β), (∀ a ∈ l, ∀ b, f a = some b → g a = some b) →
    optMapList f l = some bs → optMapList g l = some bs := by
  intro l
  induction l with
  | nil =>
    intro f g bs _ h
    exact h
  | cons a as ih =>
    intro f g bs hfg h
    cases hfa : f a with
    | none =>
      simp only [optMapList, hfa] at h
      exact Option.noConfusion h
    | some b =>
      cases hrest : optMapList f as with
      | none =>
        simp only [optMapList, hfa, hrest] at h
        exact Option.noConfusion h
      | some bs2 =>
        simp only [optMapList, hfa, hrest] at h
        have hga := hfg a (List.mem_cons_self a as) b hfa
        have hgas := ih f g bs2 (fun x hx => hfg x (List.mem_cons_of_mem _ hx)) hrest
        simp only [optMapList, hga, hgas]
        exact h

theorem rest_items (recur : Json → Option String → Option Json → Option IdSchema)
    (schema : Json) (idStr idSep : String) (id : Option String) (fd : Option Json)
    (hdel : itemsDelegate schema = true) :
    toIdSchemaRest recur schema idStr idSep id fd =
      recur ((schema.lookup "items").getD .null) id fd := by
  simp only [toIdSchemaRest, hdel, if_true]

theorem rest_props (recur : Json → Option String → Option Json → Option IdSchema)
    (schema : Json) (idStr idSep : String) (id : Option String) (fd : Option Json)
    (props : List (String × Json)) (hdel : itemsDelegate schema = false)
    (hpc : ((getSchemaType schema == "object") && schema.hasKey "properties") = true)
    (hp : schema.lookup "properties" = some (.obj props)) :
    toIdSchemaRest recur schema idStr idSep id fd =
      (optMapList (fun p =>
        (recur p.2 (some (idStr ++ idSep ++ p.1)) (jsonGet fd p.1)).map
          (fun t => (p.1, t))) props).map
        (fun cs => IdSchema.node idStr cs) := by
  simp only [toIdSchemaRest, hdel, hpc, hp, Bool.false_eq_true, if_false, if_true]

theorem rest_props_nonobj (recur : Json → Option String → Option Json → Option IdSchema)
    (schema : Json) (idStr idSep : String) (id : Option String) (fd : Option Json)
    (pv : Json) (hdel : itemsDelegate schema = false)
    (hpc : ((getSchemaType schema == "object") && schema.hasKey "properties") = true)
    (hp : schema.lookup "properties" = some pv) (hpv : isObj pv = false) :
    toIdSchemaRest recur schema idStr idSep id fd = some (.node idStr []) := by
  cases pv with
  | obj gs => simp [isObj] at hpv
  | null => simp only [toIdSchemaRest, hdel, hpc, hp, Bool.false_eq_true, if_false, if_true]
  | bool b => simp only [toIdSchemaRest, hdel, hpc, hp, Bool.false_eq_true, if_false, if_true]
  | num n => simp only [toIdSchemaRest, hdel, hpc, hp, Bool.false_eq_true, if_false, if_true]
  | str s => simp only [toIdSchemaRest, hdel, hpc, hp, Bool.false_eq_true, if_false, if_true]
  | arr xs => simp only [toIdSchemaRest, hdel, hpc, hp, Bool.false_eq_true, if_false, if_true]

theorem rest_props_none (recur : Json → Option String → Option Json → Option IdSchema)
    (schema : Json) (idStr idSep : String) (id : Option String) (fd : Option Json)
    (hdel : itemsDelegate schema = false)
    (hpc : ((getSchemaType schema == "object") && schema.hasKey "properties") = true)
    (hp : schema.lookup "properties" = none) :
    toIdSchemaRest recur schema idStr idSep id fd = some (.node idStr []) := by
  simp only [toIdSchemaRest, hdel, hpc, hp, Bool.false_eq_true, if_false, if_true]

theorem rest_bare (recur : Json → Option String → Option Json → Option IdSchema)
    (schema : Json) (idStr idSep : String) (id : Option String) (fd : Option Json)
    (hdel : itemsDelegate schema = false)
    (hpc : ((getSchemaType schema == "object") && schema.hasKey "properties") = false) :
    toIdSchemaRest recur schema idStr idSep id fd = some (.node idStr []) := by
  simp only [toIdSchemaRest, hdel, hpc, Bool.false_eq_true, if_false]

theorem fuel_mono : ∀ (n : Nat) (v : ValidatorType) (schema : Json)
    ( idPre idSep : String) (id : Option String) (root fd : Option Json)
    (guard : List Json) (cm : Option CustomMergeAllOf) (t : IdSchema),
    toIdSchemaFuel v n schema idPre idSep id root fd guard cm = some t →
    ∀ m, n ≤ m → toIdSchemaFuel v m schema idPre idSep id root fd guard cm = some t := by
  intro n
  induction n with
  | zero =>
    intro v schema idPre idSep id root fd guard cm t h
    simp [toIdSchemaFuel] at h
  | succ n ih =>
    intro v schema idPre idSep id root fd guard cm t h m hm
    obtain ⟨m1, rfl⟩ : ∃ m1, m = m1 + 1 := ⟨m - 1, by omega⟩
    have hm1 : n ≤ m1 := by omega
    cases hobj : isObj schema with
    | false =>
      rw [fuel_succ_nonobj v n schema idPre idSep id root fd guard cm hobj] at h
      rw [fuel_succ_nonobj v m1 schema idPre idSep id root fd guard cm hobj]
      exact h
    | true =>
      cases schema with
      | obj fs =>
        rw [fuel_succ_obj] at h
        rw [fuel_succ_obj]
        by_cases hc : (hasRetrievalKeys (.obj fs) &&
            !(guard.any (fun item =>
              deepEquals item (retrieveSchema v (.obj fs) root fd cm)))) = true
        · rw [if_pos hc] at h
          rw [if_pos hc]
          exact ih v _ idPre idSep id root fd _ cm t h m1 hm1
        · rw [if_neg hc] at h
          rw [if_neg hc]
          by_cases hdel : itemsDelegate (.obj fs) = true
          · rw [rest_items _ _ _ _ _ _ hdel] at h
            rw [rest_items _ _ _ _ _ _ hdel]
            exact ih v _ idPre idSep id root fd guard cm t h m1 hm1
          · have hdelf : itemsDelegate (.obj fs) = false := by simpa using hdel
            by_cases hpc : ((getSchemaType (.obj fs) == "object") &&
                Json.hasKey (.obj fs) "properties") = true
            · cases hp : Json.lookup (.obj fs) "properties" with
              | some pv =>
                cases hpv : isObj pv with
                | true =>
                  obtain ⟨props, rfl⟩ : ∃ props, pv = .obj props := by
                    cases pv with
                    | obj props => exact ⟨props, rfl⟩
                    | null => simp [isObj] at hpv
                    | bool b => simp [isObj] at hpv
                    | num nn => simp [isObj] at hpv
                    | str s => simp [isObj] at hpv
                    | arr xs => simp [isObj] at hpv
                  rw [rest_props _ _ _ _ _ _ props hdelf hpc hp] at h
                  rw [rest_props _ _ _ _ _ _ props hdelf hpc hp]
                  rcases Option.map_eq_some'.mp h with ⟨cs, hcs, hnode⟩
                  have hcs2 := optMapList_congr_some props _ _ cs
                    (fun p hp2 b hb => by
                      rcases Option.map_eq_some'.mp hb with ⟨tc, htc, hbtc⟩
                      have hstep := ih v p.2 idPre idSep
                        (some (jsOr id idPre ++ idSep ++ p.1)) root
                        (jsonGet fd p.1) guard cm tc htc m1 hm1
                      rw [← hbtc]
                      exact Option.map_eq_some'.mpr ⟨tc, hstep, rfl⟩) hcs
                  rw [hcs2]
                  simp only [Option.map_some']
                  rw [← hnode]
                | false =>
                  rw [rest_props_nonobj _ _ _ _ _ _ pv hdelf hpc hp hpv] at h
                  rw [rest_props_nonobj _ _ _ _ _ _ pv hdelf hpc hp hpv]
                  exact h
              | none =>
                rw [rest_props_none _ _ _ _ _ _ hdelf hpc hp] at h
                rw [rest_props_none _ _ _ _ _ _ hdelf hpc hp]
                exact h
            · have hpcf : ((getSchemaType (.obj fs) == "object") &&
                  Json.hasKey (.obj fs) "properties") = false := by simpa using hpc
              rw [rest_bare _ _ _ _ _ _ hdelf hpcf] at h
              rw [rest_bare _ _ _ _ _ _ hdelf hpcf]
              exact h
      | null => simp [isObj] at hobj
      | bool b => simp [isObj] at hobj
      | num mm => simp [isObj] at hobj
      | str s => simp [isObj] at hobj
      | arr xs => simp [isObj] at hobj

theorem optMapList_exists {α β : Type} (F : Nat → α → Option β)
    (hmono : ∀ a n m b, n ≤ m → F n a = some b → F m a = some b) :
    ∀ l : List α, (∀ a ∈ l, ∃ n b, F n a = some b) →
    ∃ n bs, optMapList (F n) l = some bs := by
  intro l
  induction l with
  | nil =>
    intro _
    exact ⟨0, [], rfl⟩
  | cons a as ih =>
    intro hall
    obtain ⟨n1, b, hb⟩ := hall a (List.mem_cons_self a as)
    obtain ⟨n2, bs, hbs⟩ := ih (fun x hx => hall x (List.mem_cons_of_mem _ hx))
    refine ⟨max n1 n2, b :: bs, ?_⟩
    have h1 : F (max n1 n2) a = some b := hmono a n1 _ b (Nat.le_max_left _ _) hb
    have h2 : optMapList (F (max n1 n2)) as = some bs :=
      optMapList_congr_some as (F n2) (F (max n1 n2)) bs
        (fun x _ bb hbb => hmono x n2 _ bb (Nat.le_max_right _ _) hbb) hbs
    simp only [optMapList, h1, h2]

theorem exists_fuel : ∀ (a b c : Nat) (v : ValidatorType) (schema : Json)
    ( idPre idSep : String) (id : Option String) (root fd : Option Json)
    (guard : List Json),
    unmatched root guard = a → occJ schema = b → sizeJ schema = c →
    ∃ n t, toIdSchemaFuel v n schema idPre idSep id root fd guard none = some t := by
  intro a
  induction a using Nat.strong_induction_on with
  | _ a iha =>
  intro b
  induction b using Nat.strong_induction_on with
  | _ b ihb =>
  intro c
  induction c using Nat.strong_induction_on with
  | _ c ihc =>
  intro v schema idPre idSep id root fd guard ha hb hc
  cases hobj : isObj schema with
  | false =>
    exact ⟨1, .node (jsOr id idPre) [],
      fuel_succ_nonobj v 0 schema idPre idSep id root fd guard none hobj⟩
  | true =>
    obtain ⟨fs, rfl⟩ : ∃ fs, schema = .obj fs := by
      cases schema with
      | obj fs => exact ⟨fs, rfl⟩
      | null => simp [isObj] at hobj
      | bool bb => simp [isObj] at hobj
      | num nn => simp [isObj] at hobj
      | str ss => simp [isObj] at hobj
      | arr xs => simp [isObj] at hobj
    by_cases hcnd : (hasRetrievalKeys (.obj fs) &&
        !(guard.any (fun item =>
          deepEquals item (retrieveSchema v (.obj fs) root fd none)))) = true
    · have hkeys : hasRetrievalKeys (.obj fs) = true := by
        have hcc := hcnd
        simp only [Bool.and_eq_true] at hcc
        exact hcc.1
      have hnm : (guard.any (fun item =>
          deepEquals item (retrieveSchema v (.obj fs) root fd none))) = false := by
        have hcc := hcnd
        simp only [Bool.and_eq_true, Bool.not_eq_true'] at hcc
        exact hcc.2
      have hprog := retrieve_progress v (.obj fs) root fd rfl hkeys
      have hle : unmatched root (guard ++ [retrieveSchema v (.obj fs) root fd none]) ≤ a := by
        rw [← ha]
        exact unmatched_append_le root guard _
      rcases Nat.lt_or_ge
          (unmatched root (guard ++ [retrieveSchema v (.obj fs) root fd none])) a with hlt | hge
      · obtain ⟨n1, t1, hn1⟩ := iha _ hlt (occJ (retrieveSchema v (.obj fs) root fd none))
          (sizeJ (retrieveSchema v (.obj fs) root fd none)) v _ idPre idSep id root fd _
          rfl rfl rfl
        refine ⟨n1 + 1, t1, ?_⟩
        rw [fuel_succ_obj, if_pos hcnd]
        exact hn1
      · rcases hprog with hmem | hocc
        · have hstr := unmatched_strict root guard _ hmem hnm
          rw [ha] at hstr
          omega
        · have heq : unmatched root (guard ++ [retrieveSchema v (.obj fs) root fd none]) = a :=
            Nat.le_antisymm hle hge
          have hblt : occJ (retrieveSchema v (.obj fs) root fd none) < b := hb ▸ hocc
          obtain ⟨n1, t1, hn1⟩ := ihb _ hblt
            (sizeJ (retrieveSchema v (.obj fs) root fd none)) v _ idPre idSep id root fd _
            heq rfl rfl
          refine ⟨n1 + 1, t1, ?_⟩
          rw [fuel_succ_obj, if_pos hcnd]
          exact hn1
    · have hcf : (hasRetrievalKeys (.obj fs) &&
          !(guard.any (fun item =>
            deepEquals item (retrieveSchema v (.obj fs) root fd none)))) = false := by
        simpa using hcnd
      by_cases hdel : itemsDelegate (.obj fs) = true
      · have hitems : ∃ it, lookupF fs "items" = some it := by
          have hhk : (Json.obj fs).hasKey "items" = true := by
            have hdd := hdel
            simp only [itemsDelegate, Bool.and_eq_true] at hdd
            exact hdd.1
          simpa [Json.hasKey, Json.lookup, Option.isSome_iff_exists] using hhk
        obtain ⟨it, hit⟩ := hitems
        have hitlk : (Json.obj fs).lookup "items" = some it := hit
        have hoccle : occJ it ≤ b := hb ▸ lookup_occ_le fs "items" it hit
        have hsize : sizeJ it < c := hc ▸ lookup_size_lt fs "items" it hit
        have hwrap : ∀ n1 t1, toIdSchemaFuel v n1 it idPre idSep id root fd guard none = some t1 →
            toIdSchemaFuel v (n1 + 1) (.obj fs) idPre idSep id root fd guard none = some t1 := by
          intro n1 t1 hn1
          rw [fuel_succ_obj, if_neg (by simp [hcf])]
          rw [rest_items _ _ _ _ _ _ hdel, hitlk]
          exact hn1
        rcases Nat.lt_or_ge (occJ it) b with hlt | hge2
        · obtain ⟨n1, t1, hn1⟩ := ihb _ hlt (sizeJ it) v it idPre idSep id root fd guard ha rfl rfl
          exact ⟨n1 + 1, t1, hwrap n1 t1 hn1⟩
        · have heq : occJ it = b := Nat.le_antisymm hoccle hge2
          obtain ⟨n1, t1, hn1⟩ := ihc _ hsize v it idPre idSep id root fd guard ha heq rfl
          exact ⟨n1 + 1, t1, hwrap n1 t1 hn1⟩
      · have hdelf : itemsDelegate (.obj fs) = false := by simpa using hdel
        by_cases hpc : ((getSchemaType (.obj fs) == "object") &&
            Json.hasKey (.obj fs) "properties") = true
        · cases hp : Json.lookup (.obj fs) "properties" with
          | some pv =>
            cases hpv : isObj pv with
            | true =>
              obtain ⟨props, rfl⟩ : ∃ props, pv = .obj props := by
                cases pv with
                | obj props => exact ⟨props, rfl⟩
                | null => simp [isObj] at hpv
                | bool bb => simp [isObj] at hpv
                | num nn => simp [isObj] at hpv
                | str ss => simp [isObj] at hpv
                | arr xs => simp [isObj] at hpv
              have hchild : ∀ p ∈ props, ∃ n1 tc, toIdSchemaFuel v n1 p.2 idPre idSep
                  (some (jsOr id idPre ++ idSep ++ p.1)) root (jsonGet fd p.1) guard none =
                    some tc := by
                intro p hpmem
                have hocc2 : occJ p.2 ≤ b := by
                  rw [← hb]
                  have h1 : occJ p.2 ≤ occF props := value_occ_le props p.1 p.2 hpmem
                  have h2 : occJ (.obj props) ≤ occJ (.obj fs) :=
                    lookup_occ_le fs "properties" (.obj props) hp
                  simp only [occJ] at h2
                  simp only [occJ]
                  omega
                have hsize2 : sizeJ p.2 < c := by
                  rw [← hc]
                  have h1 : sizeJ p.2 ≤ sizeF props := value_size_le props p.1 p.2 hpmem
                  have h2 : sizeJ (.obj props) < sizeJ (.obj fs) :=
                    lookup_size_lt fs "properties" (.obj props) hp
                  simp only [sizeJ] at h2 ⊢
                  omega
                rcases Nat.lt_or_ge (occJ p.2) b with hlt | hge2
                · exact ihb _ hlt (sizeJ p.2) v p.2 idPre idSep
                    (some (jsOr id idPre ++ idSep ++ p.1)) root (jsonGet fd p.1) guard
                    ha rfl rfl
                · have heq : occJ p.2 = b := Nat.le_antisymm hocc2 hge2
                  exact ihc _ hsize2 v p.2 idPre idSep
                    (some (jsOr id idPre ++ idSep ++ p.1)) root (jsonGet fd p.1) guard
                    ha heq rfl
              have hmonoF : ∀ (p : String × Json) (n1 m1 : Nat) (bb : String × IdSchema),
                  n1 ≤ m1 →
                  (toIdSchemaFuel v n1 p.2 idPre idSep (some (jsOr id idPre ++ idSep ++ p.1))
                    root (jsonGet fd p.1) guard none).map (fun tc => (p.1, tc)) = some bb →
                  (toIdSchemaFuel v m1 p.2 idPre idSep (some (jsOr id idPre ++ idSep ++ p.1))
                    root (jsonGet fd p.1) guard none).map (fun tc => (p.1, tc)) = some bb := by
                intro p n1 m1 bb hnm hfp
                rcases Option.map_eq_some'.mp hfp with ⟨tc, htc, hbtc⟩
                rw [← hbtc]
                exact Option.map_eq_some'.mpr
                  ⟨tc, fuel_mono n1 v p.2 idPre idSep _ root _ guard none tc htc m1 hnm, rfl⟩
              obtain ⟨N, cs, hcs⟩ := optMapList_exists
                (fun n1 p =>
                  (toIdSchemaFuel v n1 p.2 idPre idSep (some (jsOr id idPre ++ idSep ++ p.1))
                    root (jsonGet fd p.1) guard none).map (fun tc => (p.1, tc)))
                (fun p n1 m1 bb => hmonoF p n1 m1 bb) props
                (fun p hpmem => by
                  obtain ⟨n1, tc, htc⟩ := hchild p hpmem
                  exact ⟨n1, (p.1, tc), Option.map_eq_some'.mpr ⟨tc, htc, rfl⟩⟩)
              refine ⟨N + 1, .node (jsOr id idPre) cs, ?_⟩
              rw [fuel_succ_obj, if_neg (by simp [hcf])]
              rw [rest_props _ _ _ _ _ _ props hdelf hpc hp]
              exact Option.map_eq_some'.mpr ⟨cs, hcs, rfl⟩
            | false =>
              exact ⟨1, .node (jsOr id idPre) [], by
                rw [fuel_succ_obj, if_neg (by simp [hcf])]
                exact rest_props_nonobj _ _ _ _ _ _ pv hdelf hpc hp hpv⟩
          | none =>
            exact ⟨1, .node (jsOr id idPre) [], by
              rw [fuel_succ_obj, if_neg (by simp [hcf])]
              exact rest_props_none _ _ _ _ _ _ hdelf hpc hp⟩
        · have hpcf : ((getSchemaType (.obj fs) == "object") &&
              Json.hasKey (.obj fs) "properties") = false := by simpa using hpc
          exact ⟨1, .node (jsOr id idPre) [], by
            rw [fuel_succ_obj, if_neg (by simp [hcf])]
            exact rest_bare _ _ _ _ _ _ hdelf hpcf⟩

theorem string_data_empty : ("" : String).data = [] := rfl

theorem append_mid_ne_empty (a b c : String) (hb : b ≠ "") : a ++ b ++ c ≠ "" := by
  intro h
  apply hb
  have hd := congrArg String.data h
  rw [String.data_append, String.data_append, string_data_empty] at hd
  rcases List.append_eq_nil.mp hd with ⟨hab, _⟩
  rcases List.append_eq_nil.mp hab with ⟨_, hb2⟩
  exact String.ext (by rw [hb2, string_data_empty])

theorem jsOr_some_ne (s fallback : String) (h : s ≠ "") : jsOr (some s) fallback = s := by
  simp [jsOr, h]

theorem optMapList_children {γ : Type} : ∀ (l : List (String × Json))
    (g : String × Json → Option γ) (cs : List (String × γ)),
    optMapList (fun p => (g p).map (fun tc => (p.1, tc))) l = some cs →
    cs.map Prod.fst = l.map Prod.fst ∧
      ∀ pr ∈ cs, ∃ p, p ∈ l ∧ pr.1 = p.1 ∧ g p = some pr.2 := by
  intro l
  induction l with
  | nil =>
    intro g cs h
    simp only [optMapList] at h
    cases h
    exact ⟨rfl, fun pr hpr => absurd hpr (List.not_mem_nil pr)⟩
  | cons a as ih =>
    intro g cs h
    cases hga : g a with
    | none =>
      simp only [optMapList, hga, Option.map_none'] at h
      exact Option.noConfusion h
    | some tc =>
      cases hrest : optMapList (fun p => (g p).map (fun x => (p.1, x))) as with
      | none =>
        simp only [optMapList, hga, Option.map_some', hrest] at h
        exact Option.noConfusion h
      | some cs2 =>
        simp only [optMapList, hga, Option.map_some', hrest] at h
        cases h
        obtain ⟨hkeys, hmem⟩ := ih g cs2 hrest
        constructor
        · simp only [List.map_cons, hkeys]
        · intro pr hpr
          rcases List.mem_cons.mp hpr with rfl | hpr2
          · exact ⟨a, List.mem_cons_self a as, rfl, hga⟩
          · obtain ⟨p, hp1, hp2, hp3⟩ := hmem pr hpr2
            exact ⟨p, List.mem_cons_of_mem _ hp1, hp2, hp3⟩

/-- Claim C3: when `items` is present and not itself a bare reference, the
builder recurses directly into the item schema with the same base id (no
path segment for the array wrapper), so the id tree of
`{type: array, items: s}` is exactly the id tree of `s`. -/
theorem c3_array_delegation :
    (∀ (v : ValidatorType) (fs : List (String × Json)) ( idPre idSep : String)
      (id : Option String) (root fd : Option Json) (guard : List Json)
      (cm : Option CustomMergeAllOf) (t : IdSchema),
      hasRetrievalKeys (.obj fs) = false →
      itemsDelegate (.obj fs) = true →
      (ComputesInternal v (.obj fs) idPre idSep id root fd guard cm t ↔
        ComputesInternal v (((Json.obj fs).lookup "items").getD .null)
          idPre idSep id root fd guard cm t)) ∧
    Computes exValidator exArrSchema none none none none none none
      (.node "root" [("s", .node "root_s" [])]) := by
  constructor
  · intro v fs idPre idSep id root fd guard cm t hkeys hdel
    constructor
    · intro ⟨n, h⟩
      cases n with
      | zero => simp [toIdSchemaFuel] at h
      | succ n =>
        rw [fuel_succ_obj, if_neg (by simp [hkeys])] at h
        rw [rest_items _ _ _ _ _ _ hdel] at h
        exact ⟨n, h⟩
    · intro ⟨n, h⟩
      refine ⟨n + 1, ?_⟩
      rw [fuel_succ_obj, if_neg (by simp [hkeys])]
      rw [rest_items _ _ _ _ _ _ hdel]
      exact h
  · exact ⟨3, rfl⟩

theorem c3_array_delegation_witness :
    ComputesInternal exValidator exItemSchema "root" "_" none none none [] none
      (.node "root" [("s", .node "root_s" [])]) := by
  have hiff := (c3_array_delegation.1 exValidator
    [("type", .str "array"), ("items", exItemSchema)]
    "root" "_" none none none [] none
    (.node "root" [("s", .node "root_s" [])]) (by decide) (by decide)).mp ⟨3, rfl⟩
  exact hiff

/-- Claim C4 counterexample: on spec scenario 4 (array property whose item
schema is a bare reference) the builder leaves a bare id node for the array —
it does not resolve the item reference and recurse into it before building
ids, as recursing into the resolved reference target would add an `x` child
under `root_items`. -/
theorem c4_counterexample :
    toIdSchema exValidator 5 exScenario4 none (some exScenario4Root) none none none none =
      some (.node "root" [("items", .node "root_items" [])]) ∧
    toIdSchemaFuel exValidator 5
      (retrieveSchema exValidator exRefItems (some exScenario4Root) none none)
      "root" "_" (some "root_items") (some exScenario4Root) none [] none =
      some (.node "root_items" [("x", .node "root_items_x" [])]) ∧
    IdSchema.node "root_items" [] ≠ .node "root_items" [("x", .node "root_items_x" [])] := by
  refine ⟨rfl, rfl, ?_⟩
  decide

/-- Claim C4 amended: when the item schema is a bare reference the
array-delegation special case does not apply, and — because an
array-classified schema is not the object case either — the builder returns
the bare identifier node for the array without resolving or descending into
the referenced item schema; on scenario 4 the `items` property therefore
carries the single id `root_items`. -/
theorem c4_amended :
    (∀ (v : ValidatorType) (n : Nat) (fs : List (String × Json)) ( idPre idSep : String)
      (id : Option String) (root fd : Option Json) (guard : List Json)
      (cm : Option CustomMergeAllOf),
      hasRetrievalKeys (.obj fs) = false →
      itemsDelegate (.obj fs) = false →
      ((getSchemaType (.obj fs) == "object") && Json.hasKey (.obj fs) "properties") = false →
      toIdSchemaFuel v (n + 1) (.obj fs) idPre idSep id root fd guard cm =
        some (.node (jsOr id idPre) [])) ∧
    toIdSchema exValidator 5 exScenario4 none (some exScenario4Root) none none none none =
      some (.node "root" [("items", .node "root_items" [])]) := by
  constructor
  · intro v n fs idPre idSep id root fd guard cm hkeys hdel hpc
    rw [fuel_succ_obj, if_neg (by simp [hkeys])]
    exact rest_bare _ _ _ _ _ _ hdel hpc
  · rfl

theorem c4_amended_witness :
    toIdSchemaFuel exValidator 1 exArrRef "root" "_" (some "root_items")
      (some exScenario4Root) none [] none = some (.node "root_items" []) := by
  have happ := c4_amended.1 exValidator 0
    [("type", .str "array"), ("items", exRefItems)] "root" "_" (some "root_items")
    (some exScenario4Root) none [] none (by decide) (by decide) (by decide)
  exact happ

/-- Claim C9: the public entry point defaults `idPrefix` to `"root"` and
`idSeparator` to `"_"`: a call omitting them returns the same tree as a call
supplying those values, for every validator, fuel, schema, base id, root
schema, form data and merge function. -/
theorem c9_defaults :
    ∀ (v : ValidatorType) (n : Nat) (schema : Json) (id : Option String)
      (root fd : Option Json) (cm : Option CustomMergeAllOf),
      toIdSchema v n schema id root fd none none cm =
        toIdSchema v n schema id root fd (some "root") (some "_") cm := by
  intro v n schema id root fd cm
  rfl

/-- Claim C10: a schema that is not an object value, and an object schema for
which neither the array-delegation case nor the object-with-properties
classification applies (after the retrieval branch), produce exactly the
single-node tree carrying the base id (or prefix) and no children. -/
theorem c10_bare_node :
    (∀ (v : ValidatorType) (n : Nat) (schema : Json) ( idPre idSep : String)
      (id : Option String) (root fd : Option Json) (guard : List Json)
      (cm : Option CustomMergeAllOf),
      isObj schema = false →
      toIdSchemaFuel v (n + 1) schema idPre idSep id root fd guard cm =
        some (.node (jsOr id idPre) [])) ∧
    (∀ (v : ValidatorType) (n : Nat) (fs : List (String × Json)) ( idPre idSep : String)
      (id : Option String) (root fd : Option Json) (guard : List Json)
      (cm : Option CustomMergeAllOf),
      hasRetrievalKeys (.obj fs) = false →
      itemsDelegate (.obj fs) = false →
      ((getSchemaType (.obj fs) == "object") && Json.hasKey (.obj fs) "properties") = false →
      toIdSchemaFuel v (n + 1) (.obj fs) idPre idSep id root fd guard cm =
        some (.node (jsOr id idPre) [])) := by
  constructor
  · intro v n schema idPre idSep id root fd guard cm hobj
    exact fuel_succ_nonobj v n schema idPre idSep id root fd guard cm hobj
  · intro v n fs idPre idSep id root fd guard cm hkeys hdel hpc
    rw [fuel_succ_obj, if_neg (by simp [hkeys])]
    exact rest_bare _ _ _ _ _ _ hdel hpc

theorem c10_bare_node_witness :
    toIdSchemaFuel exValidator 1 (.bool true) "root" "_" none none none [] none =
      some (.node "root" []) ∧
    toIdSchemaFuel exValidator 1 (.obj [("type", .str "number")]) "root" "_" none none none
      [] none = some (.node "root" []) := by
  exact ⟨c10_bare_node.1 exValidator 0 (.bool true) "root" "_" none none none [] none
      (by decide),
    c10_bare_node.2 exValidator 0 [("type", .str "number")] "root" "_" none none none [] none
      (by decide) (by decide) (by decide)⟩

/-- Claim C7: identifier-tree building is a pure, deterministic function of
its arguments — two top-level calls with equal inputs reach equal trees (for
any amounts of fuel) — and the recursion guard list is call-local: in the
object case every sibling child call receives the parent's guard list
unchanged, never a sibling's extension. -/
theorem c7_purity :
    (∀ (v : ValidatorType) (schema : Json) (id : Option String) (root fd : Option Json)
      ( idPre idSep : Option String) (cm : Option CustomMergeAllOf) (t1 t2 : IdSchema),
      Computes v schema id root fd idPre idSep cm t1 →
      Computes v schema id root fd idPre idSep cm t2 → t1 = t2) ∧
    (∀ (v : ValidatorType) (n : Nat) (fs props : List (String × Json))
      ( idPre idSep : String) (id : Option String) (root fd : Option Json)
      (guard : List Json) (cm : Option CustomMergeAllOf),
      hasRetrievalKeys (.obj fs) = false →
      itemsDelegate (.obj fs) = false →
      ((getSchemaType (.obj fs) == "object") && Json.hasKey (.obj fs) "properties") = true →
      Json.lookup (.obj fs) "properties" = some (.obj props) →
      toIdSchemaFuel v (n + 1) (.obj fs) idPre idSep id root fd guard cm =
        (optMapList (fun p =>
          (toIdSchemaFuel v n p.2 idPre idSep (some (jsOr id idPre ++ idSep ++ p.1)) root
            (jsonGet fd p.1) guard cm).map (fun tc => (p.1, tc))) props).map
          (fun cs => IdSchema.node (jsOr id idPre) cs)) := by
  constructor
  · intro v schema id root fd idPre idSep cm t1 t2 ⟨n1, h1⟩ ⟨n2, h2⟩
    have h1m : toIdSchemaFuel v (max n1 n2) schema ( idPre.getD "root") (idSep.getD "_")
        id root fd [] cm = some t1 :=
      fuel_mono n1 v schema _ _ id root fd [] cm t1 h1 (max n1 n2) (Nat.le_max_left _ _)
    have h2m : toIdSchemaFuel v (max n1 n2) schema ( idPre.getD "root") (idSep.getD "_")
        id root fd [] cm = some t2 :=
      fuel_mono n2 v schema _ _ id root fd [] cm t2 h2 (max n1 n2) (Nat.le_max_right _ _)
    rw [h1m] at h2m
    injection h2m
  · intro v n fs props idPre idSep id root fd guard cm hkeys hdel hpc hp
    rw [fuel_succ_obj, if_neg (by simp [hkeys])]
    exact rest_props _ _ _ _ _ _ props (by simpa using hdel) hpc hp

theorem c7_purity_witness :
    exObjTree = exObjTree ∧
    toIdSchemaFuel exValidator 1 exObjSchema "root" "_" none none none [] none =
      (optMapList (fun p =>
        (toIdSchemaFuel exValidator 0 p.2 "root" "_" (some ("root" ++ "_" ++ p.1)) none
          (jsonGet none p.1) [] none).map (fun tc => (p.1, tc)))
        [("a", .obj [("type", .str "string")]), ("b", .obj [("type", .str "number")])]).map
        (fun cs => IdSchema.node "root" cs) := by
  exact ⟨c7_purity.1 exValidator exObjSchema none none none (some "root") (some "_")
      none exObjTree exObjTree ⟨3, rfl⟩ ⟨4, rfl⟩,
    c7_purity.2 exValidator 0
      [("type", .str "object"),
       ("properties", .obj [("a", .obj [("type", .str "string")]),
                            ("b", .obj [("type", .str "number")])])]
      [("a", .obj [("type", .str "string")]), ("b", .obj [("type", .str "number")])]
      "root" "_" none none none [] none (by decide) (by decide) (by decide) rfl⟩

theorem mem_subF_iff : ∀ (fs : List (String × Json)) (x : Json),
    x ∈ subF fs ↔ ∃ p ∈ fs, x ∈ subJ p.2 := by
  intro fs x
  induction fs with
  | nil => simp [subF]
  | cons p rest ih =>
    obtain ⟨k, v⟩ := p
    simp only [subF, List.mem_append, ih, List.mem_cons]
    constructor
    · rintro (h | ⟨q, hq1, hq2⟩)
      · exact ⟨(k, v), Or.inl rfl, h⟩
      · exact ⟨q, Or.inr hq1, hq2⟩
    · rintro ⟨q, hq1 | hq1, hq2⟩
      · subst hq1
        exact Or.inl hq2
      · exact Or.inr ⟨q, hq1, hq2⟩

theorem mem_subA_iff : ∀ (xs : List Json) (x : Json),
    x ∈ subA xs ↔ ∃ y ∈ xs, x ∈ subJ y := by
  intro xs x
  induction xs with
  | nil => simp [subA]
  | cons y rest ih =>
    simp only [subA, List.mem_append, ih, List.mem_cons]
    constructor
    · rintro (h | ⟨z, hz1, hz2⟩)
      · exact ⟨y, Or.inl rfl, h⟩
      · exact ⟨z, Or.inr hz1, hz2⟩
    · rintro ⟨z, hz1 | hz1, hz2⟩
      · subst hz1
        exact Or.inl hz2
      · exact Or.inr ⟨z, hz1, hz2⟩

mutual

theorem subJ_trans : ∀ (j x : Json), x ∈ subJ j → ∀ y ∈ subJ x, y ∈ subJ j
  | .obj fs, x => by
    intro hx y hy
    rcases List.mem_cons.mp hx with rfl | hx2
    · exact hy
    · exact List.mem_cons_of_mem _ (subF_trans fs x hx2 y hy)
  | .arr xs, x => by
    intro hx y hy
    rcases List.mem_cons.mp hx with rfl | hx2
    · exact hy
    · exact List.mem_cons_of_mem _ (subA_trans xs x hx2 y hy)
  | .null, x => by
    intro hx y hy
    rcases List.mem_singleton.mp hx with rfl
    exact hy
  | .bool b, x => by
    intro hx y hy
    rcases List.mem_singleton.mp hx with rfl
    exact hy
  | .num n, x => by
    intro hx y hy
    rcases List.mem_singleton.mp hx with rfl
    exact hy
  | .str s, x => by
    intro hx y hy
    rcases List.mem_singleton.mp hx with rfl
    exact hy

theorem subF_trans : ∀ (fs : List (String × Json)) (x : Json),
    x ∈ subF fs → ∀ y ∈ subJ x, y ∈ subF fs
  | [], x => by
    intro hx
    exact absurd hx (List.not_mem_nil x)
  | (k, v) :: rest, x => by
    intro hx y hy
    rcases List.mem_append.mp hx with h1 | h2
    · exact List.mem_append_left _ (subJ_trans v x h1 y hy)
    · exact List.mem_append_right _ (subF_trans rest x h2 y hy)

theorem subA_trans : ∀ (xs : List Json) (x : Json),
    x ∈ subA xs → ∀ y ∈ subJ x, y ∈ subA xs
  | [], x => by
    intro hx
    exact absurd hx (List.not_mem_nil x)
  | z :: rest, x => by
    intro hx y hy
    rcases List.mem_append.mp hx with h1 | h2
    · exact List.mem_append_left _ (subJ_trans z x h1 y hy)
    · exact List.mem_append_right _ (subA_trans rest x h2 y hy)

end

theorem goodKeys_sub (c : Char) (j x : Json) (hg : goodKeys c j) (hx : x ∈ subJ j) :
    goodKeys c x :=
  fun y hy => hg y (subJ_trans j x hx y hy)

theorem goodKeys_obj_iff (c : Char) (fs : List (String × Json)) :
    goodKeys c (.obj fs) ↔
      ((∀ p ∈ fs, c ∉ (p.1 : String).data) ∧ NodupKeys fs) ∧
        ∀ p ∈ fs, goodKeys c p.2 := by
  constructor
  · intro hg
    refine ⟨hg (.obj fs) (self_mem_subJ _), ?_⟩
    intro p hp y hy
    apply hg y
    exact List.mem_cons_of_mem _ ((mem_subF_iff fs y).mpr ⟨p, hp, hy⟩)
  · rintro ⟨hself, hvals⟩ x hx
    rcases List.mem_cons.mp hx with rfl | hx2
    · exact hself
    · obtain ⟨p, hp1, hp2⟩ := (mem_subF_iff fs x).mp hx2
      exact hvals p hp1 x hp2

theorem goodKeys_arr_iff (c : Char) (xs : List Json) :
    goodKeys c (.arr xs) ↔ ∀ y ∈ xs, goodKeys c y := by
  constructor
  · intro hg y hy z hz
    apply hg z
    exact List.mem_cons_of_mem _ ((mem_subA_iff xs z).mpr ⟨y, hy, hz⟩)
  · intro hall x hx
    rcases List.mem_cons.mp hx with rfl | hx2
    · exact trivial
    · obtain ⟨y, hy1, hy2⟩ := (mem_subA_iff xs x).mp hx2
      exact hall y hy1 x hy2

theorem lookupF_eq_none_iff : ∀ (l : List (String × Json)) (k : String),
    lookupF l k = none ↔ k ∉ keysOf l := by
  intro l k
  induction l with
  | nil => simp [lookupF, keysOf]
  | cons p rest ih =>
    obtain ⟨a, b⟩ := p
    simp only [lookupF, keysOf, List.map_cons, List.mem_cons]
    by_cases hak : a = k
    · rw [if_pos hak]
      simp [hak]
    · rw [if_neg hak]
      simp only [keysOf] at ih
      rw [ih]
      constructor
      · intro h hmem
        rcases hmem with h2 | h2
        · exact hak h2.symm
        · exact h h2
      · intro h h2
        exact h (Or.inr h2)

theorem mem_dedup : ∀ (l : List (String × Json)) (p : String × Json),
    p ∈ dedupKeys l → p ∈ l := by
  intro l
  induction l with
  | nil =>
    intro p h
    exact absurd h (List.not_mem_nil p)
  | cons q rest ih =>
    intro p h
    simp only [dedupKeys, List.mem_cons] at h
    rcases h with rfl | h2
    · exact List.mem_cons_self _ _
    · exact List.mem_cons_of_mem _ (ih p (List.mem_of_mem_filter h2))

theorem keysOf_append (l1 l2 : List (String × Json)) :
    keysOf (l1 ++ l2) = keysOf l1 ++ keysOf l2 := by
  simp [keysOf]

theorem keys_map_mergeEntry (fb1 fa1 : List (String × Json)) :
    keysOf (fb1.map (fun p =>
      match lookupF fa1 p.1 with
      | some va => (p.1, mergeFieldValue p.1 va p.2)
      | none => p)) = keysOf fb1 := by
  induction fb1 with
  | nil => rfl
  | cons p rest ih =>
    simp only [List.map_cons, keysOf] at ih ⊢
    rw [ih]
    cases lookupF fa1 p.1 with
    | some va => rfl
    | none => rfl

theorem goodKeys_unionProps (c : Char) (pa pb : List (String × Json))
    (ha : goodKeys c (.obj pa)) (hb : goodKeys c (.obj pb)) :
    goodKeys c (.obj (unionProps pa pb)) := by
  obtain ⟨⟨hak, hand⟩, hav⟩ := (goodKeys_obj_iff c pa).mp ha
  obtain ⟨⟨hbk, hbnd⟩, hbv⟩ := (goodKeys_obj_iff c pb).mp hb
  apply (goodKeys_obj_iff c _).mpr
  refine ⟨⟨?_, ?_⟩, ?_⟩
  · intro p hp
    rcases List.mem_append.mp hp with h1 | h1
    · exact hak p (List.mem_of_mem_filter h1)
    · exact hbk p h1
  · simp only [NodupKeys, unionProps, keysOf_append]
    apply List.Nodup.append
    · exact (hand : (keysOf pa).Nodup).sublist ((List.filter_sublist pa).map Prod.fst)
    · exact hbnd
    · rw [List.disjoint_left]
      intro k hk hk2
      simp only [keysOf, List.mem_map] at hk
      obtain ⟨q, hq1, hq2⟩ := hk
      have hpn := List.of_mem_filter hq1
      simp only [Option.isNone_iff_eq_none] at hpn
      rw [hq2] at hpn
      exact (lookupF_eq_none_iff pb k).mp hpn hk2
  · intro p hp
    rcases List.mem_append.mp hp with h1 | h1
    · exact hav p (List.mem_of_mem_filter h1)
    · exact hbv p h1

theorem goodKeys_mergeFieldValue (c : Char) (k : String) (va vb : Json)
    (hva : goodKeys c va) (hvb : goodKeys c vb) :
    goodKeys c (mergeFieldValue k va vb) := by
  simp only [mergeFieldValue]
  by_cases h1 : k = "required"
  · rw [if_pos h1]
    cases va with
    | arr xs =>
      cases vb with
      | arr ys =>
        apply (goodKeys_arr_iff c _).mpr
        intro y hy
        rcases List.mem_append.mp hy with h2 | h2
        · exact (goodKeys_arr_iff c xs).mp hva y h2
        · exact (goodKeys_arr_iff c ys).mp hvb y h2
      | null => exact hvb
      | bool b => exact hvb
      | num n => exact hvb
      | str s => exact hvb
      | obj fs => exact hvb
    | null => exact hvb
    | bool b => exact hvb
    | num n => exact hvb
    | str s => exact hvb
    | obj fs => exact hvb
  · rw [if_neg h1]
    by_cases h2 : k = "properties"
    · rw [if_pos h2]
      cases va with
      | obj pa =>
        cases vb with
        | obj pb => exact goodKeys_unionProps c pa pb hva hvb
        | null => exact hvb
        | bool b => exact hvb
        | num n => exact hvb
        | str s => exact hvb
        | arr xs => exact hvb
      | null => exact hvb
      | bool b => exact hvb
      | num n => exact hvb
      | str s => exact hvb
      | arr xs => exact hvb
    · rw [if_neg h2]
      exact hvb

theorem goodKeys_dedup_val (c : Char) (fs : List (String × Json))
    (h : ∀ p ∈ fs, goodKeys c p.2) : ∀ p ∈ dedupKeys fs, goodKeys c p.2 :=
  fun p hp => h p (mem_dedup fs p hp)

theorem goodKeys_mergeSchemas (c : Char) (a b : Json)
    (ha : goodKeys c a) (hb : goodKeys c b) : goodKeys c (mergeSchemas a b) := by
  cases a with
  | obj fa =>
    cases b with
    | obj fb =>
      obtain ⟨⟨hak, _⟩, hav⟩ := (goodKeys_obj_iff c fa).mp ha
      obtain ⟨⟨hbk, _⟩, hbv⟩ := (goodKeys_obj_iff c fb).mp hb
      show goodKeys c (.obj (mergeFields fa fb))
      apply (goodKeys_obj_iff c _).mpr
      refine ⟨⟨?_, ?_⟩, ?_⟩
      · intro p hp
        rcases List.mem_append.mp hp with h1 | h1
        · exact hak p (mem_dedup fa p (List.mem_of_mem_filter h1))
        · obtain ⟨q, hq1, hq2⟩ := List.mem_map.mp h1
          have hqk : c ∉ (q.1 : String).data := hbk q (mem_dedup fb q hq1)
          cases hl : lookupF (dedupKeys fa) q.1 with
          | some va =>
            rw [hl] at hq2
            rw [← hq2]
            exact hqk
          | none =>
            rw [hl] at hq2
            rw [← hq2]
            exact hqk
      · simp only [NodupKeys, mergeFields, keysOf_append]
        apply List.Nodup.append
        · exact (nodup_dedup fa : (keysOf (dedupKeys fa)).Nodup).sublist
            ((List.filter_sublist _).map Prod.fst)
        · rw [keys_map_mergeEntry]
          exact nodup_dedup fb
        · rw [List.disjoint_left]
          intro k hk hk2
          simp only [keysOf, List.mem_map] at hk
          obtain ⟨q, hq1, hq2⟩ := hk
          have hpn := List.of_mem_filter hq1
          simp only [Option.isNone_iff_eq_none] at hpn
          rw [hq2] at hpn
          rw [keys_map_mergeEntry] at hk2
          exact (lookupF_eq_none_iff (dedupKeys fb) k).mp hpn hk2
      · intro p hp
        rcases List.mem_append.mp hp with h1 | h1
        · exact hav p (mem_dedup fa p (List.mem_of_mem_filter h1))
        · obtain ⟨q, hq1, hq2⟩ := List.mem_map.mp h1
          have hqv : goodKeys c q.2 := hbv q (mem_dedup fb q hq1)
          cases hl : lookupF (dedupKeys fa) q.1 with
          | some va =>
            rw [hl] at hq2
            have hvag : goodKeys c va :=
              hav (q.1, va) (mem_dedup fa _ (lookupF_mem _ _ _ hl))
            rw [← hq2]
            exact goodKeys_mergeFieldValue c q.1 va q.2 hvag hqv
          | none =>
            rw [hl] at hq2
            rw [← hq2]
            exact hqv
    | null => exact hb
    | bool bb => exact hb
    | num nn => exact hb
    | str ss => exact hb
    | arr xs => exact hb
  | null => exact hb
  | bool bb => exact hb
  | num nn => exact hb
  | str ss => exact hb
  | arr xs => exact hb

theorem goodKeys_eraseKey (c : Char) (j : Json) (k : String) (h : goodKeys c j) :
    goodKeys c (j.eraseKey k) := by
  cases j with
  | obj fs =>
    obtain ⟨⟨hk, hnd⟩, hv⟩ := (goodKeys_obj_iff c fs).mp h
    show goodKeys c (.obj (eraseF fs k))
    apply (goodKeys_obj_iff c _).mpr
    refine ⟨⟨?_, ?_⟩, ?_⟩
    · intro p hp
      exact hk p (List.mem_of_mem_filter hp)
    · exact (hnd : (keysOf fs).Nodup).sublist ((List.filter_sublist fs).map Prod.fst)
    · intro p hp
      exact hv p (List.mem_of_mem_filter hp)
  | null => exact h
  | bool b => exact h
  | num n => exact h
  | str s => exact h
  | arr xs => exact h

theorem goodKeys_foldl_pairs (c : Char) : ∀ (l : List (String × Json)) (base : Json),
    goodKeys c base → (∀ p ∈ l, goodKeys c p.2) →
    goodKeys c (l.foldl (fun acc p => mergeSchemas acc p.2) base) := by
  intro l
  induction l with
  | nil =>
    intro base hb _
    exact hb
  | cons p rest ih =>
    intro base hb hall
    simp only [List.foldl_cons]
    exact ih (mergeSchemas base p.2)
      (goodKeys_mergeSchemas c base p.2 hb (hall p (List.mem_cons_self _ _)))
      (fun q hq => hall q (List.mem_cons_of_mem _ hq))

theorem goodKeys_foldl_arr (c : Char) : ∀ (l : List Json) (base : Json),
    goodKeys c base → (∀ x ∈ l, goodKeys c x) →
    goodKeys c (l.foldl mergeSchemas base) := by
  intro l
  induction l with
  | nil =>
    intro base hb _
    exact hb
  | cons x rest ih =>
    intro base hb hall
    simp only [List.foldl_cons]
    exact ih (mergeSchemas base x)
      (goodKeys_mergeSchemas c base x hb (hall x (List.mem_cons_self _ _)))
      (fun q hq => hall q (List.mem_cons_of_mem _ hq))

theorem goodKeys_lookup_val (c : Char) (fs : List (String × Json)) (k : String) (dv : Json)
    (h : goodKeys c (.obj fs)) (hl : lookupF fs k = some dv) : goodKeys c dv :=
  ((goodKeys_obj_iff c fs).mp h).2 (k, dv) (lookupF_mem fs k dv hl)

theorem goodKeys_resolveDeps (c : Char) (schema : Json) (fd : Option Json)
    (h : goodKeys c schema) : goodKeys c (resolveDependencies schema fd) := by
  cases hl : schema.lookup "dependencies" with
  | none =>
    simp only [resolveDependencies, hl]
    exact h
  | some dv =>
    have hobj : ∃ fs, schema = .obj fs := by
      cases schema with
      | obj fs => exact ⟨fs, rfl⟩
      | null => simp [Json.lookup] at hl
      | bool b => simp [Json.lookup] at hl
      | num n => simp [Json.lookup] at hl
      | str s => simp [Json.lookup] at hl
      | arr xs => simp [Json.lookup] at hl
    obtain ⟨fs, rfl⟩ := hobj
    cases dv with
    | obj deps =>
      simp only [resolveDependencies, hl]
      apply goodKeys_foldl_pairs
      · exact goodKeys_eraseKey c _ _ h
      · intro p hp
        have hdg : goodKeys c (.obj deps) := goodKeys_lookup_val c fs _ _ h hl
        exact ((goodKeys_obj_iff c deps).mp hdg).2 p
          (mem_dedup deps p (List.mem_of_mem_filter hp))
    | null =>
      simp only [resolveDependencies, hl]
      exact goodKeys_eraseKey c _ _ h
    | bool b =>
      simp only [resolveDependencies, hl]
      exact goodKeys_eraseKey c _ _ h
    | num n =>
      simp only [resolveDependencies, hl]
      exact goodKeys_eraseKey c _ _ h
    | str s =>
      simp only [resolveDependencies, hl]
      exact goodKeys_eraseKey c _ _ h
    | arr xs =>
      simp only [resolveDependencies, hl]
      exact goodKeys_eraseKey c _ _ h

theorem goodKeys_defaultMergeAllOf (c : Char) (schema : Json)
    (h : goodKeys c schema) : goodKeys c (defaultMergeAllOf schema) := by
  cases hl : schema.lookup "allOf" with
  | none =>
    simp only [defaultMergeAllOf, hl]
    exact h
  | some dv =>
    have hobj : ∃ fs, schema = .obj fs := by
      cases schema with
      | obj fs => exact ⟨fs, rfl⟩
      | null => simp [Json.lookup] at hl
      | bool b => simp [Json.lookup] at hl
      | num n => simp [Json.lookup] at hl
      | str s => simp [Json.lookup] at hl
      | arr xs => simp [Json.lookup] at hl
    obtain ⟨fs, rfl⟩ := hobj
    cases dv with
    | arr branches =>
      simp only [defaultMergeAllOf, hl]
      apply goodKeys_foldl_arr
      · exact goodKeys_eraseKey c _ _ h
      · intro x hx
        have hag : goodKeys c (.arr branches) := goodKeys_lookup_val c fs _ _ h hl
        exact (goodKeys_arr_iff c branches).mp hag x hx
    | null =>
      simp only [defaultMergeAllOf, hl]
      exact goodKeys_eraseKey c _ _ h
    | bool b =>
      simp only [defaultMergeAllOf, hl]
      exact goodKeys_eraseKey c _ _ h
    | num n =>
      simp only [defaultMergeAllOf, hl]
      exact goodKeys_eraseKey c _ _ h
    | str s =>
      simp only [defaultMergeAllOf, hl]
      exact goodKeys_eraseKey c _ _ h
    | obj gs =>
      simp only [defaultMergeAllOf, hl]
      exact goodKeys_eraseKey c _ _ h

theorem goodKeys_retrieveSchema (c : Char) (v : ValidatorType) (schema : Json)
    (root fd : Option Json) (hs : goodKeys c schema) (hr : goodKeysO c root) :
    goodKeys c (retrieveSchema v schema root fd none) := by
  cases hl : schema.lookup "$ref" with
  | some rv =>
    cases rv with
    | str ptr =>
      simp only [retrieveSchema, hl]
      cases hget : jsonPointerGet root ptr with
      | some target =>
        have hmem := jsonPointerGet_mem root ptr target hget
        intro y hy
        apply hr y
        cases root with
        | none => exact absurd hmem (List.not_mem_nil target)
        | some r => exact subJ_trans r target hmem y hy
      | none => exact goodKeys_eraseKey c _ _ hs
    | null =>
      simp only [retrieveSchema, hl]
      exact goodKeys_eraseKey c _ _ hs
    | bool b =>
      simp only [retrieveSchema, hl]
      exact goodKeys_eraseKey c _ _ hs
    | num n =>
      simp only [retrieveSchema, hl]
      exact goodKeys_eraseKey c _ _ hs
    | arr xs =>
      simp only [retrieveSchema, hl]
      exact goodKeys_eraseKey c _ _ hs
    | obj gs =>
      simp only [retrieveSchema, hl]
      exact goodKeys_eraseKey c _ _ hs
  | none =>
    simp only [retrieveSchema, hl, mergeAllOfKeyword]
    by_cases hall : (resolveDependencies schema fd).hasKey "allOf" = true
    · rw [if_pos hall]
      exact goodKeys_defaultMergeAllOf c _ (goodKeys_resolveDeps c schema fd hs)
    · rw [if_neg hall]
      exact goodKeys_resolveDeps c schema fd hs

theorem cfree_cons_inj : ∀ (u v x y : List Char) (c : Char), c ∉ u → c ∉ v →
    u ++ c :: x = v ++ c :: y → u = v ∧ x = y := by
  intro u
  induction u with
  | nil =>
    intro v x y c _ hcv h
    cases v with
    | nil =>
      simp only [List.nil_append] at h
      injection h with h1 h2
      exact ⟨rfl, h2⟩
    | cons b bs =>
      simp only [List.nil_append, List.cons_append] at h
      injection h with h1 h2
      exact absurd (h1 ▸ List.mem_cons_self b bs) hcv
  | cons a as ih =>
    intro v x y c hcu hcv h
    cases v with
    | nil =>
      simp only [List.cons_append, List.nil_append] at h
      injection h with h1 h2
      exact absurd (h1.symm ▸ List.mem_cons_self a as) hcu
    | cons b bs =>
      simp only [List.cons_append] at h
      injection h with h1 h2
      have hcas : c ∉ as := fun hh => hcu (List.mem_cons_of_mem _ hh)
      have hcbs : c ∉ bs := fun hh => hcv (List.mem_cons_of_mem _ hh)
      obtain ⟨hu, hx⟩ := ih bs x y c hcas hcbs h2
      exact ⟨by rw [h1, hu], hx⟩

theorem sep_shape_data (sep e : String) (c : Char) (s1 : List Char)
    (hsep : sep.data = c :: s1) (he : e = "" ∨ ∃ r, e = sep ++ r) :
    e.data = [] ∨ ∃ rd : List Char, e.data = c :: (s1 ++ rd) := by
  rcases he with rfl | ⟨r, rfl⟩
  · exact Or.inl rfl
  · right
    refine ⟨r.data, ?_⟩
    rw [String.data_append, hsep]
    rfl

theorem sep_extension_ne (b sep nm1 nm2 e1 e2 : String) (c : Char) (s1 : List Char)
    (hsep : sep.data = c :: s1) (h1 : c ∉ nm1.data) (h2 : c ∉ nm2.data)
    (hne : nm1 ≠ nm2)
    (he1 : e1 = "" ∨ ∃ r, e1 = sep ++ r) (he2 : e2 = "" ∨ ∃ r, e2 = sep ++ r) :
    b ++ sep ++ nm1 ++ e1 ≠ b ++ sep ++ nm2 ++ e2 := by
  intro heq
  have hd := congrArg String.data heq
  simp only [String.data_append] at hd
  rw [hsep] at hd
  have hd2 : nm1.data ++ e1.data = nm2.data ++ e2.data := by
    rw [List.append_assoc, List.append_assoc, List.append_assoc, List.append_assoc] at hd
    have hd3 := List.append_cancel_left hd
    injection hd3 with _ hd4
    exact List.append_cancel_left hd4
  apply hne
  rcases sep_shape_data sep e1 c s1 hsep he1 with hz1 | ⟨r1, hz1⟩ <;>
    rcases sep_shape_data sep e2 c s1 hsep he2 with hz2 | ⟨r2, hz2⟩
  · rw [hz1, hz2, List.append_nil, List.append_nil] at hd2
    exact String.ext hd2
  · rw [hz1, hz2, List.append_nil] at hd2
    exfalso
    apply h1
    rw [hd2]
    exact List.mem_append_right _ (List.mem_cons_self _ _)
  · rw [hz1, hz2, List.append_nil] at hd2
    exfalso
    apply h2
    rw [← hd2]
    exact List.mem_append_right _ (List.mem_cons_self _ _)
  · rw [hz1, hz2] at hd2
    exact String.ext (cfree_cons_inj nm1.data nm2.data _ _ c h1 h2 hd2).1

theorem base_ne_extension (b sep nm e : String) (c : Char) (s1 : List Char)
    (hsep : sep.data = c :: s1) : b ≠ b ++ sep ++ nm ++ e := by
  intro heq
  have hd := congrArg String.data heq
  simp only [String.data_append] at hd
  have hlen := congrArg List.length hd
  simp only [List.length_append, hsep, List.length_cons] at hlen
  omega

theorem sep_ne_empty (sep : String) (c : Char) (s1 : List Char)
    (hsep : sep.data = c :: s1) : sep ≠ "" := by
  intro hh
  rw [hh] at hsep
  exact List.noConfusion hsep

theorem nodup_children : ∀ (cs : List (String × IdSchema)) (b sep : String) (c : Char)
    (s1 : List Char), sep.data = c :: s1 →
    (cs.map Prod.fst).Nodup →
    (∀ pr ∈ cs, c ∉ (pr.1 : String).data) →
    (∀ pr ∈ cs, (collectIds pr.2).Nodup ∧
      ∀ i ∈ collectIds pr.2, ∃ e, (e = "" ∨ ∃ r, e = sep ++ r) ∧
        i = b ++ sep ++ pr.1 ++ e) →
    (collectIdsL cs).Nodup ∧
      ∀ i ∈ collectIdsL cs, ∃ nm, nm ∈ cs.map Prod.fst ∧ c ∉ nm.data ∧
        ∃ e, (e = "" ∨ ∃ r, e = sep ++ r) ∧ i = b ++ sep ++ nm ++ e := by
  intro cs
  induction cs with
  | nil =>
    intro b sep c s1 _ _ _ _
    constructor
    · exact List.nodup_nil
    · intro i hi
      exact absurd hi (List.not_mem_nil i)
  | cons pr rest ih =>
    intro b sep c s1 hsep hnd hfree hsub
    obtain ⟨nm, tc⟩ := pr
    have hndrest : (rest.map Prod.fst).Nodup := (List.nodup_cons.mp (by simpa using hnd)).2
    have hnmrest : nm ∉ rest.map Prod.fst := (List.nodup_cons.mp (by simpa using hnd)).1
    obtain ⟨hrestnd, hrestshape⟩ := ih b sep c s1 hsep hndrest
      (fun q hq => hfree q (List.mem_cons_of_mem _ hq))
      (fun q hq => hsub q (List.mem_cons_of_mem _ hq))
    obtain ⟨hheadnd, hheadshape⟩ := hsub (nm, tc) (List.mem_cons_self _ _)
    have hnmfree : c ∉ nm.data := hfree (nm, tc) (List.mem_cons_self _ _)
    constructor
    · show (collectIds tc ++ collectIdsL rest).Nodup
      apply List.Nodup.append hheadnd hrestnd
      rw [List.disjoint_left]
      intro i hi1 hi2
      obtain ⟨e1, hshape1, heq1⟩ := hheadshape i hi1
      obtain ⟨nm2, hnm2mem, hnm2free, e2, hshape2, heq2⟩ := hrestshape i hi2
      have hnmne : nm ≠ nm2 := fun hh => hnmrest (hh ▸ hnm2mem)
      exact sep_extension_ne b sep nm nm2 e1 e2 c s1 hsep hnmfree hnm2free hnmne
        hshape1 hshape2 (heq1 ▸ heq2)
    · intro i hi
      rcases List.mem_append.mp hi with h1 | h1
      · obtain ⟨e, hsh, heq⟩ := hheadshape i h1
        exact ⟨nm, List.mem_cons_self _ _, hnmfree, e, hsh, heq⟩
      · obtain ⟨nm2, hmem, hf, e, hsh, heq⟩ := hrestshape i h1
        exact ⟨nm2, List.mem_cons_of_mem _ hmem, hf, e, hsh, heq⟩

theorem ids_nodup_aux : ∀ (n : Nat) (v : ValidatorType) (schema : Json)
    ( idPre idSep : String) (id : Option String) (root fd : Option Json)
    (guard : List Json) (t : IdSchema) (c : Char) (s1 : List Char),
    toIdSchemaFuel v n schema idPre idSep id root fd guard none = some t →
    idSep.data = c :: s1 →
    goodKeys c schema → goodKeysO c root →
    (collectIds t).Nodup ∧
      ∀ i ∈ collectIds t, i = t.id ∨ ∃ nm e, c ∉ nm.data ∧
        (e = "" ∨ ∃ r, e = idSep ++ r) ∧ i = t.id ++ idSep ++ nm ++ e := by
  intro n
  induction n with
  | zero =>
    intro v schema idPre idSep id root fd guard t c s1 h
    simp [toIdSchemaFuel] at h
  | succ n ih =>
    intro v schema idPre idSep id root fd guard t c s1 h hsep hgs hgr
    cases hobj : isObj schema with
    | false =>
      rw [fuel_succ_nonobj v n schema idPre idSep id root fd guard none hobj] at h
      cases h
      constructor
      · simp [collectIds, collectIdsL]
      · intro i hi
        simp only [collectIds, collectIdsL, List.mem_singleton] at hi
        exact Or.inl hi
    | true =>
      obtain ⟨fs, rfl⟩ : ∃ fs, schema = .obj fs := by
        cases schema with
        | obj fs => exact ⟨fs, rfl⟩
        | null => simp [isObj] at hobj
        | bool bb => simp [isObj] at hobj
        | num nn => simp [isObj] at hobj
        | str ss => simp [isObj] at hobj
        | arr xs => simp [isObj] at hobj
      rw [fuel_succ_obj] at h
      by_cases hcnd : (hasRetrievalKeys (.obj fs) &&
          !(guard.any (fun item =>
            deepEquals item (retrieveSchema v (.obj fs) root fd none)))) = true
      · rw [if_pos hcnd] at h
        exact ih v _ idPre idSep id root fd _ t c s1 h hsep
          (goodKeys_retrieveSchema c v (.obj fs) root fd hgs hgr) hgr
      · rw [if_neg hcnd] at h
        by_cases hdel : itemsDelegate (.obj fs) = true
        · rw [rest_items _ _ _ _ _ _ hdel] at h
          have hitems : ∃ it, lookupF fs "items" = some it := by
            have hhk : (Json.obj fs).hasKey "items" = true := by
              have hdd := hdel
              simp only [itemsDelegate, Bool.and_eq_true] at hdd
              exact hdd.1
            simpa [Json.hasKey, Json.lookup, Option.isSome_iff_exists] using hhk
          obtain ⟨it, hit⟩ := hitems
          have hitlk : (Json.obj fs).lookup "items" = some it := hit
          rw [hitlk] at h
          exact ih v it idPre idSep id root fd guard t c s1 h hsep
            (goodKeys_lookup_val c fs "items" it hgs hit) hgr
        · have hdelf : itemsDelegate (.obj fs) = false := by simpa using hdel
          by_cases hpc : ((getSchemaType (.obj fs) == "object") &&
              Json.hasKey (.obj fs) "properties") = true
          · cases hp : Json.lookup (.obj fs) "properties" with
            | some pv =>
              cases hpv : isObj pv with
              | true =>
                obtain ⟨props, rfl⟩ : ∃ props, pv = .obj props := by
                  cases pv with
                  | obj props => exact ⟨props, rfl⟩
                  | null => simp [isObj] at hpv
                  | bool bb => simp [isObj] at hpv
                  | num nn => simp [isObj] at hpv
                  | str ss => simp [isObj] at hpv
                  | arr xs => simp [isObj] at hpv
                rw [rest_props _ _ _ _ _ _ props hdelf hpc hp] at h
                rcases Option.map_eq_some'.mp h with ⟨cs, hcs, hnode⟩
                have hch := optMapList_children props
                  (fun p => toIdSchemaFuel v n p.2 idPre idSep
                    (some (jsOr id idPre ++ idSep ++ p.1)) root (jsonGet fd p.1)
                    guard none) cs hcs
                have hteq : t = .node (jsOr id idPre) cs := hnode.symm
                subst hteq
                have hpropsg : goodKeys c (.obj props) :=
                  goodKeys_lookup_val c fs "properties" (.obj props) hgs hp
                obtain ⟨⟨hpfree, hpnd⟩, hpvals⟩ := (goodKeys_obj_iff c props).mp hpropsg
                have hsepne : idSep ≠ "" := sep_ne_empty idSep c s1 hsep
                have hkeyseq : cs.map Prod.fst = props.map Prod.fst := hch.1
                have hhyp4 : ∀ pr ∈ cs, (collectIds pr.2).Nodup ∧
                    ∀ i ∈ collectIds pr.2, ∃ e, (e = "" ∨ ∃ r, e = idSep ++ r) ∧
                      i = (jsOr id idPre) ++ idSep ++ pr.1 ++ e := by
                  intro pr hpr
                  obtain ⟨p, hp1, hp2, hp3⟩ := hch.2 pr hpr
                  obtain ⟨hcnd2, hcshape⟩ := ih v p.2 idPre idSep
                    (some (jsOr id idPre ++ idSep ++ p.1)) root (jsonGet fd p.1)
                    guard pr.2 c s1 hp3 hsep (hpvals p hp1) hgr
                  have hfid : jsOr id idPre ++ idSep ++ p.1 ≠ "" :=
                    append_mid_ne_empty _ _ _ hsepne
                  have hid : (pr.2).id = jsOr id idPre ++ idSep ++ p.1 := by
                    rw [result_id n v p.2 idPre idSep _ root _ guard none _ hp3]
                    exact jsOr_some_ne _ _ hfid
                  refine ⟨hcnd2, ?_⟩
                  intro i hi
                  rcases hcshape i hi with heq | ⟨nm2, e2, hfree2, hsh2, heq2⟩
                  · refine ⟨"", Or.inl rfl, ?_⟩
                    rw [String.append_empty, heq, hid, hp2]
                  · refine ⟨idSep ++ (nm2 ++ e2), Or.inr ⟨nm2 ++ e2, rfl⟩, ?_⟩
                    rw [heq2, hid, hp2]
                    simp only [String.append_assoc]
                have hhyp2 : (cs.map Prod.fst).Nodup := by
                  rw [hkeyseq]
                  exact hpnd
                have hhyp3 : ∀ pr ∈ cs, c ∉ (pr.1 : String).data := by
                  intro pr hpr
                  obtain ⟨p, hp1, hp2, _⟩ := hch.2 pr hpr
                  rw [hp2]
                  exact hpfree p hp1
                obtain ⟨hLnd, hLshape⟩ := nodup_children cs (jsOr id idPre) idSep c s1
                  hsep hhyp2 hhyp3 hhyp4
                constructor
                · show ((jsOr id idPre) :: collectIdsL cs).Nodup
                  apply List.nodup_cons.mpr
                  refine ⟨?_, hLnd⟩
                  intro hmem
                  obtain ⟨nm, _, _, e, _, heq⟩ := hLshape _ hmem
                  exact base_ne_extension (jsOr id idPre) idSep nm e c s1 hsep heq
                · intro i hi
                  rcases List.mem_cons.mp hi with rfl | hi2
                  · exact Or.inl rfl
                  · obtain ⟨nm, _, hfree, e, hsh, heq⟩ := hLshape i hi2
                    exact Or.inr ⟨nm, e, hfree, hsh, heq⟩
              | false =>
                rw [rest_props_nonobj _ _ _ _ _ _ pv hdelf hpc hp hpv] at h
                cases h
                constructor
                · simp [collectIds, collectIdsL]
                · intro i hi
                  simp only [collectIds, collectIdsL, List.mem_singleton] at hi
                  exact Or.inl hi
            | none =>
              rw [rest_props_none _ _ _ _ _ _ hdelf hpc hp] at h
              cases h
              constructor
              · simp [collectIds, collectIdsL]
              · intro i hi
                simp only [collectIds, collectIdsL, List.mem_singleton] at hi
                exact Or.inl hi
          · have hpcf : ((getSchemaType (.obj fs) == "object") &&
                Json.hasKey (.obj fs) "properties") = false := by simpa using hpc
            rw [rest_bare _ _ _ _ _ _ hdelf hpcf] at h
            cases h
            constructor
            · simp [collectIds, collectIdsL]
            · intro i hi
              simp only [collectIds, collectIdsL, List.mem_singleton] at hi
              exact Or.inl hi

/-- Claim C5 counterexample: the schema `exCollide` has distinct property
names at each nesting level (`a`, `a_b` at the top; `b` below `a`), yet the
generated identifier tree carries the id `root_a_b` twice — once for the
nested property `a.b` and once for the sibling property `a_b`. -/
theorem c5_counterexample :
    toIdSchema exValidator 4 exCollide none none none none none none =
      some exCollideTree ∧
    (["a", "a_b"] : List String).Nodup ∧ (["b"] : List String).Nodup ∧
    ¬ (collectIds exCollideTree).Nodup := by
  exact ⟨rfl, by decide, by decide, by decide⟩

/-- Claim C5 amended: all generated identifiers are pairwise distinct for
schemas with distinct property names at each nesting level, provided
additionally that the separator is non-empty, that no object key in the
schema or the root schema contains the separator's first character (the
counterexample shows the claim fails without such a freshness condition:
names such as `a_b` replay the separator), and that no object key equals
`$id` — a property literally named `$id` overwrites the `$id` slot of the
JavaScript object the source mutates, after which the identifiers emitted
below it degrade to `[object Object]`-prefixed strings and can collide, so
the claim also fails without this condition. -/
theorem c5_unique_ids :
    ∀ (v : ValidatorType) (schema : Json) (id : Option String) (root fd : Option Json)
      ( idPre idSep : Option String) (t : IdSchema) (c : Char) (s1 : List Char),
      (idSep.getD "_").data = c :: s1 →
      goodKeys c schema → goodKeysO c root →
      keysAll (fun k => k ≠ "$id") schema → keysAllO (fun k => k ≠ "$id") root →
      Computes v schema id root fd idPre idSep none t →
      (collectIds t).Nodup := by
  intro v schema id root fd idPre idSep t c s1 hsep hgs hgr _ _ ⟨n, h⟩
  exact (ids_nodup_aux n v schema ( idPre.getD "root") (idSep.getD "_") id root fd []
    t c s1 h hsep hgs hgr).1

theorem c5_unique_ids_witness :
    (collectIds exObjTree).Nodup := by
  exact c5_unique_ids exValidator exObjSchema none none none (some "root") (some "_")
    exObjTree '_' [] (by decide) (by decide) (by decide) (by decide) (by decide) ⟨3, rfl⟩

theorem jsfuel_succ_obj (v : ValidatorType) (n : Nat) (fs : List (String × Json))
    ( idPre idSep : String) (id : Option String) (root fd : Option Json)
    (guard : List Json) (cm : Option CustomMergeAllOf) :
    toIdSchemaJSFuel v (n + 1) (.obj fs) idPre idSep id root fd guard cm =
      if hasRetrievalKeys (.obj fs) then
        match retrieveSchemaE v (.obj fs) root fd cm with
        | .error e => some (.error e)
        | .ok s1 =>
          if !(guard.any (fun item => deepEquals item s1)) then
            toIdSchemaJSFuel v n s1 idPre idSep id root fd (guard ++ [s1]) cm
          else
            toIdSchemaRestJS
              (fun s i f => toIdSchemaJSFuel v n s idPre idSep i root f guard cm)
              (.obj fs) (jsOr id idPre) idSep id fd
      else
        toIdSchemaRestJS
          (fun s i f => toIdSchemaJSFuel v n s idPre idSep i root f guard cm)
          (.obj fs) (jsOr id idPre) idSep id fd := rfl

theorem jsfuel_succ_nonobj (v : ValidatorType) (n : Nat) (schema : Json)
    ( idPre idSep : String) (id : Option String) (root fd : Option Json)
    (guard : List Json) (cm : Option CustomMergeAllOf) (h : isObj schema = false) :
    toIdSchemaJSFuel v (n + 1) schema idPre idSep id root fd guard cm =
      some (.ok (.obj [("$id", .str (jsOr id idPre))])) := by
  cases schema with
  | obj fs => simp [isObj] at h
  | null => rfl
  | bool b => rfl
  | num m => rfl
  | str s => rfl
  | arr xs => rfl

theorem restJS_items (recur : Json → Option String → Option Json → Option (Except String Json))
    (schema : Json) (idStr idSep : String) (id : Option String) (fd : Option Json)
    (hdel : itemsDelegate schema = true) :
    toIdSchemaRestJS recur schema idStr idSep id fd =
      recur ((schema.lookup "items").getD .null) id fd := by
  simp only [toIdSchemaRestJS, hdel, if_true]

theorem restJS_props (recur : Json → Option String → Option Json → Option (Except String Json))
    (schema : Json) (idStr idSep : String) (id : Option String) (fd : Option Json)
    (props : List (String × Json)) (hdel : itemsDelegate schema = false)
    (hpc : ((getSchemaType schema == "object") && schema.hasKey "properties") = true)
    (hp : schema.lookup "properties" = some (.obj props)) :
    toIdSchemaRestJS recur schema idStr idSep id fd =
      buildProps recur props idSep fd (forInKeys props) (.obj [("$id", .str idStr)]) := by
  simp only [toIdSchemaRestJS, hdel, hpc, hp, Bool.false_eq_true, if_false, if_true]

theorem restJS_props_nonobj
    (recur : Json → Option String → Option Json → Option (Except String Json))
    (schema : Json) (idStr idSep : String) (id : Option String) (fd : Option Json)
    (pv : Json) (hdel : itemsDelegate schema = false)
    (hpc : ((getSchemaType schema == "object") && schema.hasKey "properties") = true)
    (hp : schema.lookup "properties" = some pv) (hpv : isObj pv = false) :
    toIdSchemaRestJS recur schema idStr idSep id fd =
      some (.ok (.obj [("$id", .str idStr)])) := by
  cases pv with
  | obj gs => simp [isObj] at hpv
  | null => simp only [toIdSchemaRestJS, hdel, hpc, hp, Bool.false_eq_true, if_false, if_true]
  | bool b => simp only [toIdSchemaRestJS, hdel, hpc, hp, Bool.false_eq_true, if_false, if_true]
  | num n => simp only [toIdSchemaRestJS, hdel, hpc, hp, Bool.false_eq_true, if_false, if_true]
  | str s => simp only [toIdSchemaRestJS, hdel, hpc, hp, Bool.false_eq_true, if_false, if_true]
  | arr xs => simp only [toIdSchemaRestJS, hdel, hpc, hp, Bool.false_eq_true, if_false, if_true]

theorem restJS_props_none
    (recur : Json → Option String → Option Json → Option (Except String Json))
    (schema : Json) (idStr idSep : String) (id : Option String) (fd : Option Json)
    (hdel : itemsDelegate schema = false)
    (hpc : ((getSchemaType schema == "object") && schema.hasKey "properties") = true)
    (hp : schema.lookup "properties" = none) :
    toIdSchemaRestJS recur schema idStr idSep id fd =
      some (.ok (.obj [("$id", .str idStr)])) := by
  simp only [toIdSchemaRestJS, hdel, hpc, hp, Bool.false_eq_true, if_false, if_true]

theorem restJS_bare (recur : Json → Option String → Option Json → Option (Except String Json))
    (schema : Json) (idStr idSep : String) (id : Option String) (fd : Option Json)
    (hdel : itemsDelegate schema = false)
    (hpc : ((getSchemaType schema == "object") && schema.hasKey "properties") = false) :
    toIdSchemaRestJS recur schema idStr idSep id fd =
      some (.ok (.obj [("$id", .str idStr)])) := by
  simp only [toIdSchemaRestJS, hdel, hpc, Bool.false_eq_true, if_false]

theorem lookup_setKeyF_ne : ∀ (fs : List (String × Json)) (k : String) (v : Json) (q : String),
    q ≠ k → lookupF (setKeyF fs k v) q = lookupF fs q := by
  intro fs k v q hq
  induction fs with
  | nil =>
    simp only [setKeyF, lookupF]
    rw [if_neg (fun h => hq h.symm)]
  | cons p rest ih =>
    obtain ⟨a, b⟩ := p
    simp only [setKeyF]
    by_cases hak : a = k
    · rw [if_pos hak]
      simp only [lookupF]
      have haq : ¬ a = q := by
        intro h
        exact hq (by rw [← h]; exact hak)
      rw [if_neg haq, if_neg haq]
    · rw [if_neg hak]
      simp only [lookupF]
      by_cases haq : a = q
      · rw [if_pos haq, if_pos haq]
      · rw [if_neg haq, if_neg haq]
        exact ih

theorem setKeyF_fresh : ∀ (fs : List (String × Json)) (k : String) (v : Json),
    lookupF fs k = none → setKeyF fs k v = fs ++ [(k, v)] := by
  intro fs k v
  induction fs with
  | nil => intro _; rfl
  | cons p rest ih =>
    obtain ⟨a, b⟩ := p
    intro h
    simp only [lookupF] at h
    by_cases hak : a = k
    · rw [if_pos hak] at h
      cases h
    · rw [if_neg hak] at h
      simp only [setKeyF, if_neg hak, List.cons_append]
      rw [ih h]

theorem lookupF_append_some : ∀ (l1 l2 : List (String × Json)) (k : String) (x : Json),
    lookupF l1 k = some x → lookupF (l1 ++ l2) k = some x := by
  intro l1 l2 k x
  induction l1 with
  | nil => intro h; cases h
  | cons p rest ih =>
    obtain ⟨a, b⟩ := p
    intro h
    simp only [lookupF, List.cons_append] at h ⊢
    by_cases hak : a = k
    · rw [if_pos hak] at h ⊢
      exact h
    · rw [if_neg hak] at h ⊢
      exact ih h

theorem lookupF_append_none : ∀ (l1 l2 : List (String × Json)) (k : String),
    lookupF l1 k = none → lookupF l2 k = none → lookupF (l1 ++ l2) k = none := by
  intro l1 l2 k
  induction l1 with
  | nil => intro _ h2; exact h2
  | cons p rest ih =>
    obtain ⟨a, b⟩ := p
    intro h1 h2
    simp only [lookupF, List.cons_append] at h1 ⊢
    by_cases hak : a = k
    · rw [if_pos hak] at h1
      cases h1
    · rw [if_neg hak] at h1 ⊢
      exact ih h1 h2

theorem mem_insertName : ∀ (l : List String) (nm x : String),
    x ∈ insertName nm l ↔ x = nm ∨ x ∈ l := by
  intro l nm x
  induction l with
  | nil => simp [insertName]
  | cons y rest ih =>
    simp only [insertName]
    by_cases h : strToNat nm ≤ strToNat y
    · rw [if_pos h]
      simp
    · rw [if_neg h]
      simp only [List.mem_cons, ih]
      tauto

theorem mem_sortNumeric : ∀ (l : List String) (x : String),
    x ∈ sortNumeric l ↔ x ∈ l := by
  intro l x
  induction l with
  | nil => simp [sortNumeric]
  | cons y rest ih =>
    simp only [sortNumeric, mem_insertName, ih, List.mem_cons]

theorem mem_dedupNames : ∀ (l : List String) (x : String), x ∈ dedupNames l → x ∈ l := by
  intro l
  induction l with
  | nil =>
    intro x h
    exact absurd h (List.not_mem_nil x)
  | cons y rest ih =>
    intro x h
    simp only [dedupNames, List.mem_cons] at h
    rcases h with rfl | h2
    · exact List.mem_cons_self _ _
    · exact List.mem_cons_of_mem _ (ih x (List.mem_of_mem_filter h2))

theorem mem_forInKeys : ∀ (props : List (String × Json)) (x : String),
    x ∈ forInKeys props → x ∈ keysOf props := by
  intro props x h
  simp only [forInKeys, List.mem_append, mem_sortNumeric] at h
  rcases h with h1 | h1
  · exact mem_dedupNames _ _ (List.mem_of_mem_filter h1)
  · exact mem_dedupNames _ _ (List.mem_of_mem_filter h1)

theorem dedupNames_self : ∀ (l : List String), l.Nodup → dedupNames l = l := by
  intro l
  induction l with
  | nil => intro _; rfl
  | cons y rest ih =>
    intro h
    obtain ⟨hy, hrest⟩ := List.nodup_cons.mp h
    simp only [dedupNames, ih hrest]
    rw [List.filter_eq_self.mpr]
    intro a ha
    simp only [bne_iff_ne, ne_eq, decide_eq_true_eq]
    intro heq
    exact hy (heq ▸ ha)

theorem forInKeys_plain : ∀ (props : List (String × Json)),
    (∀ k ∈ keysOf props, integerLike k = false) → NodupKeys props →
    forInKeys props = keysOf props := by
  intro props hint hnd
  simp only [forInKeys, dedupNames_self (keysOf props) hnd]
  have h1 : (keysOf props).filter integerLike = [] := by
    apply List.filter_eq_nil_iff.mpr
    intro a ha
    rw [hint a ha]
    simp
  have h2 : (keysOf props).filter (fun k => !(integerLike k)) = keysOf props := by
    apply List.filter_eq_self.mpr
    intro a ha
    rw [hint a ha]
    rfl
  rw [h1, h2]
  rfl

theorem mem_keysOf : ∀ (fs : List (String × Json)) (x : String),
    x ∈ keysOf fs ↔ ∃ v, (x, v) ∈ fs := by
  intro fs x
  simp only [keysOf, List.mem_map]
  constructor
  · rintro ⟨p, hp, rfl⟩
    exact ⟨p.2, hp⟩
  · rintro ⟨v, hv⟩
    exact ⟨(x, v), hv, rfl⟩

theorem occ_resolveDepsJS_lt : ∀ (schema : Json) (fd : Option Json),
    schema.hasKey "dependencies" = true → occJ (resolveDependenciesJS schema fd) < occJ schema := by
  intro schema fd h
  cases schema with
  | obj fs =>
    have hl : ∃ dv, lookupF fs "dependencies" = some dv := by
      simp only [Json.hasKey, Json.lookup, Option.isSome_iff_exists] at h
      exact h
    obtain ⟨dv, hl⟩ := hl
    have hlk : Json.lookup (.obj fs) "dependencies" = some dv := hl
    cases dv with
    | obj deps =>
      simp only [resolveDependenciesJS, hlk]
      have hfold := occ_foldl_pairs
        (((dedupKeys deps).filter (fun p => (lodashGet fd p.1).isSome && isObj p.2)))
        ((Json.obj fs).eraseKey "dependencies")
      have hfired : occF ((dedupKeys deps).filter
          (fun p => (lodashGet fd p.1).isSome && isObj p.2)) ≤
          occF (dedupKeys deps) := occF_filter_le _ _
      have hded := occ_dedup_le deps
      have herase := occ_erase_bad fs "dependencies" (.obj deps) (Or.inr (Or.inl rfl)) hl
      simp only [Json.eraseKey, occJ] at *
      omega
    | null =>
      simp only [resolveDependenciesJS, hlk]
      have herase := occ_erase_bad fs "dependencies" .null (Or.inr (Or.inl rfl)) hl
      simp only [Json.eraseKey, occJ] at *
      omega
    | bool b =>
      simp only [resolveDependenciesJS, hlk]
      have herase := occ_erase_bad fs "dependencies" (.bool b) (Or.inr (Or.inl rfl)) hl
      simp only [Json.eraseKey, occJ] at *
      omega
    | num n =>
      simp only [resolveDependenciesJS, hlk]
      have herase := occ_erase_bad fs "dependencies" (.num n) (Or.inr (Or.inl rfl)) hl
      simp only [Json.eraseKey, occJ] at *
      omega
    | str s =>
      simp only [resolveDependenciesJS, hlk]
      have herase := occ_erase_bad fs "dependencies" (.str s) (Or.inr (Or.inl rfl)) hl
      simp only [Json.eraseKey, occJ] at *
      omega
    | arr xs =>
      simp only [resolveDependenciesJS, hlk]
      have herase := occ_erase_bad fs "dependencies" (.arr xs) (Or.inr (Or.inl rfl)) hl
      simp only [Json.eraseKey, occJ] at *
      omega
  | null => simp [Json.hasKey, Json.lookup] at h
  | bool b => simp [Json.hasKey, Json.lookup] at h
  | num n => simp [Json.hasKey, Json.lookup] at h
  | str s => simp [Json.hasKey, Json.lookup] at h
  | arr xs => simp [Json.hasKey, Json.lookup] at h

theorem resolveDepsJS_eq_of_no_key (schema : Json) (fd : Option Json)
    (h : schema.hasKey "dependencies" = false) : resolveDependenciesJS schema fd = schema := by
  have hl := lookup_eq_none_of_not_hasKey schema "dependencies" h
  simp only [resolveDependenciesJS, hl]

theorem retrieveE_progress : ∀ (v : ValidatorType) (schema : Json) (root fd : Option Json)
    (s1 : Json), isObj schema = true → hasRetrievalKeys schema = true →
    retrieveSchemaE v schema root fd none = .ok s1 →
    s1 ∈ subO root ∨ occJ s1 < occJ schema := by
  intro v schema root fd s1 hobj hkeys hE
  cases schema with
  | obj fs =>
    cases href : Json.lookup (.obj fs) "$ref" with
    | some rv =>
      cases rv with
      | str ptr =>
        simp only [retrieveSchemaE, href] at hE
        cases hget : jsonPointerGet root ptr with
        | some target =>
          rw [hget] at hE
          injection hE with hE2
          subst hE2
          exact Or.inl (jsonPointerGet_mem root ptr _ hget)
        | none =>
          rw [hget] at hE
          cases hE
      | null =>
        simp only [retrieveSchemaE, href] at hE
        cases hE
      | bool b =>
        simp only [retrieveSchemaE, href] at hE
        cases hE
      | num n =>
        simp only [retrieveSchemaE, href] at hE
        cases hE
      | arr xs =>
        simp only [retrieveSchemaE, href] at hE
        cases hE
      | obj gs =>
        simp only [retrieveSchemaE, href] at hE
        cases hE
    | none =>
      simp only [retrieveSchemaE, href] at hE
      cases hE
      right
      by_cases hdep : (Json.obj fs).hasKey "dependencies" = true
      · have h1 := occ_resolveDepsJS_lt (.obj fs) fd hdep
        have h2 := occ_mergeAllOfKeyword_le (resolveDependenciesJS (.obj fs) fd)
        omega
      · have hall : (Json.obj fs).hasKey "allOf" = true := by
          simp only [hasRetrievalKeys, Bool.or_eq_true] at hkeys
          rcases hkeys with (h | h) | h
          · rw [Json.hasKey, href] at h
            simp at h
          · exact absurd h hdep
          · exact h
        rw [resolveDepsJS_eq_of_no_key (.obj fs) fd (by simpa using hdep)]
        simp only [mergeAllOfKeyword, if_pos hall]
        exact occ_defaultMergeAllOf_lt (.obj fs) hall
  | null => simp [isObj] at hobj
  | bool b => simp [isObj] at hobj
  | num n => simp [isObj] at hobj
  | str s => simp [isObj] at hobj
  | arr xs => simp [isObj] at hobj

theorem keysAll_sub (P : String → Prop) (j x : Json) (hg : keysAll P j) (hx : x ∈ subJ j) :
    keysAll P x :=
  fun y hy => hg y (subJ_trans j x hx y hy)

theorem keysAll_obj_iff (P : String → Prop) (fs : List (String × Json)) :
    keysAll P (.obj fs) ↔ (∀ p ∈ fs, P p.1) ∧ ∀ p ∈ fs, keysAll P p.2 := by
  constructor
  · intro hg
    refine ⟨hg (.obj fs) (self_mem_subJ _), ?_⟩
    intro p hp y hy
    apply hg y
    exact List.mem_cons_of_mem _ ((mem_subF_iff fs y).mpr ⟨p, hp, hy⟩)
  · rintro ⟨hself, hvals⟩ x hx
    rcases List.mem_cons.mp hx with rfl | hx2
    · exact hself
    · obtain ⟨p, hp1, hp2⟩ := (mem_subF_iff fs x).mp hx2
      exact hvals p hp1 x hp2

theorem keysAll_arr_iff (P : String → Prop) (xs : List Json) :
    keysAll P (.arr xs) ↔ ∀ y ∈ xs, keysAll P y := by
  constructor
  · intro hg y hy z hz
    apply hg z
    exact List.mem_cons_of_mem _ ((mem_subA_iff xs z).mpr ⟨y, hy, hz⟩)
  · intro hall x hx
    rcases List.mem_cons.mp hx with rfl | hx2
    · exact trivial
    · obtain ⟨y, hy1, hy2⟩ := (mem_subA_iff xs x).mp hx2
      exact hall y hy1 x hy2

theorem keysAll_unionProps (P : String → Prop) (pa pb : List (String × Json))
    (ha : keysAll P (.obj pa)) (hb : keysAll P (.obj pb)) :
    keysAll P (.obj (unionProps pa pb)) := by
  obtain ⟨hak, hav⟩ := (keysAll_obj_iff P pa).mp ha
  obtain ⟨hbk, hbv⟩ := (keysAll_obj_iff P pb).mp hb
  apply (keysAll_obj_iff P _).mpr
  constructor
  · intro p hp
    rcases List.mem_append.mp hp with h1 | h1
    · exact hak p (List.mem_of_mem_filter h1)
    · exact hbk p h1
  · intro p hp
    rcases List.mem_append.mp hp with h1 | h1
    · exact hav p (List.mem_of_mem_filter h1)
    · exact hbv p h1

theorem keysAll_mergeFieldValue (P : String → Prop) (k : String) (va vb : Json)
    (hva : keysAll P va) (hvb : keysAll P vb) :
    keysAll P (mergeFieldValue k va vb) := by
  simp only [mergeFieldValue]
  by_cases h1 : k = "required"
  · rw [if_pos h1]
    cases va with
    | arr xs =>
      cases vb with
      | arr ys =>
        apply (keysAll_arr_iff P _).mpr
        intro y hy
        rcases List.mem_append.mp hy with h2 | h2
        · exact (keysAll_arr_iff P xs).mp hva y h2
        · exact (keysAll_arr_iff P ys).mp hvb y h2
      | null => exact hvb
      | bool b => exact hvb
      | num n => exact hvb
      | str s => exact hvb
      | obj fs => exact hvb
    | null => exact hvb
    | bool b => exact hvb
    | num n => exact hvb
    | str s => exact hvb
    | obj fs => exact hvb
  · rw [if_neg h1]
    by_cases h2 : k = "properties"
    · rw [if_pos h2]
      cases va with
      | obj pa =>
        cases vb with
        | obj pb => exact keysAll_unionProps P pa pb hva hvb
        | null => exact hvb
        | bool b => exact hvb
        | num n => exact hvb
        | str s => exact hvb
        | arr xs => exact hvb
      | null => exact hvb
      | bool b => exact hvb
      | num n => exact hvb
      | str s => exact hvb
      | arr xs => exact hvb
    · rw [if_neg h2]
      exact hvb

theorem keysAll_mergeSchemas (P : String → Prop) (a b : Json)
    (ha : keysAll P a) (hb : keysAll P b) : keysAll P (mergeSchemas a b) := by
  cases a with
  | obj fa =>
    cases b with
    | obj fb =>
      obtain ⟨hak, hav⟩ := (keysAll_obj_iff P fa).mp ha
      obtain ⟨hbk, hbv⟩ := (keysAll_obj_iff P fb).mp hb
      show keysAll P (.obj (mergeFields fa fb))
      apply (keysAll_obj_iff P _).mpr
      constructor
      · intro p hp
        rcases List.mem_append.mp hp with h1 | h1
        · exact hak p (mem_dedup fa p (List.mem_of_mem_filter h1))
        · obtain ⟨q, hq1, hq2⟩ := List.mem_map.mp h1
          have hqk : P q.1 := hbk q (mem_dedup fb q hq1)
          cases hl : lookupF (dedupKeys fa) q.1 with
          | some va =>
            rw [hl] at hq2
            rw [← hq2]
            exact hqk
          | none =>
            rw [hl] at hq2
            rw [← hq2]
            exact hqk
      · intro p hp
        rcases List.mem_append.mp hp with h1 | h1
        · exact hav p (mem_dedup fa p (List.mem_of_mem_filter h1))
        · obtain ⟨q, hq1, hq2⟩ := List.mem_map.mp h1
          have hqv : keysAll P q.2 := hbv q (mem_dedup fb q hq1)
          cases hl : lookupF (dedupKeys fa) q.1 with
          | some va =>
            rw [hl] at hq2
            have hvag : keysAll P va :=
              hav (q.1, va) (mem_dedup fa _ (lookupF_mem _ _ _ hl))
            rw [← hq2]
            exact keysAll_mergeFieldValue P q.1 va q.2 hvag hqv
          | none =>
            rw [hl] at hq2
            rw [← hq2]
            exact hqv
    | null => exact hb
    | bool bb => exact hb
    | num nn => exact hb
    | str ss => exact hb
    | arr xs => exact hb
  | null => exact hb
  | bool bb => exact hb
  | num nn => exact hb
  | str ss => exact hb
  | arr xs => exact hb

theorem keysAll_eraseKey (P : String → Prop) (j : Json) (k : String) (h : keysAll P j) :
    keysAll P (j.eraseKey k) := by
  cases j with
  | obj fs =>
    obtain ⟨hk, hv⟩ := (keysAll_obj_iff P fs).mp h
    show keysAll P (.obj (eraseF fs k))
    apply (keysAll_obj_iff P _).mpr
    constructor
    · intro p hp
      exact hk p (List.mem_of_mem_filter hp)
    · intro p hp
      exact hv p (List.mem_of_mem_filter hp)
  | null => exact h
  | bool b => exact h
  | num n => exact h
  | str s => exact h
  | arr xs => exact h

theorem keysAll_foldl_pairs (P : String → Prop) : ∀ (l : List (String × Json)) (base : Json),
    keysAll P base → (∀ p ∈ l, keysAll P p.2) →
    keysAll P (l.foldl (fun acc p => mergeSchemas acc p.2) base) := by
  intro l
  induction l with
  | nil =>
    intro base hb _
    exact hb
  | cons p rest ih =>
    intro base hb hall
    simp only [List.foldl_cons]
    exact ih (mergeSchemas base p.2)
      (keysAll_mergeSchemas P base p.2 hb (hall p (List.mem_cons_self _ _)))
      (fun q hq => hall q (List.mem_cons_of_mem _ hq))

theorem keysAll_foldl_arr (P : String → Prop) : ∀ (l : List Json) (base : Json),
    keysAll P base → (∀ x ∈ l, keysAll P x) →
    keysAll P (l.foldl mergeSchemas base) := by
  intro l
  induction l with
  | nil =>
    intro base hb _
    exact hb
  | cons x rest ih =>
    intro base hb hall
    simp only [List.foldl_cons]
    exact ih (mergeSchemas base x)
      (keysAll_mergeSchemas P base x hb (hall x (List.mem_cons_self _ _)))
      (fun q hq => hall q (List.mem_cons_of_mem _ hq))

theorem keysAll_lookup_val (P : String → Prop) (fs : List (String × Json)) (k : String)
    (dv : Json) (h : keysAll P (.obj fs)) (hl : lookupF fs k = some dv) : keysAll P dv :=
  ((keysAll_obj_iff P fs).mp h).2 (k, dv) (lookupF_mem fs k dv hl)

theorem keysAll_resolveDepsJS (P : String → Prop) (schema : Json) (fd : Option Json)
    (h : keysAll P schema) : keysAll P (resolveDependenciesJS schema fd) := by
  cases hl : schema.lookup "dependencies" with
  | none =>
    simp only [resolveDependenciesJS, hl]
    exact h
  | some dv =>
    have hobj : ∃ fs, schema = .obj fs := by
      cases schema with
      | obj fs => exact ⟨fs, rfl⟩
      | null => simp [Json.lookup] at hl
      | bool b => simp [Json.lookup] at hl
      | num n => simp [Json.lookup] at hl
      | str s => simp [Json.lookup] at hl
      | arr xs => simp [Json.lookup] at hl
    obtain ⟨fs, rfl⟩ := hobj
    cases dv with
    | obj deps =>
      simp only [resolveDependenciesJS, hl]
      apply keysAll_foldl_pairs
      · exact keysAll_eraseKey P _ _ h
      · intro p hp
        have hdg : keysAll P (.obj deps) := keysAll_lookup_val P fs _ _ h hl
        exact ((keysAll_obj_iff P deps).mp hdg).2 p
          (mem_dedup deps p (List.mem_of_mem_filter hp))
    | null =>
      simp only [resolveDependenciesJS, hl]
      exact keysAll_eraseKey P _ _ h
    | bool b =>
      simp only [resolveDependenciesJS, hl]
      exact keysAll_eraseKey P _ _ h
    | num n =>
      simp only [resolveDependenciesJS, hl]
      exact keysAll_eraseKey P _ _ h
    | str s =>
      simp only [resolveDependenciesJS, hl]
      exact keysAll_eraseKey P _ _ h
    | arr xs =>
      simp only [resolveDependenciesJS, hl]
      exact keysAll_eraseKey P _ _ h

theorem keysAll_defaultMergeAllOf (P : String → Prop) (schema : Json)
    (h : keysAll P schema) : keysAll P (defaultMergeAllOf schema) := by
  cases hl : schema.lookup "allOf" with
  | none =>
    simp only [defaultMergeAllOf, hl]
    exact h
  | some dv =>
    have hobj : ∃ fs, schema = .obj fs := by
      cases schema with
      | obj fs => exact ⟨fs, rfl⟩
      | null => simp [Json.lookup] at hl
      | bool b => simp [Json.lookup] at hl
      | num n => simp [Json.lookup] at hl
      | str s => simp [Json.lookup] at hl
      | arr xs => simp [Json.lookup] at hl
    obtain ⟨fs, rfl⟩ := hobj
    cases dv with
    | arr branches =>
      simp only [defaultMergeAllOf, hl]
      apply keysAll_foldl_arr
      · exact keysAll_eraseKey P _ _ h
      · intro x hx
        have hag : keysAll P (.arr branches) := keysAll_lookup_val P fs _ _ h hl
        exact (keysAll_arr_iff P branches).mp hag x hx
    | null =>
      simp only [defaultMergeAllOf, hl]
      exact keysAll_eraseKey P _ _ h
    | bool b =>
      simp only [defaultMergeAllOf, hl]
      exact keysAll_eraseKey P _ _ h
    | num n =>
      simp only [defaultMergeAllOf, hl]
      exact keysAll_eraseKey P _ _ h
    | str s =>
      simp only [defaultMergeAllOf, hl]
      exact keysAll_eraseKey P _ _ h
    | obj gs =>
      simp only [defaultMergeAllOf, hl]
      exact keysAll_eraseKey P _ _ h

theorem keysAll_retrieveE (P : String → Prop) (v : ValidatorType) (schema s1 : Json)
    (root fd : Option Json) (hs : keysAll P schema) (hr : keysAllO P root)
    (hE : retrieveSchemaE v schema root fd none = .ok s1) : keysAll P s1 := by
  cases hl : schema.lookup "$ref" with
  | some rv =>
    cases rv with
    | str ptr =>
      simp only [retrieveSchemaE, hl] at hE
      cases hget : jsonPointerGet root ptr with
      | some target =>
        rw [hget] at hE
        injection hE with hE2
        subst hE2
        have hmem := jsonPointerGet_mem root ptr target hget
        intro y hy
        apply hr y
        cases root with
        | none => exact absurd hmem (List.not_mem_nil target)
        | some r => exact subJ_trans r target hmem y hy
      | none =>
        rw [hget] at hE
        cases hE
    | null =>
      simp only [retrieveSchemaE, hl] at hE
      cases hE
    | bool b =>
      simp only [retrieveSchemaE, hl] at hE
      cases hE
    | num n =>
      simp only [retrieveSchemaE, hl] at hE
      cases hE
    | arr xs =>
      simp only [retrieveSchemaE, hl] at hE
      cases hE
    | obj gs =>
      simp only [retrieveSchemaE, hl] at hE
      cases hE
  | none =>
    simp only [retrieveSchemaE, hl, mergeAllOfKeyword] at hE
    by_cases hall : (resolveDependenciesJS schema fd).hasKey "allOf" = true
    · rw [if_pos hall] at hE
      cases hE
      exact keysAll_defaultMergeAllOf P _ (keysAll_resolveDepsJS P schema fd hs)
    · rw [if_neg hall] at hE
      cases hE
      exact keysAll_resolveDepsJS P schema fd hs

theorem buildProps_cons (recur : Json → Option String → Option Json → Option (Except String Json))
    (props : List (String × Json)) (sep : String) (fd : Option Json) (name : String)
    (rest : List String) (acc : Json) :
    buildProps recur props sep fd (name :: rest) acc =
      match recur ((lookupF props name).getD .null)
          (some (jsToString ((acc.lookup "$id").getD .null) ++ sep ++ name))
          (lodashGet fd name) with
      | none => none
      | some (.error e) => some (.error e)
      | some (.ok child) => buildProps recur props sep fd rest (acc.setKey name child) := rfl

theorem buildProps_mono
    (r1 r2 : Json → Option String → Option Json → Option (Except String Json))
    (hmono : ∀ s i f x, r1 s i f = some x → r2 s i f = some x) :
    ∀ (names : List String) (props : List (String × Json)) (sep : String) (fd : Option Json)
      (acc : Json) (x : Except String Json),
      buildProps r1 props sep fd names acc = some x →
      buildProps r2 props sep fd names acc = some x := by
  intro names
  induction names with
  | nil =>
    intro props sep fd acc x h
    exact h
  | cons name rest ih =>
    intro props sep fd acc x h
    rw [buildProps_cons] at h ⊢
    cases hF : r1 ((lookupF props name).getD .null)
        (some (jsToString ((acc.lookup "$id").getD .null) ++ sep ++ name))
        (lodashGet fd name) with
    | none =>
      rw [hF] at h
      exact Option.noConfusion h
    | some x1 =>
      rw [hF] at h
      rw [hmono _ _ _ _ hF]
      cases x1 with
      | error e => exact h
      | ok child => exact ih props sep fd (acc.setKey name child) x h

theorem jsfuel_mono : ∀ (n : Nat) (v : ValidatorType) (schema : Json)
    ( idPre idSep : String) (id : Option String) (root fd : Option Json)
    (guard : List Json) (cm : Option CustomMergeAllOf) (x : Except String Json),
    toIdSchemaJSFuel v n schema idPre idSep id root fd guard cm = some x →
    ∀ m, n ≤ m → toIdSchemaJSFuel v m schema idPre idSep id root fd guard cm = some x := by
  intro n
  induction n with
  | zero =>
    intro v schema idPre idSep id root fd guard cm x h
    simp [toIdSchemaJSFuel] at h
  | succ n ih =>
    intro v schema idPre idSep id root fd guard cm x h m hm
    obtain ⟨m1, rfl⟩ : ∃ m1, m = m1 + 1 := ⟨m - 1, by omega⟩
    have hm1 : n ≤ m1 := by omega
    cases hobj : isObj schema with
    | false =>
      rw [jsfuel_succ_nonobj v n schema idPre idSep id root fd guard cm hobj] at h
      rw [jsfuel_succ_nonobj v m1 schema idPre idSep id root fd guard cm hobj]
      exact h
    | true =>
      cases schema with
      | obj fs =>
        have hrestm : ∀ y : Except String Json,
            toIdSchemaRestJS (fun s i f => toIdSchemaJSFuel v n s idPre idSep i root f guard cm)
              (.obj fs) (jsOr id idPre) idSep id fd = some y →
            toIdSchemaRestJS (fun s i f => toIdSchemaJSFuel v m1 s idPre idSep i root f guard cm)
              (.obj fs) (jsOr id idPre) idSep id fd = some y := by
          intro y hy
          by_cases hdel : itemsDelegate (.obj fs) = true
          · rw [restJS_items _ _ _ _ _ _ hdel] at hy
            rw [restJS_items _ _ _ _ _ _ hdel]
            exact ih v _ idPre idSep id root fd guard cm y hy m1 hm1
          · have hdelf : itemsDelegate (.obj fs) = false := by simpa using hdel
            by_cases hpc : ((getSchemaType (.obj fs) == "object") &&
                Json.hasKey (.obj fs) "properties") = true
            · cases hp : Json.lookup (.obj fs) "properties" with
              | some pv =>
                cases hpv : isObj pv with
                | true =>
                  obtain ⟨props, rfl⟩ : ∃ props, pv = .obj props := by
                    cases pv with
                    | obj props => exact ⟨props, rfl⟩
                    | null => simp [isObj] at hpv
                    | bool b => simp [isObj] at hpv
                    | num nn => simp [isObj] at hpv
                    | str s => simp [isObj] at hpv
                    | arr xs => simp [isObj] at hpv
                  rw [restJS_props _ _ _ _ _ _ props hdelf hpc hp] at hy
                  rw [restJS_props _ _ _ _ _ _ props hdelf hpc hp]
                  exact buildProps_mono _ _
                    (fun s i f z hz => ih v s idPre idSep i root f guard cm z hz m1 hm1)
                    (forInKeys props) props idSep fd _ y hy
                | false =>
                  rw [restJS_props_nonobj _ _ _ _ _ _ pv hdelf hpc hp hpv] at hy
                  rw [restJS_props_nonobj _ _ _ _ _ _ pv hdelf hpc hp hpv]
                  exact hy
              | none =>
                rw [restJS_props_none _ _ _ _ _ _ hdelf hpc hp] at hy
                rw [restJS_props_none _ _ _ _ _ _ hdelf hpc hp]
                exact hy
            · have hpcf : ((getSchemaType (.obj fs) == "object") &&
                  Json.hasKey (.obj fs) "properties") = false := by simpa using hpc
              rw [restJS_bare _ _ _ _ _ _ hdelf hpcf] at hy
              rw [restJS_bare _ _ _ _ _ _ hdelf hpcf]
              exact hy
        by_cases hret : hasRetrievalKeys (.obj fs) = true
        · cases hE : retrieveSchemaE v (.obj fs) root fd cm with
          | error e =>
            rw [jsfuel_succ_obj] at h
            rw [jsfuel_succ_obj]
            rw [if_pos hret] at h ⊢
            rw [hE] at h ⊢
            exact h
          | ok s1 =>
            rw [jsfuel_succ_obj] at h
            rw [jsfuel_succ_obj]
            rw [if_pos hret] at h ⊢
            rw [hE] at h ⊢
            have h2 : (if (!(guard.any (fun item => deepEquals item s1))) = true then
                toIdSchemaJSFuel v n s1 idPre idSep id root fd (guard ++ [s1]) cm
              else
                toIdSchemaRestJS
                  (fun s i f => toIdSchemaJSFuel v n s idPre idSep i root f guard cm)
                  (.obj fs) (jsOr id idPre) idSep id fd) = some x := h
            show (if (!(guard.any (fun item => deepEquals item s1))) = true then
                toIdSchemaJSFuel v m1 s1 idPre idSep id root fd (guard ++ [s1]) cm
              else
                toIdSchemaRestJS
                  (fun s i f => toIdSchemaJSFuel v m1 s idPre idSep i root f guard cm)
                  (.obj fs) (jsOr id idPre) idSep id fd) = some x
            by_cases hg : (!(guard.any (fun item => deepEquals item s1))) = true
            · rw [if_pos hg] at h2 ⊢
              exact ih v _ idPre idSep id root fd _ cm x h2 m1 hm1
            · rw [if_neg hg] at h2 ⊢
              exact hrestm x h2
        · rw [jsfuel_succ_obj] at h
          rw [jsfuel_succ_obj]
          rw [if_neg hret] at h ⊢
          exact hrestm x h
      | null => simp [isObj] at hobj
      | bool b => simp [isObj] at hobj
      | num mm => simp [isObj] at hobj
      | str s => simp [isObj] at hobj
      | arr xs => simp [isObj] at hobj

theorem jsfuel_succ_obj_err (v : ValidatorType) (n : Nat) (fs : List (String × Json))
    ( idPre idSep : String) (id : Option String) (root fd : Option Json)
    (guard : List Json) (cm : Option CustomMergeAllOf) (e : String)
    (hret : hasRetrievalKeys (.obj fs) = true)
    (hE : retrieveSchemaE v (.obj fs) root fd cm = .error e) :
    toIdSchemaJSFuel v (n + 1) (.obj fs) idPre idSep id root fd guard cm =
      some (.error e) := by
  rw [jsfuel_succ_obj, if_pos hret, hE]

theorem jsfuel_succ_obj_ok (v : ValidatorType) (n : Nat) (fs : List (String × Json))
    ( idPre idSep : String) (id : Option String) (root fd : Option Json)
    (guard : List Json) (cm : Option CustomMergeAllOf) (s1 : Json)
    (hret : hasRetrievalKeys (.obj fs) = true)
    (hE : retrieveSchemaE v (.obj fs) root fd cm = .ok s1) :
    toIdSchemaJSFuel v (n + 1) (.obj fs) idPre idSep id root fd guard cm =
      if !(guard.any (fun item => deepEquals item s1)) then
        toIdSchemaJSFuel v n s1 idPre idSep id root fd (guard ++ [s1]) cm
      else
        toIdSchemaRestJS
          (fun s i f => toIdSchemaJSFuel v n s idPre idSep i root f guard cm)
          (.obj fs) (jsOr id idPre) idSep id fd := by
  rw [jsfuel_succ_obj, if_pos hret, hE]

theorem jsfuel_succ_obj_nokeys (v : ValidatorType) (n : Nat) (fs : List (String × Json))
    ( idPre idSep : String) (id : Option String) (root fd : Option Json)
    (guard : List Json) (cm : Option CustomMergeAllOf)
    (hret : hasRetrievalKeys (.obj fs) = false) :
    toIdSchemaJSFuel v (n + 1) (.obj fs) idPre idSep id root fd guard cm =
      toIdSchemaRestJS
        (fun s i f => toIdSchemaJSFuel v n s idPre idSep i root f guard cm)
        (.obj fs) (jsOr id idPre) idSep id fd := by
  rw [jsfuel_succ_obj, if_neg (by simp [hret])]

theorem buildProps_exists
    (F : Nat → Json → Option String → Option Json → Option (Except String Json))
    (hmono : ∀ (n m : Nat) (s : Json) (i : Option String) (f : Option Json)
      (x : Except String Json), n ≤ m → F n s i f = some x → F m s i f = some x)
    (props : List (String × Json)) (sep : String) (fd : Option Json) :
    ∀ (names : List String),
      (∀ nm ∈ names, ∀ i : Option String,
        ∃ n x, F n ((lookupF props nm).getD .null) i (lodashGet fd nm) = some x) →
      ∀ acc : Json, ∃ N x, buildProps (F N) props sep fd names acc = some x := by
  intro names
  induction names with
  | nil =>
    intro _ acc
    exact ⟨0, .ok acc, rfl⟩
  | cons nm rest ih =>
    intro hall acc
    obtain ⟨n1, x1, h1⟩ := hall nm (List.mem_cons_self _ _)
      (some (jsToString ((acc.lookup "$id").getD .null) ++ sep ++ nm))
    cases x1 with
    | error e =>
      refine ⟨n1, .error e, ?_⟩
      rw [buildProps_cons, h1]
    | ok child =>
      obtain ⟨n2, x2, h2⟩ :=
        ih (fun q hq i => hall q (List.mem_cons_of_mem _ hq) i) (acc.setKey nm child)
      refine ⟨max n1 n2, x2, ?_⟩
      rw [buildProps_cons, hmono n1 _ _ _ _ _ (Nat.le_max_left _ _) h1]
      show buildProps (F (max n1 n2)) props sep fd rest (acc.setKey nm child) = some x2
      exact buildProps_mono (F n2) (F (max n1 n2))
        (fun s i f z hz => hmono n2 _ _ _ _ _ (Nat.le_max_right _ _) hz)
        rest props sep fd _ x2 h2

theorem exists_fuelJS : ∀ (a b c : Nat) (v : ValidatorType) (schema : Json)
    ( idPre idSep : String) (id : Option String) (root fd : Option Json)
    (guard : List Json),
    unmatched root guard = a → occJ schema = b → sizeJ schema = c →
    ∃ n r, toIdSchemaJSFuel v n schema idPre idSep id root fd guard none = some r := by
  intro a
  induction a using Nat.strong_induction_on with
  | _ a iha =>
  intro b
  induction b using Nat.strong_induction_on with
  | _ b ihb =>
  intro c
  induction c using Nat.strong_induction_on with
  | _ c ihc =>
  intro v schema idPre idSep id root fd guard ha hb hc
  cases hobj : isObj schema with
  | false =>
    exact ⟨1, .ok (.obj [("$id", .str (jsOr id idPre))]),
      jsfuel_succ_nonobj v 0 schema idPre idSep id root fd guard none hobj⟩
  | true =>
    obtain ⟨fs, rfl⟩ : ∃ fs, schema = .obj fs := by
      cases schema with
      | obj fs => exact ⟨fs, rfl⟩
      | null => simp [isObj] at hobj
      | bool bb => simp [isObj] at hobj
      | num nn => simp [isObj] at hobj
      | str ss => simp [isObj] at hobj
      | arr xs => simp [isObj] at hobj
    have hrest : ∃ n r, toIdSchemaRestJS
        (fun s i f => toIdSchemaJSFuel v n s idPre idSep i root f guard none)
        (.obj fs) (jsOr id idPre) idSep id fd = some r := by
      by_cases hdel : itemsDelegate (.obj fs) = true
      · have hitems : ∃ it, lookupF fs "items" = some it := by
          have hhk : (Json.obj fs).hasKey "items" = true := by
            have hdd := hdel
            simp only [itemsDelegate, Bool.and_eq_true] at hdd
            exact hdd.1
          simpa [Json.hasKey, Json.lookup, Option.isSome_iff_exists] using hhk
        obtain ⟨it, hit⟩ := hitems
        have hitlk : (Json.obj fs).lookup "items" = some it := hit
        have hoccle : occJ it ≤ b := hb ▸ lookup_occ_le fs "items" it hit
        have hsize : sizeJ it < c := hc ▸ lookup_size_lt fs "items" it hit
        have hone : ∃ n1 r1,
            toIdSchemaJSFuel v n1 it idPre idSep id root fd guard none = some r1 := by
          rcases Nat.lt_or_ge (occJ it) b with hlt | hge2
          · exact ihb _ hlt (sizeJ it) v it idPre idSep id root fd guard ha rfl rfl
          · have heq : occJ it = b := Nat.le_antisymm hoccle hge2
            exact ihc _ hsize v it idPre idSep id root fd guard ha heq rfl
        obtain ⟨n1, r1, hn1⟩ := hone
        refine ⟨n1, r1, ?_⟩
        rw [restJS_items _ _ _ _ _ _ hdel, hitlk]
        exact hn1
      · have hdelf : itemsDelegate (.obj fs) = false := by simpa using hdel
        by_cases hpc : ((getSchemaType (.obj fs) == "object") &&
            Json.hasKey (.obj fs) "properties") = true
        · cases hp : Json.lookup (.obj fs) "properties" with
          | some pv =>
            cases hpv : isObj pv with
            | true =>
              obtain ⟨props, rfl⟩ : ∃ props, pv = .obj props := by
                cases pv with
                | obj props => exact ⟨props, rfl⟩
                | null => simp [isObj] at hpv
                | bool bb => simp [isObj] at hpv
                | num nn => simp [isObj] at hpv
                | str ss => simp [isObj] at hpv
                | arr xs => simp [isObj] at hpv
              have hchild : ∀ nm ∈ forInKeys props, ∀ i : Option String,
                  ∃ n1 r1, toIdSchemaJSFuel v n1 ((lookupF props nm).getD .null) idPre idSep
                    i root (lodashGet fd nm) guard none = some r1 := by
                intro nm _ i
                cases hlf : lookupF props nm with
                | none =>
                  exact ⟨1, .ok (.obj [("$id", .str (jsOr i idPre))]),
                    jsfuel_succ_nonobj v 0 .null idPre idSep i root _ guard none rfl⟩
                | some pv =>
                  have hpmem : (nm, pv) ∈ props := lookupF_mem props nm pv hlf
                  have hocc2 : occJ pv ≤ b := by
                    rw [← hb]
                    have h1 : occJ pv ≤ occF props := value_occ_le props nm pv hpmem
                    have h2 : occJ (.obj props) ≤ occJ (.obj fs) :=
                      lookup_occ_le fs "properties" (.obj props) hp
                    simp only [occJ] at h2
                    simp only [occJ]
                    omega
                  have hsize2 : sizeJ pv < c := by
                    rw [← hc]
                    have h1 : sizeJ pv ≤ sizeF props := value_size_le props nm pv hpmem
                    have h2 : sizeJ (.obj props) < sizeJ (.obj fs) :=
                      lookup_size_lt fs "properties" (.obj props) hp
                    simp only [sizeJ] at h2 ⊢
                    omega
                  rcases Nat.lt_or_ge (occJ pv) b with hlt | hge2
                  · exact ihb _ hlt (sizeJ pv) v pv idPre idSep i root
                      (lodashGet fd nm) guard ha rfl rfl
                  · have heq : occJ pv = b := Nat.le_antisymm hocc2 hge2
                    exact ihc _ hsize2 v pv idPre idSep i root
                      (lodashGet fd nm) guard ha heq rfl
              obtain ⟨N, x, hN⟩ := buildProps_exists
                (fun n1 s i f => toIdSchemaJSFuel v n1 s idPre idSep i root f guard none)
                (fun n1 m1 s i f x hnm hx =>
                  jsfuel_mono n1 v s idPre idSep i root f guard none x hx m1 hnm)
                props idSep fd (forInKeys props) hchild
                (.obj [("$id", .str (jsOr id idPre))])
              refine ⟨N, x, ?_⟩
              rw [restJS_props _ _ _ _ _ _ props hdelf hpc hp]
              exact hN
            | false =>
              exact ⟨0, .ok (.obj [("$id", .str (jsOr id idPre))]),
                restJS_props_nonobj _ _ _ _ _ _ pv hdelf hpc hp hpv⟩
          | none =>
            exact ⟨0, .ok (.obj [("$id", .str (jsOr id idPre))]),
              restJS_props_none _ _ _ _ _ _ hdelf hpc hp⟩
        · have hpcf : ((getSchemaType (.obj fs) == "object") &&
              Json.hasKey (.obj fs) "properties") = false := by simpa using hpc
          exact ⟨0, .ok (.obj [("$id", .str (jsOr id idPre))]),
            restJS_bare _ _ _ _ _ _ hdelf hpcf⟩
    by_cases hret : hasRetrievalKeys (.obj fs) = true
    · cases hE : retrieveSchemaE v (.obj fs) root fd none with
      | error e =>
        exact ⟨1, .error e,
          jsfuel_succ_obj_err v 0 fs idPre idSep id root fd guard none e hret hE⟩
      | ok s1 =>
        cases hany : guard.any (fun item => deepEquals item s1) with
        | false =>
          have hprog := retrieveE_progress v (.obj fs) root fd s1 rfl hret hE
          have hle : unmatched root (guard ++ [s1]) ≤ a := by
            rw [← ha]
            exact unmatched_append_le root guard _
          have hwrap : ∀ n1 r1,
              toIdSchemaJSFuel v n1 s1 idPre idSep id root fd (guard ++ [s1]) none = some r1 →
              toIdSchemaJSFuel v (n1 + 1) (.obj fs) idPre idSep id root fd guard none =
                some r1 := by
            intro n1 r1 hn1
            rw [jsfuel_succ_obj_ok v n1 fs idPre idSep id root fd guard none s1 hret hE]
            rw [if_pos (by rw [hany]; rfl)]
            exact hn1
          rcases Nat.lt_or_ge (unmatched root (guard ++ [s1])) a with hlt | hge
          · obtain ⟨n1, r1, hn1⟩ := iha _ hlt (occJ s1) (sizeJ s1) v s1 idPre idSep id root fd
              _ rfl rfl rfl
            exact ⟨n1 + 1, r1, hwrap n1 r1 hn1⟩
          · rcases hprog with hmem | hocc
            · have hstr := unmatched_strict root guard _ hmem hany
              rw [ha] at hstr
              omega
            · have heq : unmatched root (guard ++ [s1]) = a := Nat.le_antisymm hle hge
              have hblt : occJ s1 < b := hb ▸ hocc
              obtain ⟨n1, r1, hn1⟩ := ihb _ hblt (sizeJ s1) v s1 idPre idSep id root fd _
                heq rfl rfl
              exact ⟨n1 + 1, r1, hwrap n1 r1 hn1⟩
        | true =>
          obtain ⟨n1, r1, hn1⟩ := hrest
          refine ⟨n1 + 1, r1, ?_⟩
          rw [jsfuel_succ_obj_ok v n1 fs idPre idSep id root fd guard none s1 hret hE]
          rw [if_neg (by rw [hany]; simp)]
          exact hn1
    · have hretf : hasRetrievalKeys (.obj fs) = false := by simpa using hret
      obtain ⟨n1, r1, hn1⟩ := hrest
      refine ⟨n1 + 1, r1, ?_⟩
      rw [jsfuel_succ_obj_nokeys v n1 fs idPre idSep id root fd guard none hretf]
      exact hn1

theorem buildProps_lookup_id
    (F : Json → Option String → Option Json → Option (Except String Json)) :
    ∀ (names : List String) (props : List (String × Json)) (sep : String) (fd : Option Json)
      (accfs : List (String × Json)) (r : Json),
      (∀ nm ∈ names, nm ≠ "$id") →
      buildProps F props sep fd names (.obj accfs) = some (.ok r) →
      r.lookup "$id" = lookupF accfs "$id" := by
  intro names
  induction names with
  | nil =>
    intro props sep fd accfs r _ h
    injection h with h2
    injection h2 with h3
    rw [← h3]
    rfl
  | cons nm rest ih =>
    intro props sep fd accfs r hnid h
    rw [buildProps_cons] at h
    cases hF : F ((lookupF props nm).getD .null)
        (some (jsToString ((Json.lookup (.obj accfs) "$id").getD .null) ++ sep ++ nm))
        (lodashGet fd nm) with
    | none =>
      rw [hF] at h
      exact Option.noConfusion h
    | some x1 =>
      rw [hF] at h
      cases x1 with
      | error e =>
        injection h with h2
        exact Except.noConfusion h2
      | ok child =>
        have hres := ih props sep fd (setKeyF accfs nm child) r
          (fun q hq => hnid q (List.mem_cons_of_mem _ hq)) h
        rw [hres]
        exact lookup_setKeyF_ne accfs nm child "$id"
          (fun heq => hnid nm (List.mem_cons_self _ _) heq.symm)

theorem jsresult_id : ∀ (n : Nat) (v : ValidatorType) (schema : Json)
    ( idPre idSep : String) (id : Option String) (root fd : Option Json)
    (guard : List Json) (r : Json),
    keysAll (fun k => k ≠ "$id") schema → keysAllO (fun k => k ≠ "$id") root →
    toIdSchemaJSFuel v n schema idPre idSep id root fd guard none = some (.ok r) →
    r.lookup "$id" = some (.str (jsOr id idPre)) := by
  intro n
  induction n with
  | zero =>
    intro v schema idPre idSep id root fd guard r _ _ h
    simp [toIdSchemaJSFuel] at h
  | succ n ih =>
    intro v schema idPre idSep id root fd guard r hs hr h
    cases hobj : isObj schema with
    | false =>
      rw [jsfuel_succ_nonobj v n schema idPre idSep id root fd guard none hobj] at h
      injection h with h2
      injection h2 with h3
      rw [← h3]
      rfl
    | true =>
      cases schema with
      | obj fs =>
        have hrestid :
            toIdSchemaRestJS (fun s i f => toIdSchemaJSFuel v n s idPre idSep i root f guard none)
              (.obj fs) (jsOr id idPre) idSep id fd = some (.ok r) →
            r.lookup "$id" = some (.str (jsOr id idPre)) := by
          intro hy
          by_cases hdel : itemsDelegate (.obj fs) = true
          · rw [restJS_items _ _ _ _ _ _ hdel] at hy
            cases hit : Json.lookup (.obj fs) "items" with
            | some it =>
              rw [hit] at hy
              have hsit : keysAll (fun k => k ≠ "$id") it :=
                keysAll_sub _ _ it hs (sub_of_lookup (.obj fs) "items" it hit it (self_mem_subJ it))
              exact ih v it idPre idSep id root fd guard r hsit hr hy
            | none =>
              rw [hit] at hy
              have hsn : keysAll (fun k => k ≠ "$id") .null := by
                intro x hx
                rcases List.mem_singleton.mp hx with rfl
                exact trivial
              exact ih v .null idPre idSep id root fd guard r hsn hr hy
          · have hdelf : itemsDelegate (.obj fs) = false := by simpa using hdel
            by_cases hpc : ((getSchemaType (.obj fs) == "object") &&
                Json.hasKey (.obj fs) "properties") = true
            · cases hp : Json.lookup (.obj fs) "properties" with
              | some pv =>
                cases hpv : isObj pv with
                | true =>
                  obtain ⟨props, rfl⟩ : ∃ props, pv = .obj props := by
                    cases pv with
                    | obj props => exact ⟨props, rfl⟩
                    | null => simp [isObj] at hpv
                    | bool b => simp [isObj] at hpv
                    | num nn => simp [isObj] at hpv
                    | str s => simp [isObj] at hpv
                    | arr xs => simp [isObj] at hpv
                  rw [restJS_props _ _ _ _ _ _ props hdelf hpc hp] at hy
                  have hpk : keysAll (fun k => k ≠ "$id") (.obj props) :=
                    keysAll_sub _ _ _ hs (sub_of_lookup (.obj fs) "properties" (.obj props) hp
                      (.obj props) (self_mem_subJ _))
                  have hnid : ∀ nm ∈ forInKeys props, nm ≠ "$id" := by
                    intro nm hnm
                    obtain ⟨vv, hvv⟩ := (mem_keysOf props nm).mp (mem_forInKeys props nm hnm)
                    exact ((keysAll_obj_iff _ props).mp hpk).1 (nm, vv) hvv
                  have hres := buildProps_lookup_id _ (forInKeys props) props idSep fd
                    [("$id", .str (jsOr id idPre))] r hnid hy
                  rw [hres]
                  rfl
                | false =>
                  rw [restJS_props_nonobj _ _ _ _ _ _ pv hdelf hpc hp hpv] at hy
                  injection hy with h2
                  injection h2 with h3
                  rw [← h3]
                  rfl
              | none =>
                rw [restJS_props_none _ _ _ _ _ _ hdelf hpc hp] at hy
                injection hy with h2
                injection h2 with h3
                rw [← h3]
                rfl
            · have hpcf : ((getSchemaType (.obj fs) == "object") &&
                  Json.hasKey (.obj fs) "properties") = false := by simpa using hpc
              rw [restJS_bare _ _ _ _ _ _ hdelf hpcf] at hy
              injection hy with h2
              injection h2 with h3
              rw [← h3]
              rfl
        by_cases hret : hasRetrievalKeys (.obj fs) = true
        · cases hE : retrieveSchemaE v (.obj fs) root fd none with
          | error e =>
            rw [jsfuel_succ_obj_err v n fs idPre idSep id root fd guard none e hret hE] at h
            injection h with h2
            exact Except.noConfusion h2
          | ok s1 =>
            rw [jsfuel_succ_obj_ok v n fs idPre idSep id root fd guard none s1 hret hE] at h
            by_cases hg : (!(guard.any (fun item => deepEquals item s1))) = true
            · rw [if_pos hg] at h
              exact ih v s1 idPre idSep id root fd _ r
                (keysAll_retrieveE _ v (.obj fs) s1 root fd hs hr hE) hr h
            · rw [if_neg hg] at h
              exact hrestid h
        · have hretf : hasRetrievalKeys (.obj fs) = false := by simpa using hret
          rw [jsfuel_succ_obj_nokeys v n fs idPre idSep id root fd guard none hretf] at h
          exact hrestid h
      | null => simp [isObj] at hobj
      | bool b => simp [isObj] at hobj
      | num m => simp [isObj] at hobj
      | str s => simp [isObj] at hobj
      | arr xs => simp [isObj] at hobj

theorem buildProps_clobberfree
    (F : Json → Option String → Option Json → Option (Except String Json)) :
    ∀ (names : List String) (props : List (String × Json)) (sep idStr : String)
      (fd : Option Json) (accfs : List (String × Json)) (r : Except String Json),
      (∀ nm ∈ names, nm ≠ "$id") → names.Nodup →
      lookupF accfs "$id" = some (.str idStr) →
      (∀ nm ∈ names, lookupF accfs nm = none) →
      buildProps F props sep fd names (.obj accfs) = some r →
      (∃ e, r = .error e) ∨
        ∃ kids, r = .ok (.obj (accfs ++ kids)) ∧ kids.map Prod.fst = names ∧
          ∀ pr ∈ kids, F ((lookupF props pr.1).getD .null) (some (idStr ++ sep ++ pr.1))
            (lodashGet fd pr.1) = some (.ok pr.2) := by
  intro names
  induction names with
  | nil =>
    intro props sep idStr fd accfs r _ _ _ _ h
    injection h with h2
    right
    refine ⟨[], ?_, rfl, ?_⟩
    · rw [← h2, List.append_nil]
    · intro pr hpr
      exact absurd hpr (List.not_mem_nil pr)
  | cons nm rest ih =>
    intro props sep idStr fd accfs r hnid hnd hacc hfresh h
    rw [buildProps_cons] at h
    have hidv : (Json.lookup (.obj accfs) "$id").getD .null = .str idStr := by
      show (lookupF accfs "$id").getD .null = .str idStr
      rw [hacc]
      rfl
    rw [hidv] at h
    have hfid : jsToString (.str idStr) = idStr := rfl
    rw [hfid] at h
    cases hF : F ((lookupF props nm).getD .null) (some (idStr ++ sep ++ nm))
        (lodashGet fd nm) with
    | none =>
      rw [hF] at h
      exact Option.noConfusion h
    | some x1 =>
      rw [hF] at h
      cases x1 with
      | error e =>
        injection h with h2
        exact Or.inl ⟨e, h2.symm⟩
      | ok child =>
        have hfr : lookupF accfs nm = none := hfresh nm (List.mem_cons_self _ _)
        have h2 : buildProps F props sep fd rest ((Json.obj accfs).setKey nm child) =
            some r := h
        have hset : (Json.obj accfs).setKey nm child = .obj (accfs ++ [(nm, child)]) := by
          show Json.obj (setKeyF accfs nm child) = .obj (accfs ++ [(nm, child)])
          rw [setKeyF_fresh accfs nm child hfr]
        rw [hset] at h2
        obtain ⟨hnm1, hnd2⟩ := List.nodup_cons.mp hnd
        have hacc2 : lookupF (accfs ++ [(nm, child)]) "$id" = some (.str idStr) :=
          lookupF_append_some accfs _ "$id" _ hacc
        have hfresh2 : ∀ q ∈ rest, lookupF (accfs ++ [(nm, child)]) q = none := by
          intro q hq
          apply lookupF_append_none
          · exact hfresh q (List.mem_cons_of_mem _ hq)
          · simp only [lookupF]
            rw [if_neg (by
              intro heq
              exact hnm1 (by rw [heq]; exact hq))]
        have hres := ih props sep idStr fd (accfs ++ [(nm, child)]) r
          (fun q hq => hnid q (List.mem_cons_of_mem _ hq)) hnd2 hacc2 hfresh2 h2
        rcases hres with ⟨e, he⟩ | ⟨kids, hk1, hk2, hk3⟩
        · exact Or.inl ⟨e, he⟩
        · right
          refine ⟨(nm, child) :: kids, ?_, ?_, ?_⟩
          · rw [hk1, List.append_assoc]
            rfl
          · simp only [List.map_cons, hk2]
          · intro pr hpr
            rcases List.mem_cons.mp hpr with rfl | hpr2
            · exact hF
            · exact hk3 pr hpr2

theorem resolveDepsJS_fd (schema : Json) (fd : Option Json)
    (hfd : ∀ k, lodashGet fd k = none) :
    resolveDependenciesJS schema fd = resolveDependenciesJS schema none := by
  cases hl : schema.lookup "dependencies" with
  | none => simp only [resolveDependenciesJS, hl]
  | some dv =>
    cases dv with
    | obj deps =>
      simp only [resolveDependenciesJS, hl]
      have hfilter : (dedupKeys deps).filter
          (fun p => (lodashGet fd p.1).isSome && isObj p.2) =
          (dedupKeys deps).filter (fun p => (lodashGet none p.1).isSome && isObj p.2) := by
        apply List.filter_congr
        intro p _
        rw [hfd p.1]
        rfl
      rw [hfilter]
    | null => simp only [resolveDependenciesJS, hl]
    | bool b => simp only [resolveDependenciesJS, hl]
    | num n => simp only [resolveDependenciesJS, hl]
    | str s => simp only [resolveDependenciesJS, hl]
    | arr xs => simp only [resolveDependenciesJS, hl]

theorem retrieveE_fd (v : ValidatorType) (schema : Json) (root fd : Option Json)
    (cm : Option CustomMergeAllOf) (hfd : ∀ k, lodashGet fd k = none) :
    retrieveSchemaE v schema root fd cm = retrieveSchemaE v schema root none cm := by
  cases hl : schema.lookup "$ref" with
  | some rv =>
    cases rv with
    | str ptr => simp only [retrieveSchemaE, hl]
    | null => simp only [retrieveSchemaE, hl]
    | bool b => simp only [retrieveSchemaE, hl]
    | num n => simp only [retrieveSchemaE, hl]
    | arr xs => simp only [retrieveSchemaE, hl]
    | obj gs => simp only [retrieveSchemaE, hl]
  | none =>
    simp only [retrieveSchemaE, hl]
    rw [resolveDepsJS_fd schema fd hfd]

theorem buildProps_fd (F : Json → Option String → Option Json → Option (Except String Json))
    (fd : Option Json) (hfd : ∀ k, lodashGet fd k = none) :
    ∀ (names : List String) (props : List (String × Json)) (sep : String) (acc : Json),
      buildProps F props sep fd names acc = buildProps F props sep none names acc := by
  intro names
  induction names with
  | nil => intro props sep acc; rfl
  | cons nm rest ih =>
    intro props sep acc
    rw [buildProps_cons, buildProps_cons]
    have hn : lodashGet (none : Option Json) nm = none := rfl
    rw [hfd nm, hn]
    cases hF : F ((lookupF props nm).getD .null)
        (some (jsToString ((acc.lookup "$id").getD .null) ++ sep ++ nm)) none with
    | none => rfl
    | some x1 =>
      cases x1 with
      | error e => rfl
      | ok child => exact ih props sep (acc.setKey nm child)

theorem jsfuel_fd_none : ∀ (n : Nat) (v : ValidatorType) (schema : Json)
    ( idPre idSep : String) (id : Option String) (root fd : Option Json)
    (guard : List Json) (cm : Option CustomMergeAllOf),
    (∀ k, lodashGet fd k = none) →
    toIdSchemaJSFuel v n schema idPre idSep id root fd guard cm =
      toIdSchemaJSFuel v n schema idPre idSep id root none guard cm := by
  intro n
  induction n with
  | zero => intro v schema idPre idSep id root fd guard cm _; rfl
  | succ n ih =>
    intro v schema idPre idSep id root fd guard cm hfd
    cases hobj : isObj schema with
    | false =>
      rw [jsfuel_succ_nonobj v n schema idPre idSep id root fd guard cm hobj]
      rw [jsfuel_succ_nonobj v n schema idPre idSep id root none guard cm hobj]
    | true =>
      cases schema with
      | obj fs =>
        have hrest :
            toIdSchemaRestJS (fun s i f => toIdSchemaJSFuel v n s idPre idSep i root f guard cm)
              (.obj fs) (jsOr id idPre) idSep id fd =
            toIdSchemaRestJS (fun s i f => toIdSchemaJSFuel v n s idPre idSep i root f guard cm)
              (.obj fs) (jsOr id idPre) idSep id none := by
          by_cases hdel : itemsDelegate (.obj fs) = true
          · rw [restJS_items _ _ _ _ _ _ hdel, restJS_items _ _ _ _ _ _ hdel]
            exact ih v _ idPre idSep id root fd guard cm hfd
          · have hdelf : itemsDelegate (.obj fs) = false := by simpa using hdel
            by_cases hpc : ((getSchemaType (.obj fs) == "object") &&
                Json.hasKey (.obj fs) "properties") = true
            · cases hp : Json.lookup (.obj fs) "properties" with
              | some pv =>
                cases hpv : isObj pv with
                | true =>
                  obtain ⟨props, rfl⟩ : ∃ props, pv = .obj props := by
                    cases pv with
                    | obj props => exact ⟨props, rfl⟩
                    | null => simp [isObj] at hpv
                    | bool b => simp [isObj] at hpv
                    | num nn => simp [isObj] at hpv
                    | str s => simp [isObj] at hpv
                    | arr xs => simp [isObj] at hpv
                  rw [restJS_props _ _ _ _ _ _ props hdelf hpc hp]
                  rw [restJS_props _ _ _ _ _ _ props hdelf hpc hp]
                  exact buildProps_fd _ fd hfd (forInKeys props) props idSep _
                | false =>
                  rw [restJS_props_nonobj _ _ _ _ _ _ pv hdelf hpc hp hpv]
                  rw [restJS_props_nonobj _ _ _ _ _ _ pv hdelf hpc hp hpv]
              | none =>
                rw [restJS_props_none _ _ _ _ _ _ hdelf hpc hp]
                rw [restJS_props_none _ _ _ _ _ _ hdelf hpc hp]
            · have hpcf : ((getSchemaType (.obj fs) == "object") &&
                  Json.hasKey (.obj fs) "properties") = false := by simpa using hpc
              rw [restJS_bare _ _ _ _ _ _ hdelf hpcf, restJS_bare _ _ _ _ _ _ hdelf hpcf]
        by_cases hret : hasRetrievalKeys (.obj fs) = true
        · have hEeq := retrieveE_fd v (.obj fs) root fd cm hfd
          cases hE : retrieveSchemaE v (.obj fs) root none cm with
          | error e =>
            rw [jsfuel_succ_obj_err v n fs idPre idSep id root fd guard cm e hret
              (hEeq.trans hE)]
            rw [jsfuel_succ_obj_err v n fs idPre idSep id root none guard cm e hret hE]
          | ok s1 =>
            rw [jsfuel_succ_obj_ok v n fs idPre idSep id root fd guard cm s1 hret
              (hEeq.trans hE)]
            rw [jsfuel_succ_obj_ok v n fs idPre idSep id root none guard cm s1 hret hE]
            by_cases hg : (!(guard.any (fun item => deepEquals item s1))) = true
            · rw [if_pos hg, if_pos hg]
              exact ih v s1 idPre idSep id root fd _ cm hfd
            · rw [if_neg hg, if_neg hg]
              exact hrest
        · have hretf : hasRetrievalKeys (.obj fs) = false := by simpa using hret
          rw [jsfuel_succ_obj_nokeys v n fs idPre idSep id root fd guard cm hretf]
          rw [jsfuel_succ_obj_nokeys v n fs idPre idSep id root none guard cm hretf]
          exact hrest
      | null => simp [isObj] at hobj
      | bool b => simp [isObj] at hobj
      | num m => simp [isObj] at hobj
      | str s => simp [isObj] at hobj
      | arr xs => simp [isObj] at hobj

/-- Claim C1 counterexample: a schema that contains a reference cycle is not
guaranteed to return an identifier tree without throwing — if it also
contains an unresolvable reference, the retrieval raises a caller-visible
`ReferenceError` that propagates out of the build.  `exDangling` holds the
cyclic member `{$ref: #/defs/node}` (which on its own terminates in the
guarded bare node, third conjunct) next to the dangling `{$ref: #/missing}`;
the build on it yields the error `#/missing`, which is not a returned tree. -/
theorem c1_counterexample :
    toIdSchemaJS exValidator 6 exDangling none (some cycRoot) none none none none =
      some (.error "#/missing") ∧
    (∀ t : Json, some (Except.error "#/missing") ≠ some (Except.ok t)) ∧
    toIdSchemaJSFuel exValidator 4 (.obj [("$ref", .str "#/defs/node")]) "root" "_" none
      (some cycRoot) none [] none = some (.ok (.obj [("$id", .str "root")])) := by
  refine ⟨rfl, ?_, rfl⟩
  intro t h
  injection h with h2
  exact Except.noConfusion h2

/-- Claim C1 amended: for every schema, root schema, form data and guard
list the build terminates with a result — an identifier tree when every
reference encountered resolves, and the caller-visible `ReferenceError` of
the unresolvable reference otherwise (even when the schema also contains a
cycle).  Cycle detection itself is never an error: when the retrieved node
is structurally equal (`deepEquals`) to some entry of the recursion guard
list, the builder does not recurse into the retrieved node but continues
with the current node as-is into the items/properties handling, and the
purely self-referential scenario-3 schema returns the bare tree `{$id:
root}` without an error. -/
theorem c1_amended :
    (∀ (v : ValidatorType) (schema : Json) ( idPre idSep : String) (id : Option String)
      (root fd : Option Json) (guard : List Json),
      ∃ n r, toIdSchemaJSFuel v n schema idPre idSep id root fd guard none = some r) ∧
    (∀ (v : ValidatorType) (n : Nat) (fs : List (String × Json)) ( idPre idSep : String)
      (id : Option String) (root fd : Option Json) (guard : List Json)
      (cm : Option CustomMergeAllOf) (s1 : Json),
      hasRetrievalKeys (.obj fs) = true →
      retrieveSchemaE v (.obj fs) root fd cm = .ok s1 →
      guard.any (fun item => deepEquals item s1) = true →
      toIdSchemaJSFuel v (n + 1) (.obj fs) idPre idSep id root fd guard cm =
        toIdSchemaRestJS
          (fun s i f => toIdSchemaJSFuel v n s idPre idSep i root f guard cm)
          (.obj fs) (jsOr id idPre) idSep id fd) ∧
    toIdSchemaJS exValidator 3 cycSchema none (some cycRoot) none none none none =
      some (.ok (.obj [("$id", .str "root")])) := by
  refine ⟨?_, ?_, rfl⟩
  · intro v schema idPre idSep id root fd guard
    exact exists_fuelJS (unmatched root guard) (occJ schema) (sizeJ schema)
      v schema idPre idSep id root fd guard rfl rfl rfl
  · intro v n fs idPre idSep id root fd guard cm s1 hret hE hany
    rw [jsfuel_succ_obj_ok v n fs idPre idSep id root fd guard cm s1 hret hE]
    rw [if_neg (by rw [hany]; simp)]

theorem c1_amended_witness :
    (∃ n r, toIdSchemaJSFuel exValidator n cycSchema "root" "_" none (some cycRoot) none
      [] none = some r) ∧
    toIdSchemaJSFuel exValidator 1 cycSchema "root" "_" none (some cycRoot) none
      [cycSchema] none =
      toIdSchemaRestJS
        (fun s i f => toIdSchemaJSFuel exValidator 0 s "root" "_" i (some cycRoot) f
          [cycSchema] none)
        cycSchema "root" "_" none none := by
  exact ⟨c1_amended.1 exValidator cycSchema "root" "_" none (some cycRoot) none [],
    c1_amended.2.1 exValidator 0 [("$ref", .str "#/defs/node")] "root" "_" none
      (some cycRoot) none [cycSchema] none cycSchema (by decide) rfl (by decide)⟩

/-- Claim C2 counterexample: the object case does not always assign each
child the identifier `currentId ++ idSeparator ++ propertyName`, nor does it
always iterate in declared property order.  A property literally named `$id`
overwrites the `$id` slot of the object under construction, so the later
sibling `x` receives `[object Object]_x` instead of `root_x` (first two
conjuncts); and JavaScript for-in enumeration lists integer-like keys first,
so the declared order `b, 0` is traversed as `0, b` (last three conjuncts). -/
theorem c2_counterexample :
    toIdSchemaJS exValidator 3 exIdProp none none none none none none =
      some (.ok (.obj [("$id", .obj [("$id", .str "root_$id")]),
                       ("x", .obj [("$id", .str "[object Object]_x")])])) ∧
    ("[object Object]_x" : String) ≠ "root" ++ "_" ++ "x" ∧
    toIdSchemaJS exValidator 3 exOrderProp none none none none none none =
      some (.ok (.obj [("$id", .str "root"), ("0", .obj [("$id", .str "root_0")]),
                       ("b", .obj [("$id", .str "root_b")])])) ∧
    keysOf [("b", Json.obj []), ("0", Json.obj [])] = ["b", "0"] ∧
    (["0", "b"] : List String) ≠ ["b", "0"] := by
  exact ⟨rfl, by decide, rfl, rfl, by decide⟩

/-- Claim C2 amended: for an object-classified schema with declared
properties none of which is named `$id` or integer-like (so that for-in
enumeration is the declared order and the `$id` slot is never overwritten),
the builder recurses per declared property in declared order, assigning each
child the identifier `currentId ++ idSeparator ++ propertyName` and the
form-data slice `get(formData, [name])` — unless a child raises, in which
case the error propagates; concretely, the schema
`{type: object, properties: {a: string, b: number}}` with prefix `root` and
separator `_` yields `{$id: root, a: {$id: root_a}, b: {$id: root_b}}`. -/
theorem c2_amended :
    (∀ (v : ValidatorType) (n : Nat) (fs props : List (String × Json))
      ( idPre idSep : String) (id : Option String) (root fd : Option Json)
      (guard : List Json) (cm : Option CustomMergeAllOf) (r : Except String Json),
      hasRetrievalKeys (.obj fs) = false →
      itemsDelegate (.obj fs) = false →
      ((getSchemaType (.obj fs) == "object") && Json.hasKey (.obj fs) "properties") = true →
      Json.lookup (.obj fs) "properties" = some (.obj props) →
      (∀ k ∈ keysOf props, k ≠ "$id") →
      (∀ k ∈ keysOf props, integerLike k = false) →
      NodupKeys props →
      toIdSchemaJSFuel v (n + 1) (.obj fs) idPre idSep id root fd guard cm = some r →
      (∃ e, r = .error e) ∨
        ∃ kids, r = .ok (.obj (("$id", .str (jsOr id idPre)) :: kids)) ∧
          kids.map Prod.fst = props.map Prod.fst ∧
          ∀ pr ∈ kids, ∃ p ∈ props, pr.1 = p.1 ∧
            toIdSchemaJSFuel v n p.2 idPre idSep (some (jsOr id idPre ++ idSep ++ p.1)) root
              (lodashGet fd p.1) guard cm = some (.ok pr.2)) ∧
    toIdSchemaJS exValidator 3 exObjSchema none none none (some "root") (some "_") none =
      some (.ok exObjJson) := by
  constructor
  · intro v n fs props idPre idSep id root fd guard cm r hkeys hdel hpc hp hnid hint hnd h
    rw [jsfuel_succ_obj_nokeys v n fs idPre idSep id root fd guard cm hkeys] at h
    rw [restJS_props _ _ _ _ _ _ props hdel hpc hp] at h
    rw [forInKeys_plain props hint hnd] at h
    have hfresh : ∀ nm ∈ keysOf props, lookupF [("$id", Json.str (jsOr id idPre))] nm =
        none := by
      intro nm hnm
      simp only [lookupF]
      rw [if_neg (fun heq => hnid nm hnm heq.symm)]
    have hres := buildProps_clobberfree _ (keysOf props) props idSep (jsOr id idPre) fd
      [("$id", .str (jsOr id idPre))] r hnid hnd rfl hfresh h
    rcases hres with ⟨e, he⟩ | ⟨kids, hk1, hk2, hk3⟩
    · exact Or.inl ⟨e, he⟩
    · right
      refine ⟨kids, ?_, hk2, ?_⟩
      · rw [hk1]
        rfl
      · intro pr hpr
        have hF := hk3 pr hpr
        have hmem : pr.1 ∈ keysOf props := by
          rw [← hk2]
          exact List.mem_map_of_mem _ hpr
        obtain ⟨field, hfield⟩ : ∃ fv, lookupF props pr.1 = some fv := by
          cases hlf : lookupF props pr.1 with
          | some fv => exact ⟨fv, rfl⟩
          | none => exact absurd hmem ((lookupF_eq_none_iff props pr.1).mp hlf)
        refine ⟨(pr.1, field), lookupF_mem props pr.1 field hfield, rfl, ?_⟩
        rw [hfield] at hF
        exact hF
  · rfl

theorem c2_amended_witness :
    ∃ kids : List (String × Json),
      (Except.ok exObjJson : Except String Json) =
        .ok (.obj (("$id", .str "root") :: kids)) ∧
      kids.map Prod.fst = ["a", "b"] := by
  have happ := (c2_amended.1 exValidator 1
    [("type", .str "object"),
     ("properties", .obj [("a", .obj [("type", .str "string")]),
                          ("b", .obj [("type", .str "number")])])]
    [("a", .obj [("type", .str "string")]), ("b", .obj [("type", .str "number")])]
    "root" "_" none none none [] none
    (.ok (.obj [("$id", .str "root"), ("a", .obj [("$id", .str "root_a")]),
                ("b", .obj [("$id", .str "root_b")])]))
    (by decide) (by decide) (by decide) rfl (by decide) (by decide) (by decide) rfl)
  rcases happ with ⟨e, he⟩ | ⟨kids, hk1, hk2, _⟩
  · exact absurd he (by simp)
  · exact ⟨kids, hk1, hk2⟩

/-- Claim C6 counterexample: the root of the returned object does not always
carry the supplied base id.  With the supplied base id `""` the root carries
`"root"` — the JavaScript expression `id || idPrefix` treats the empty string
as absent (first two conjuncts).  And with base id `"base"` and a property
literally named `$id`, the loop assignment `idSchema[name] = …` overwrites
the root's `$id` slot with the child subtree, so the root carries an object,
not the supplied `"base"` (last two conjuncts). -/
theorem c6_counterexample :
    toIdSchemaJS exValidator 1 (.bool true) (some "") none none none none none =
      some (.ok (.obj [("$id", .str "root")])) ∧
    ("root" : String) ≠ "" ∧
    toIdSchemaJS exValidator 3 (.obj [("properties", .obj [("$id", .obj [])])]) (some "base")
      none none none none none =
      some (.ok (.obj [("$id", .obj [("$id", .str "base_$id")])])) ∧
    (Json.obj [("$id", .str "base_$id")]) ≠ .str "base" := by
  exact ⟨rfl, by decide, rfl, by decide⟩

/-- Claim C6 amended: provided no object key in the schema or the root
schema equals `$id` (a property of that name overwrites the root's `$id`
slot with the child subtree), the root of any object the build returns
carries `$id` equal to the supplied base id when a non-empty one is
supplied, and the id prefix when the base id is absent or empty (JavaScript
falsiness of `id || idPrefix`), i.e. `jsOr id ( idPrefix.getD "root")` at
the public entry point. -/
theorem c6_amended :
    ∀ (v : ValidatorType) (fuel : Nat) (schema : Json) (id : Option String)
      (root fd : Option Json) ( idPre idSep : Option String) (r : Json),
      keysAll (fun k => k ≠ "$id") schema →
      keysAllO (fun k => k ≠ "$id") root →
      toIdSchemaJS v fuel schema id root fd idPre idSep none = some (.ok r) →
      r.lookup "$id" = some (.str (jsOr id ( idPre.getD "root"))) := by
  intro v fuel schema id root fd idPre idSep r hs hr h
  exact jsresult_id fuel v schema ( idPre.getD "root") (idSep.getD "_") id root fd [] r
    hs hr h

theorem c6_amended_witness :
    keysAll (fun k => k ≠ "$id") (Json.bool true) ∧
    (Json.obj [("$id", Json.str "root")]).lookup "$id" =
      some (.str (jsOr (some "") ((none : Option String).getD "root"))) := by
  refine ⟨by decide, ?_⟩
  exact c6_amended exValidator 1 (.bool true) (some "") none none none none
    (.obj [("$id", .str "root")]) (by decide) (by decide) rfl

/-- Claim C8 counterexample: form data that is not an object is not always
treated as absent.  lodash `get(formData, [name])` resolves integer-like
names on strings (and arrays) by index, so with the string form data `"ab"`
the property named `0` receives the slice `"a"` rather than the empty value,
and here that slice fires a `dependencies` condition: the build result
differs from the result with absent form data. -/
theorem c8_counterexample :
    lodashGet (some (.str "ab")) "0" = some (.str "a") ∧
    toIdSchemaJS exValidator 5 exFdSchema none none (some (.str "ab")) none none none =
      some (.ok (.obj [("$id", .str "root"),
        ("0", .obj [("$id", .str "root_0"), ("dd", .obj [("$id", .str "root_0_dd")])])])) ∧
    toIdSchemaJS exValidator 5 exFdSchema none none none none none none =
      some (.ok (.obj [("$id", .str "root"), ("0", .obj [("$id", .str "root_0")])])) ∧
    (Json.obj [("$id", .str "root"),
        ("0", .obj [("$id", .str "root_0"), ("dd", .obj [("$id", .str "root_0_dd")])])]) ≠
      .obj [("$id", .str "root"), ("0", .obj [("$id", .str "root_0")])] := by
  exact ⟨rfl, rfl, rfl, by decide⟩

/-- Claim C8 amended: form data that is absent, null, a boolean or a number
is not an error and is treated exactly as absent form data: every slice
`get(formData, [name])` is the absent value, the whole build computes the
same result as with absent form data (so form data of these shapes never
causes an error that absent form data would not cause), and the build still
terminates with a result.  Array and string form data, by contrast, are
index-resolved by lodash `get` (see the counterexample). -/
theorem c8_amended :
    ∀ (fd : Option Json),
      (fd = none ∨ fd = some .null ∨ (∃ b, fd = some (.bool b)) ∨
        ∃ m, fd = some (.num m)) →
      (∀ name, lodashGet fd name = none) ∧
      (∀ (v : ValidatorType) (n : Nat) (schema : Json) ( idPre idSep : String)
        (id : Option String) (root : Option Json) (guard : List Json)
        (cm : Option CustomMergeAllOf),
        toIdSchemaJSFuel v n schema idPre idSep id root fd guard cm =
          toIdSchemaJSFuel v n schema idPre idSep id root none guard cm) ∧
      (∀ (v : ValidatorType) (schema : Json) ( idPre idSep : String) (id : Option String)
        (root : Option Json) (guard : List Json),
        ∃ n r, toIdSchemaJSFuel v n schema idPre idSep id root fd guard none = some r) := by
  intro fd hfd
  have hnone : ∀ name, lodashGet fd name = none := by
    rcases hfd with rfl | rfl | ⟨b, rfl⟩ | ⟨m, rfl⟩ <;> intro name <;> rfl
  refine ⟨hnone, ?_, ?_⟩
  · intro v n schema idPre idSep id root guard cm
    exact jsfuel_fd_none n v schema idPre idSep id root fd guard cm hnone
  · intro v schema idPre idSep id root guard
    exact exists_fuelJS (unmatched root guard) (occJ schema) (sizeJ schema) v schema
      idPre idSep id root fd guard rfl rfl rfl

theorem c8_amended_witness :
    (∀ name, lodashGet (some (.num 5)) name = none) ∧
    (∀ (v : ValidatorType) (n : Nat) (schema : Json) ( idPre idSep : String)
      (id : Option String) (root : Option Json) (guard : List Json)
      (cm : Option CustomMergeAllOf),
      toIdSchemaJSFuel v n schema idPre idSep id root (some (.num 5)) guard cm =
        toIdSchemaJSFuel v n schema idPre idSep id root none guard cm) ∧
    (∀ (v : ValidatorType) (schema : Json) ( idPre idSep : String) (id : Option String)
      (root : Option Json) (guard : List Json),
      ∃ n r, toIdSchemaJSFuel v n schema idPre idSep id root (some (.num 5)) guard none =
        some r) := by
  exact c8_amended (some (.num 5)) (Or.inr (Or.inr (Or.inr ⟨5, rfl⟩)))
